import Mathlib

/-!
Shallow embedding of the map/movement core of the Revengate dungeon engine
(`revengate/maps.py`) together with proofs about its documented behaviour.

Conventions of the embedding:
* Python `(x, y)` integer pairs become `Pos := Int × Int`.
* Python dicts become functions into `Option`; `del d[k]` and `d[k] = v` become
  pointwise functional updates.  Python sets become `Finset`.
* Fallible code returns `Except PyErr` (an uncaught Python exception is an
  `error` value); unbounded `while` loops take an explicit fuel argument and
  return `none` when the fuel runs out.
* The shared random source (`revengate.randutils.rng`) is not part of the
  sources; following the spec it is modelled as an explicit oracle supplying
  the results of `shuffle` and of random position draws.
-/

namespace Revengate

/-- Positions are `(x, y)` pairs of Python integers. -/
abbrev Pos : Type := Int × Int

/-- Actors are modelled from the spec: an opaque identity carrying a unique
identifier; we identify the actor with its identifier (a natural number). -/
abbrev ActorT : Type := Nat

/-- Modelled from the spec: the unique identifier of an actor (`actor.id`). -/
def actorId (a : ActorT) : Nat := a

/-- Items are opaque identities, like actors. -/
abbrev ItemT : Type := Nat

/-- Mood markers (`factions.Mood`) are opaque values. -/
abbrev MoodT : Type := Nat

/-- A tile of the grid: the `TileType` enumeration of `maps.py` together with
the `Connector` class (a tile object carrying a display char and an optional
destination map identifier), which can also sit in the tile array. -/
inductive Tile where
  | solidRock
  | floor
  | wall
  | wallV
  | wallH
  | doorwayOpen
  | doorwayClosed
  | conn (char : Char) (destMap : Option Nat)
deriving DecidableEq, Repr

/-- Membership in the `WALKABLE` list (`[FLOOR, DOORWAY_OPEN]`); a `Connector`
instance is not a member of that list. -/
def inWalkableList : Tile → Bool
  | .floor => true
  | .doorwayOpen => true
  | _ => false

/-- Membership in the `SEE_THROUGH` list (`[FLOOR, DOORWAY_OPEN]`). -/
def inSeeThroughList : Tile → Bool
  | .floor => true
  | .doorwayOpen => true
  | _ => false

/-- Membership in the `WALLS` list (`[WALL, WALL_H, WALL_V]`). -/
def inWallsList : Tile → Bool
  | .wall => true
  | .wallH => true
  | .wallV => true
  | _ => false

/-- The `isinstance(tile, Connector)` test. -/
def isConnector : Tile → Bool
  | .conn _ _ => true
  | _ => false

/-- Set the `dest_map` attribute of a `Connector` tile (mutating a non
connector is impossible in the places where the code does it). -/
def setDest (t : Tile) (d : Option Nat) : Tile :=
  match t with
  | .conn c _ => .conn c d
  | t => t

/-- The state of a `Map` instance: the tile array plus the placement indices.
`tiles` is the `width × height` array, addressed functionally; positions
outside the rectangle are never read by the guarded code paths.  The six
dictionaries of `Map.__init__` become the six index fields. -/
structure Map where
  mapId : Nat
  width : Nat
  height : Nat
  tiles : Pos → Tile
  a_to_pos : ActorT → Option Pos
  pos_to_a : Pos → Option ActorT
  id_to_a : Nat → Option ActorT
  i_to_pos : ItemT → Option Pos
  pos_to_i : Pos → List ItemT
  pos_to_m : Pos → Option MoodT
  map_to_conn : Nat → Option Pos

/-- Uncaught Python exceptions of the modelled code paths. -/
inductive PyErr where
  | valueAlreadyOnMap   -- ValueError: thing is already on the map
  | valueConflict       -- ValueError: there is already an actor at pos
  | runtimeMapFull      -- RuntimeError: the map appears to be full
  | stopIteration       -- StopIteration: next() on an exhausted generator
  | valueNotOnMap       -- ValueError: thing is not on the current map
  | attributeError      -- AttributeError: dict object has no such attribute
  | runtimeHeroOrder    -- RuntimeError: hero must be restored before the map
  | typeErrorConnector  -- TypeError: connecting must be done at Connectors
  | keyError            -- KeyError: missing dictionary key
  | indexError          -- IndexError: pop from an empty heap
deriving DecidableEq, Repr

/-- Random-source oracle, modelled from the spec: a seedable source exposing
uniform position draws and list shuffles.  Successive calls of one run are
indexed by a counter. -/
structure Rng where
  randPos : Nat → Pos
  shuffle : Nat → List Pos → List Pos

/-- `Map.size()`: the `(width, height)` pair. -/
def Map.size (m : Map) : Nat × Nat := (m.width, m.height)

/-- `Map.is_in_map(pos)`: true when the position is inside the grid. -/
def Map.is_in_map (m : Map) (pos : Pos) : Bool :=
  decide (0 ≤ pos.1 ∧ pos.1 < (m.width : Int) ∧ 0 ≤ pos.2 ∧ pos.2 < (m.height : Int))

/-- `Map.distance(pos1, pos2)`: the Chebyshev grid distance
`max(|x1-x2|, |y1-y2|)` (diagonal moves count as one step). -/
def distance (pos1 pos2 : Pos) : Nat :=
  max (pos1.1 - pos2.1).natAbs (pos1.2 - pos2.2).natAbs

/-- Raw coordinates of `Map._ring` before any filtering: the four sides of the
square of Chebyshev radius `radius` around `center`, counter-clockwise; the
four Python `range` loops become four `List.range` maps. -/
def ringRaw (center : Pos) (radius : Nat) : List Pos :=
  let x := center.1
  let y := center.2
  let r : Int := radius
  ((List.range (2 * radius + 1)).map fun k : Nat => (x - r + (k : Int), y - r)) ++
  ((List.range (2 * radius)).map fun k : Nat => (x + r, y - r + 1 + (k : Int))) ++
  ((List.range (2 * radius)).map fun k : Nat => (x + r - 1 - (k : Int), y + r)) ++
  ((List.range (2 * radius - 1)).map fun k : Nat => (x - r, y + r - 1 - (k : Int)))

/-- The `sift` helper of `Map._ring` in its `sparse=True` mode (a plain
filter).  The `sparse=False` mode, which keeps invalid entries as `None`
placeholders, is only used by `Map.connectedness`, which none of the verified
paths call, so the embedding fixes `sparse=True`. -/
def sift (pred : Pos → Bool) (tiles : List Pos) : List Pos :=
  tiles.filter pred

/-- `Map.is_walkable(pos)`: inside the grid and either a `Connector` tile or a
member of `WALKABLE`. -/
def Map.is_walkable (m : Map) (pos : Pos) : Bool :=
  if ¬ m.is_in_map pos then false
  else isConnector (m.tiles pos) || inWalkableList (m.tiles pos)

/-- `Map.is_free(pos)`: walkable and not occupied by an actor. -/
def Map.is_free (m : Map) (pos : Pos) : Bool :=
  m.is_walkable pos && (m.pos_to_a pos).isNone

/-- `Map._ring(center, radius, free, shuffle, filter_pred, in_map)` with
`sparse=True`: build the raw ring, keep in-map tiles, shuffle if a shuffle
oracle is supplied, apply the optional filter predicate, then keep free tiles
if requested. -/
def Map.ring (m : Map) (center : Pos) (radius : Nat) (free : Bool)
    (shuffler : Option (List Pos → List Pos)) (filterPred : Option (Pos → Bool))
    (inMap : Bool) : List Pos :=
  let tiles := ringRaw center radius
  let tiles := if inMap then sift m.is_in_map tiles else tiles
  let tiles := match shuffler with
    | some f => f tiles
    | none => tiles
  let tiles := match filterPred with
    | some p => sift p tiles
    | none => tiles
  let tiles := if free then sift m.is_free tiles else tiles
  tiles

/-- `Map.adjacents(pos, ...)`: the ring of radius 1. -/
def Map.adjacents (m : Map) (pos : Pos) (free : Bool)
    (shuffler : Option (List Pos → List Pos)) (filterPred : Option (Pos → Bool))
    (inMap : Bool) : List Pos :=
  m.ring pos 1 free shuffler filterPred inMap

/-- `Map._nearby_tiles(pos, free, shuffle)`: rings of radius `1` to
`max(w, h) - 1` around `pos`, concatenated (the generator, fully enumerated).
Each radius uses its own shuffle call from the oracle. -/
def Map.nearby_tiles (m : Map) (pos : Pos) (free : Bool) (shuffle : Bool)
    (shuffles : Nat → List Pos → List Pos) : List Pos :=
  (List.range (max m.width m.height - 1)).flatMap fun k =>
    m.ring pos (k + 1) free (if shuffle then some (shuffles (k + 1)) else none)
      none true

/-- `Map.random_pos(free)`: five uniform draws, falling back to the nearby
tiles of the last draw.  As in `Map.place`, the final `if tiles:` tests the
generator object itself, which is always truthy, so the
`RuntimeError` branch is unreachable and an empty generator raises
`StopIteration` from `next(iter(tiles))`. -/
def Map.random_pos (m : Map) (free : Bool) (rng : Rng) : Except PyErr Pos :=
  let attempts := (List.range 5).map rng.randPos
  match attempts.find? (fun p => !free || m.is_free p) with
  | some p => .ok p
  | none =>
      match m.nearby_tiles (rng.randPos 4) free true rng.shuffle with
      | t :: _ => .ok t
      | [] => .error .stopIteration

/-- The things `Map.place` knows how to index (the `isinstance` dispatch of
the Python code becomes a sum type; the final `ValueError` branch for
unsupported types is unreachable in the typed model). -/
inductive Thing where
  | act (a : ActorT)
  | itm (i : ItemT)
  | mood (md : MoodT)
deriving DecidableEq, Repr

/-- The `thing in self` test of `Map.__contains__` for non-string things:
membership in `_a_to_pos` or `_i_to_pos`. -/
def Map.mem (m : Map) (thing : Thing) : Bool :=
  match thing with
  | .act a => (m.a_to_pos a).isSome
  | .itm i => (m.i_to_pos i).isSome
  | .mood _ => false

/-- The actor-index writes of `Map.place`:
`_id_to_a[a.id] = a; _a_to_pos[a] = p; _pos_to_a[p] = a`. -/
def placeActUpd (m : Map) (a : ActorT) (p : Pos) : Map :=
  { m with
     id_to_a := fun k => if k = actorId a then some a else m.id_to_a k
     a_to_pos := fun x => if x = a then some p else m.a_to_pos x
     pos_to_a := fun q => if q = p then some a else m.pos_to_a q }

/-- The item-index writes of `Map.place`:
`_i_to_pos[i] = p; _pos_to_i[p].append(i)`. -/
def placeItmUpd (m : Map) (i : ItemT) (p : Pos) : Map :=
  { m with
     i_to_pos := fun x => if x = i then some p else m.i_to_pos x
     pos_to_i := fun q => if q = p then m.pos_to_i q ++ [i] else m.pos_to_i q }

/-- The mood write of `Map.place`: `_pos_to_m[p] = mood`. -/
def placeMoodUpd (m : Map) (md : MoodT) (p : Pos) : Map :=
  { m with pos_to_m := fun q => if q = p then some md else m.pos_to_m q }

/-- `Map.place(thing, pos, fallback)`.  Mirrors the source: reject things
already on the map, draw a random position when none is supplied, and for
actors handle an occupied target.  In the occupied/fallback case the source
runs `tiles = self._nearby_tiles(pos, free=True, shuffle=True)` and then
`if tiles:` — but `tiles` is a generator object, which is always truthy, so
the `else: raise RuntimeError("The map appears to be full!")` branch is dead
code; when the generator is in fact empty, `next(iter(tiles))` raises
`StopIteration` instead. -/
def Map.place (m : Map) (thing : Thing) (posOpt : Option Pos) (fallback : Bool)
    (rng : Rng) : Except PyErr (Map × Pos) :=
  if m.mem thing then .error .valueAlreadyOnMap
  else
    match (match posOpt with
           | none => m.random_pos true rng
           | some p => .ok p) with
    | .error e => .error e
    | .ok pos =>
      match thing with
      | .act a =>
        match (if (m.pos_to_a pos).isSome then
                 (if fallback then
                    match m.nearby_tiles pos true true rng.shuffle with
                    | t :: _ => .ok t
                    | [] => .error .stopIteration
                  else .error .valueConflict)
               else .ok pos : Except PyErr Pos) with
        | .error e => .error e
        | .ok p => .ok (placeActUpd m a p, p)
      | .itm i => .ok (placeItmUpd m i pos, pos)
      | .mood md => .ok (placeMoodUpd m md pos, pos)

/-- The actor-index deletions of `Map.remove` (also used when
`Map.__getstate__` strips the hero):
`del _pos_to_a[pos]; del _a_to_pos[a]; del _id_to_a[a.id]`. -/
def removeActUpd (m : Map) (a : ActorT) (pos : Pos) : Map :=
  { m with
     pos_to_a := fun q => if q = pos then none else m.pos_to_a q
     a_to_pos := fun x => if x = a then none else m.a_to_pos x
     id_to_a := fun k => if k = actorId a then none else m.id_to_a k }

/-- The item-index deletions of `Map.remove`:
`_pos_to_i[pos].remove(i); del _i_to_pos[i]` (Python's `list.remove` deletes
the first occurrence). -/
def removeItmUpd (m : Map) (i : ItemT) (pos : Pos) : Map :=
  { m with
     pos_to_i := fun q => if q = pos then (m.pos_to_i q).erase i
                          else m.pos_to_i q
     i_to_pos := fun x => if x = i then none else m.i_to_pos x }

/-- `Map.remove(thing)`: drop the thing from all indices. -/
def Map.remove (m : Map) (thing : Thing) : Except PyErr Map :=
  match thing with
  | .act a =>
    match m.a_to_pos a with
    | some pos => .ok (removeActUpd m a pos)
    | none => .error .valueNotOnMap
  | .itm i =>
    match m.i_to_pos i with
    | some pos => .ok (removeItmUpd m i pos)
    | none => .error .valueNotOnMap
  | .mood _ => .error .valueNotOnMap

/-- The actor-index writes of `Map.move`:
`del _pos_to_a[_a_to_pos[a]]; _pos_to_a[there] = a; _a_to_pos[a] = there`
(the overwrite of `there` happens after the deletion, so moving in place is a
no-op while moving onto an occupied position silently overwrites). -/
def moveActUpd (m : Map) (a : ActorT) (oldPos there : Pos) : Map :=
  { m with
     pos_to_a := fun q => if q = there then some a
                          else if q = oldPos then none
                          else m.pos_to_a q
     a_to_pos := fun x => if x = a then some there else m.a_to_pos x }

/-- `Map.move(thing, there)`.  For an actor the source deletes the old
`_pos_to_a` entry and then overwrites `_pos_to_a[there]` without checking
occupancy.  For an item the source line
`self._pos_to_i.remove(self._a_to_pos[thing])` raises before mutating
anything: a `defaultdict` has no attribute `remove` (and the item is not a
key of `_a_to_pos` either). -/
def Map.move (m : Map) (thing : Thing) (there : Pos) : Except PyErr Map :=
  match thing with
  | .act a =>
    match m.a_to_pos a with
    | some oldPos => .ok (moveActUpd m a oldPos there)
    | none => .error .valueNotOnMap
  | .itm i =>
    match m.i_to_pos i with
    | some _ => .error .attributeError
    | none => .error .valueNotOnMap
  | .mood _ => .error .valueNotOnMap

/-- One side of `Map.connect`: record the peer's arrival position under the
peer's id and set the endpoint connector's destination to the peer's id. -/
def connectHalf (m : Map) (peer : Nat) (pos : Pos) : Map :=
  { m with
     map_to_conn := fun k => if k = peer then some pos else m.map_to_conn k
     tiles := fun q => if q = pos then setDest (m.tiles q) (some peer)
                       else m.tiles q }

/-- `Map.connect(pos1, there, pos2)`: both endpoint tiles must be `Connector`
instances (else `TypeError`); record the peer's arrival position on each side
and set each connector's destination field to the other map's id.  The
`isinstance(there, Map)` guard is enforced by typing. -/
def Map.connect (a : Map) (pos1 : Pos) (b : Map) (pos2 : Pos) :
    Except PyErr (Map × Map) :=
  if isConnector (a.tiles pos1) && isConnector (b.tiles pos2) then
    .ok (connectHalf a b.mapId pos1, connectHalf b a.mapId pos2)
  else .error .typeErrorConnector

/-- `Map.arrival_pos(mapid)`: where to place the hero arriving from `mapid`
(`KeyError` modelled as `none`). -/
def Map.arrival_pos (m : Map) (mapid : Nat) : Option Pos :=
  m.map_to_conn mapid

/-- The result of `Map.__getstate__`: the copied instance dictionary, where
the hero (if placed) has been stripped from the three actor indices, plus the
separate `"__hero_pos"` entry. -/
structure MapState where
  base : Map
  heroPos : Option Pos

/-- `Map.__getstate__` with `tender.hero` passed explicitly (the `tender`
module is outside the sources; per the spec the hero is a distinguished actor
restored by the outer system). -/
def Map.getstate (m : Map) (hero : Option ActorT) : MapState :=
  match hero with
  | some h =>
    match m.a_to_pos h with
    | some pos => { base := removeActUpd m h pos, heroPos := some pos }
    | none => { base := m, heroPos := none }
  | none => { base := m, heroPos := none }

/-- `Map.__setstate__`: if the state carries a hero position, `tender.hero`
must already be restored (else `RuntimeError`), and the hero is placed back
with `Map.place` (a position tuple is always truthy, so `if hero_pos:` takes
the placing branch whenever the entry was present). -/
def Map.setstate (hero : Option ActorT) (st : MapState) (rng : Rng) :
    Except PyErr Map :=
  match st.heroPos with
  | some hp =>
    match hero with
    | none => .error .runtimeHeroOrder
    | some h =>
      match (st.base.place (.act h) (some hp) false rng) with
      | .ok (m, _) => .ok m
      | .error e => .error e
  | none => .ok st.base

/-- Number of samples taken by `Map.line_of_sight`: `distance + 1`. -/
def nbSteps (pos1 pos2 : Pos) : Nat :=
  distance pos1 pos2 + 1

/-- The `i`-th sampled coordinate of `Map.line_of_sight`: the float expression
`int(((mult-i)*(c1+0.5) + i*(c2+0.5)) / mult)` computed exactly over the
rationals — the numerator is doubled to stay integral — and truncated toward
zero (`Int.tdiv` matches Python's `int()` for the positive divisor `2*mult`).
For grid sizes far below 2^50 the float computation is exact enough that the
truncated values agree. -/
def losSample (pos1 pos2 : Pos) (i : Nat) : Pos :=
  let mult : Int := max 1 (nbSteps pos1 pos2 - 1 : Nat)
  let num1 : Int := (mult - i) * (2 * pos1.1 + 1) + i * (2 * pos2.1 + 1)
  let num2 : Int := (mult - i) * (2 * pos1.2 + 1) + i * (2 * pos2.2 + 1)
  (Int.tdiv num1 (2 * mult), Int.tdiv num2 (2 * mult))

/-- All coordinates sampled by `Map.line_of_sight(pos1, pos2)`, in order. -/
def losSamples (pos1 pos2 : Pos) : List Pos :=
  (List.range (nbSteps pos1 pos2)).map (losSample pos1 pos2)

/-- The sampling loop of `Map.line_of_sight`: walk the samples, appending the
see-through ones and returning `None` at the first opaque one. -/
def losGo (m : Map) : List Pos → List Pos → Option (List Pos)
  | [], acc => some acc.reverse
  | p :: rest, acc =>
    if inSeeThroughList (m.tiles p) then losGo m rest (p :: acc) else none

/-- `Map.line_of_sight(pos1, pos2)`: the sampled tiles when all are
see-through, `None` otherwise. -/
def Map.line_of_sight (m : Map) (pos1 pos2 : Pos) : Option (List Pos) :=
  losGo m (losSamples pos1 pos2) []

/-! Concrete maps used as witnesses. -/

/-- A 1×1 map with a single floor tile and empty indices. -/
def sampleMap1 : Map where
  mapId := 0
  width := 1
  height := 1
  tiles := fun _ => .floor
  a_to_pos := fun _ => none
  pos_to_a := fun _ => none
  id_to_a := fun _ => none
  i_to_pos := fun _ => none
  pos_to_i := fun _ => []
  pos_to_m := fun _ => none
  map_to_conn := fun _ => none

/-- A 3×3 map, all floor, empty indices. -/
def sampleMap3 : Map :=
  { sampleMap1 with width := 3, height := 3 }

/-- A 1×1 map whose only tile is a closed doorway. -/
def mapDoorway : Map :=
  { sampleMap1 with tiles := fun _ => .doorwayClosed }

/-- A deterministic random oracle (a legal outcome of the random source). -/
def rng0 : Rng where
  randPos := fun _ => (0, 0)
  shuffle := fun _ l => l

/-! C10 — out-of-bounds probes of `is_walkable` and `is_free`. -/

/-- C10: for every position outside the map bounds (x < 0, x ≥ width, y < 0,
or y ≥ height), `Map.is_walkable` and `Map.is_free` return `False` rather than
raising or indexing outside the tile array (the bounds test guards the tile
read). -/
theorem Map.is_walkable_is_free_out_of_bounds (m : Map) (pos : Pos)
    (h : pos.1 < 0 ∨ (m.width : Int) ≤ pos.1 ∨ pos.2 < 0 ∨ (m.height : Int) ≤ pos.2) :
    m.is_walkable pos = false ∧ m.is_free pos = false := by
  have hin : m.is_in_map pos = false := by
    simp only [Map.is_in_map, decide_eq_false_iff_not]
    omega
  refine ⟨?_, ?_⟩
  · simp [Map.is_walkable, hin]
  · simp [Map.is_free, Map.is_walkable, hin]

/-- Witness for C10 on a concrete map and position. -/
theorem Map.is_walkable_is_free_out_of_bounds_witness :
    sampleMap1.is_walkable (5, 5) = false ∧ sampleMap1.is_free (5, 5) = false :=
  Map.is_walkable_is_free_out_of_bounds sampleMap1 (5, 5) (by decide)

/-! C4 — `line_of_sight` samples and opacity. -/

/-- Auxiliary: when every sample is see-through, the sampling loop returns
all samples appended to the accumulator. -/
theorem losGo_all_clear (m : Map) (samples : List Pos) :
    ∀ acc : List Pos, (∀ p ∈ samples, inSeeThroughList (m.tiles p) = true) →
      losGo m samples acc = some (acc.reverse ++ samples) := by
  induction samples with
  | nil => intro acc _; simp [losGo]
  | cons p rest ih =>
    intro acc hall
    have hp : inSeeThroughList (m.tiles p) = true := hall p (by simp)
    have hrest : ∀ q ∈ rest, inSeeThroughList (m.tiles q) = true := by
      intro q hq; exact hall q (by simp [hq])
    simp [losGo, hp, ih (p :: acc) hrest]

/-- Auxiliary: an opaque sample anywhere makes the sampling loop return
`none`. -/
theorem losGo_opaque (m : Map) (samples : List Pos) :
    ∀ acc : List Pos, (∃ p ∈ samples, inSeeThroughList (m.tiles p) = false) →
      losGo m samples acc = none := by
  induction samples with
  | nil => intro acc h; simp at h
  | cons p rest ih =>
    intro acc h
    by_cases hp : inSeeThroughList (m.tiles p) = true
    · obtain ⟨q, hq, hq2⟩ := h
      rcases List.mem_cons.mp hq with rfl | hq
      · rw [hp] at hq2; cases hq2
      · simp [losGo, hp, ih (p :: acc) ⟨q, hq, hq2⟩]
    · simp [losGo, hp]

/-- Counterexample to C4 as stated: on a 1×1 map whose tile is a closed
doorway, no sampled tile is a Wall, yet `line_of_sight` returns `None`
instead of a list of length `distance + 1`. -/
theorem line_of_sight_none_without_wall :
    (∀ p ∈ losSamples (0, 0) (0, 0), inWallsList (mapDoorway.tiles p) = false) ∧
    mapDoorway.is_in_map (0, 0) = true ∧
    mapDoorway.line_of_sight (0, 0) (0, 0) = none := by
  decide

/-- C4 (amended): for in-map `a`, `b`, `line_of_sight` returns `None`
whenever any of its `distance(a,b)+1` sampled tiles is opaque — not
see-through, i.e. not Floor and not an open Doorway (every Wall variant is
opaque, but so are solid rock, closed doorways and connectors) — and
otherwise returns the list of the `distance(a,b)+1` sampled coordinates. -/
theorem Map.line_of_sight_spec (m : Map) (a b : Pos)
    (ha : m.is_in_map a = true) (hb : m.is_in_map b = true) :
    ((∃ p ∈ losSamples a b, inSeeThroughList (m.tiles p) = false) →
      m.line_of_sight a b = none) ∧
    ((∀ p ∈ losSamples a b, inSeeThroughList (m.tiles p) = true) →
      m.line_of_sight a b = some (losSamples a b) ∧
        (losSamples a b).length = distance a b + 1) := by
  refine ⟨fun h => losGo_opaque m _ [] h, fun h => ⟨?_, ?_⟩⟩
  · simpa using losGo_all_clear m (losSamples a b) [] h
  · simp [losSamples, nbSteps]

/-- Witness for C4 on a concrete map and pair of positions. -/
theorem Map.line_of_sight_spec_witness :
    ((∃ p ∈ losSamples (0, 0) (2, 1), inSeeThroughList (sampleMap3.tiles p) = false) →
      sampleMap3.line_of_sight (0, 0) (2, 1) = none) ∧
    ((∀ p ∈ losSamples (0, 0) (2, 1), inSeeThroughList (sampleMap3.tiles p) = true) →
      sampleMap3.line_of_sight (0, 0) (2, 1) = some (losSamples (0, 0) (2, 1)) ∧
        (losSamples (0, 0) (2, 1)).length = distance (0, 0) (2, 1) + 1) :=
  Map.line_of_sight_spec sampleMap3 (0, 0) (2, 1) (by decide) (by decide)

/-! C5 — the square ring enumeration. -/

/-- Spec-side description of the ring (named after the spec's words, to be
compared with the code's `Map._ring`): the counter-clockwise walk that starts
at the bottom-left corner of the square of Chebyshev radius `r` and takes
`2r` steps east, `2r` steps north, `2r` steps west and `2r` steps south. -/
def ccwSquareRing (center : Pos) (r : Nat) : List Pos :=
  let x := center.1
  let y := center.2
  let ri : Int := r
  ((List.range (2 * r)).map fun k : Nat => (x - ri + (k : Int), y - ri)) ++
  ((List.range (2 * r)).map fun k : Nat => (x + ri, y - ri + (k : Int))) ++
  ((List.range (2 * r)).map fun k : Nat => (x + ri - (k : Int), y + ri)) ++
  ((List.range (2 * r)).map fun k : Nat => (x - ri, y + ri - (k : Int)))

/-- Splitting a mapped range at the front. -/
theorem range_map_front (n : Nat) (f : Nat → Pos) :
    (List.range (n + 1)).map f = f 0 :: (List.range n).map fun k => f (k + 1) := by
  rw [List.range_succ_eq_map]
  simp [List.map_map, Function.comp_def, Nat.succ_eq_add_one]

/-- Splitting a mapped range at the back. -/
theorem range_map_back (n : Nat) (f : Nat → Pos) :
    (List.range (n + 1)).map f = (List.range n).map f ++ [f n] := by
  rw [List.range_succ]
  simp

/-- Pointwise equal functions map ranges identically. -/
theorem map_range_congr (n : Nat) (f g : Nat → Pos) (h : ∀ k, k < n → f k = g k) :
    (List.range n).map f = (List.range n).map g := by
  apply List.map_congr_left
  intro a ha
  exact h a (List.mem_range.mp ha)

/-- Rotating the cut points of a cyclic four-segment walk: the code groups
the walk as `(2r+1) + 2r + 2r + (2r-1)` elements while the spec groups it as
`2r + 2r + 2r + 2r`; with matching corner elements the two groupings are the
same list. -/
theorem four_seg_rotate (n : Nat) (f1 f2 f3 f4 g2 g3 g4 : Nat → Pos)
    (h2 : ∀ k, k < n → g2 (k + 1) = f2 k) (c1 : f1 (n + 1) = g2 0)
    (h3 : ∀ k, k < n → g3 (k + 1) = f3 k) (c2 : f2 n = g3 0)
    (h4 : ∀ k, k < n → g4 (k + 1) = f4 k) (c3 : f3 n = g4 0) :
    (List.range (n + 2)).map f1 ++ (List.range (n + 1)).map f2 ++
      (List.range (n + 1)).map f3 ++ (List.range n).map f4 =
    (List.range (n + 1)).map f1 ++ (List.range (n + 1)).map g2 ++
      (List.range (n + 1)).map g3 ++ (List.range (n + 1)).map g4 := by
  rw [range_map_back (n + 1) f1, range_map_back n f2, range_map_back n f3,
    range_map_front n g2, range_map_front n g3, range_map_front n g4,
    map_range_congr n _ f2 h2, map_range_congr n _ f3 h3,
    map_range_congr n _ f4 h4, c1, c2, c3]
  simp [List.append_assoc]

/-- The raw ring of `Map._ring` is exactly the spec's counter-clockwise walk
when the radius is at least 1 (the two enumerations cut the same cyclic walk
at the same corner, merely grouping the four sides differently). -/
theorem ringRaw_eq_ccw (center : Pos) (r : Nat) (hr : 1 ≤ r) :
    ringRaw center r = ccwSquareRing center r := by
  obtain ⟨s, rfl⟩ : ∃ s, r = s + 1 := ⟨r - 1, by omega⟩
  obtain ⟨x, y⟩ := center
  have e1 : 2 * (s + 1) + 1 = (2 * s + 1) + 2 := by ring
  have e2 : 2 * (s + 1) = (2 * s + 1) + 1 := by ring
  have e3 : 2 * (s + 1) - 1 = 2 * s + 1 := by omega
  unfold ringRaw ccwSquareRing
  simp only [e1, e2, e3]
  apply four_seg_rotate
  · intro k hk
    simp only [Prod.mk.injEq, and_true, true_and]
    push_cast
    omega
  · simp only [Prod.mk.injEq]
    push_cast
    omega
  · intro k hk
    simp only [Prod.mk.injEq, and_true, true_and]
    push_cast
    omega
  · simp only [Prod.mk.injEq]
    push_cast
    omega
  · intro k hk
    simp only [Prod.mk.injEq, and_true, true_and]
    push_cast
    omega
  · simp only [Prod.mk.injEq]
    push_cast
    omega

/-- Length of the counter-clockwise walk. -/
theorem ccwSquareRing_length (center : Pos) (r : Nat) :
    (ccwSquareRing center r).length = 8 * r := by
  simp [ccwSquareRing]
  ring

/-- The walk never repeats a coordinate. -/
theorem ccwSquareRing_nodup (center : Pos) (r : Nat) (hr : 1 ≤ r) :
    (ccwSquareRing center r).Nodup := by
  obtain ⟨x, y⟩ := center
  have n1 : ((List.range (2 * r)).map fun k : Nat =>
      ((x - r + (k : Int), y - r) : Pos)).Nodup := by
    refine List.Nodup.map ?_ (List.nodup_range _)
    intro a b hab
    simp only [Prod.mk.injEq] at hab
    omega
  have n2 : ((List.range (2 * r)).map fun k : Nat =>
      ((x + r, y - r + (k : Int)) : Pos)).Nodup := by
    refine List.Nodup.map ?_ (List.nodup_range _)
    intro a b hab
    simp only [Prod.mk.injEq] at hab
    omega
  have n3 : ((List.range (2 * r)).map fun k : Nat =>
      ((x + r - (k : Int), y + r) : Pos)).Nodup := by
    refine List.Nodup.map ?_ (List.nodup_range _)
    intro a b hab
    simp only [Prod.mk.injEq] at hab
    omega
  have n4 : ((List.range (2 * r)).map fun k : Nat =>
      ((x - r, y + r - (k : Int)) : Pos)).Nodup := by
    refine List.Nodup.map ?_ (List.nodup_range _)
    intro a b hab
    simp only [Prod.mk.injEq] at hab
    omega
  unfold ccwSquareRing
  simp only
  refine ((n1.append n2 ?_).append n3 ?_).append n4 ?_
  · intro p hp hq
    simp only [List.mem_map, List.mem_range] at hp hq
    obtain ⟨k1, hk1, rfl⟩ := hp
    obtain ⟨k2, hk2, heq⟩ := hq
    simp only [Prod.mk.injEq] at heq
    omega
  · intro p hp hq
    simp only [List.mem_append, List.mem_map, List.mem_range] at hp hq
    rcases hp with ⟨k1, hk1, rfl⟩ | ⟨k1, hk1, rfl⟩ <;>
      obtain ⟨k2, hk2, heq⟩ := hq <;>
      simp only [Prod.mk.injEq] at heq <;> omega
  · intro p hp hq
    simp only [List.mem_append, List.mem_map, List.mem_range] at hp hq
    rcases hp with (⟨k1, hk1, rfl⟩ | ⟨k1, hk1, rfl⟩) | ⟨k1, hk1, rfl⟩ <;>
      obtain ⟨k2, hk2, heq⟩ := hq <;>
      simp only [Prod.mk.injEq] at heq <;> omega

/-- Every coordinate of the walk is at Chebyshev distance exactly `r` from
the center. -/
theorem ccwSquareRing_dist (center : Pos) (r : Nat) :
    ∀ p ∈ ccwSquareRing center r, distance p center = r := by
  obtain ⟨x, y⟩ := center
  intro p hp
  simp only [ccwSquareRing, List.mem_append, List.mem_map, List.mem_range] at hp
  rcases hp with ((⟨k, hk, rfl⟩ | ⟨k, hk, rfl⟩) | ⟨k, hk, rfl⟩) | ⟨k, hk, rfl⟩ <;>
    simp only [distance] <;> omega

/-- The walk starts at the bottom-left corner of the ring. -/
theorem ccwSquareRing_head (center : Pos) (r : Nat) (hr : 1 ≤ r) :
    (ccwSquareRing center r).head? = some (center.1 - r, center.2 - r) := by
  obtain ⟨s, rfl⟩ : ∃ s, r = s + 1 := ⟨r - 1, by omega⟩
  obtain ⟨x, y⟩ := center
  have e2 : 2 * (s + 1) = (2 * s + 1) + 1 := by ring
  unfold ccwSquareRing
  simp only [e2]
  rw [range_map_front]
  simp

/-- C5: for every center and radius `r ≥ 1` whose whole ring lies inside the
map, `Map._ring` with no filter predicate, `free=False` and `shuffle=False`
returns exactly the counter-clockwise enumeration starting at the bottom-left
corner: `8r` distinct coordinates, each at Chebyshev distance exactly `r`
from the center. -/
theorem Map.ring_ccw_8r (m : Map) (center : Pos) (r : Nat) (hr : 1 ≤ r)
    (hin : ∀ p ∈ ringRaw center r, m.is_in_map p = true) :
    m.ring center r false none none true = ccwSquareRing center r ∧
    (ccwSquareRing center r).length = 8 * r ∧
    (ccwSquareRing center r).Nodup ∧
    (∀ p ∈ ccwSquareRing center r, distance p center = r) ∧
    (ccwSquareRing center r).head? = some (center.1 - r, center.2 - r) := by
  refine ⟨?_, ccwSquareRing_length center r, ccwSquareRing_nodup center r hr,
    ccwSquareRing_dist center r, ccwSquareRing_head center r hr⟩
  have hfilter : sift m.is_in_map (ringRaw center r) = ringRaw center r :=
    List.filter_eq_self.mpr hin
  simp only [Map.ring, if_true, if_false, hfilter]
  exact ringRaw_eq_ccw center r hr

/-- Witness for C5 on a concrete map, center and radius. -/
theorem Map.ring_ccw_8r_witness :
    sampleMap3.ring (1, 1) 1 false none none true = ccwSquareRing (1, 1) 1 ∧
    (ccwSquareRing (1, 1) 1).length = 8 * 1 ∧
    (ccwSquareRing (1, 1) 1).Nodup ∧
    (∀ p ∈ ccwSquareRing (1, 1) 1, distance p (1, 1) = 1) ∧
    (ccwSquareRing (1, 1) 1).head? = some ((1 : Int) - 1, (1 : Int) - 1) :=
  Map.ring_ccw_8r sampleMap3 (1, 1) 1 (by decide) (by decide)

/-! C6 — connector linkage between two maps. -/

/-- C6: if `p1` on map `a` and `p2` on map `b` hold `Connector` tiles, then
`connect` succeeds and the link is symmetric: `a.arrival_pos b.id = p1`,
`b.arrival_pos a.id = p2`, and each endpoint tile's destination field is set
to the other map's identifier; `connect` fails with a `TypeError` when either
endpoint tile is not a `Connector`. -/
theorem Map.connect_symmetric (a b : Map) (p1 p2 : Pos) (c1 c2 : Char)
    (d1 d2 : Option Nat) (h1 : a.tiles p1 = .conn c1 d1)
    (h2 : b.tiles p2 = .conn c2 d2) :
    (∃ a' b', Map.connect a p1 b p2 = .ok (a', b') ∧
      a'.arrival_pos b.mapId = some p1 ∧ b'.arrival_pos a.mapId = some p2 ∧
      a'.tiles p1 = .conn c1 (some b.mapId) ∧
      b'.tiles p2 = .conn c2 (some a.mapId)) ∧
    (∀ (a2 b2 : Map) (q1 q2 : Pos),
      isConnector (a2.tiles q1) = false ∨ isConnector (b2.tiles q2) = false →
      Map.connect a2 q1 b2 q2 = .error .typeErrorConnector) := by
  constructor
  · have hc : (isConnector (a.tiles p1) && isConnector (b.tiles p2)) = true := by
      rw [h1, h2]; rfl
    refine ⟨connectHalf a b.mapId p1, connectHalf b a.mapId p2, ?_, ?_, ?_, ?_, ?_⟩
    · simp only [Map.connect, hc, if_true]
    · simp [Map.arrival_pos, connectHalf]
    · simp [Map.arrival_pos, connectHalf]
    · simp [connectHalf, h1, setDest]
    · simp [connectHalf, h2, setDest]
  · intro a2 b2 q1 q2 hfail
    have hc : (isConnector (a2.tiles q1) && isConnector (b2.tiles q2)) = false := by
      rcases hfail with hf | hf <;> simp [hf]
    simp only [Map.connect, hc, Bool.false_eq_true, if_false]

/-- A 1×1 map holding a connector tile, id 1. -/
def mapConnA : Map :=
  { sampleMap1 with mapId := 1, tiles := fun _ => .conn '>' none }

/-- A 1×1 map holding a connector tile, id 2. -/
def mapConnB : Map :=
  { sampleMap1 with mapId := 2, tiles := fun _ => .conn '<' none }

/-- Witness for C6 on two concrete maps. -/
theorem Map.connect_symmetric_witness :
    (∃ a' b', Map.connect mapConnA (0, 0) mapConnB (0, 0) = .ok (a', b') ∧
      a'.arrival_pos mapConnB.mapId = some (0, 0) ∧
      b'.arrival_pos mapConnA.mapId = some (0, 0) ∧
      a'.tiles (0, 0) = .conn '>' (some mapConnB.mapId) ∧
      b'.tiles (0, 0) = .conn '<' (some mapConnA.mapId)) ∧
    (∀ (a2 b2 : Map) (q1 q2 : Pos),
      isConnector (a2.tiles q1) = false ∨ isConnector (b2.tiles q2) = false →
      Map.connect a2 q1 b2 q2 = .error .typeErrorConnector) :=
  Map.connect_symmetric mapConnA mapConnB (0, 0) (0, 0) '>' '<' none none rfl rfl

/-! C3 and C9 — consistency of the occupancy indices. -/

/-- Consistency of the placement indices: the actor maps are mutual inverses
(so each placed actor is recorded at exactly one position and each position
holds at most one actor), the item maps agree (every placed item sits exactly
in the stack at its recorded position, once), and the id index holds exactly
the placed actors — no orphaned references anywhere. -/
structure Inv (m : Map) : Prop where
  actor_iff : ∀ (a : ActorT) (p : Pos), m.a_to_pos a = some p ↔ m.pos_to_a p = some a
  item_iff : ∀ (i : ItemT) (p : Pos), m.i_to_pos i = some p ↔ i ∈ m.pos_to_i p
  stack_nodup : ∀ p : Pos, (m.pos_to_i p).Nodup
  id_of_placed : ∀ a : ActorT, (m.a_to_pos a).isSome → m.id_to_a (actorId a) = some a
  placed_of_id : ∀ (k : Nat) (a : ActorT), m.id_to_a k = some a →
    k = actorId a ∧ (m.a_to_pos a).isSome

/-- Membership in a `free=True` ring means the position is free (the free
sift is the last filter applied, after any shuffling). -/
theorem is_free_of_mem_ring_free {m : Map} {c : Pos} {rad : Nat}
    {sh : Option (List Pos → List Pos)} {fp : Option (Pos → Bool)} {im : Bool}
    {p : Pos} (hp : p ∈ m.ring c rad true sh fp im) : m.is_free p = true := by
  simp only [Map.ring, sift] at hp
  exact (List.mem_filter.mp hp).2

/-- Membership in a `free=True` nearby-tiles stream means the position is
free. -/
theorem is_free_of_mem_nearby {m : Map} {pos : Pos} {sh : Bool}
    {shuffles : Nat → List Pos → List Pos} {p : Pos}
    (hp : p ∈ m.nearby_tiles pos true sh shuffles) : m.is_free p = true := by
  simp only [Map.nearby_tiles, List.mem_flatMap, List.mem_range] at hp
  obtain ⟨k, _, hk⟩ := hp
  exact is_free_of_mem_ring_free hk

/-- A free position holds no actor. -/
theorem pos_to_a_eq_none_of_free {m : Map} {p : Pos}
    (h : m.is_free p = true) : m.pos_to_a p = none := by
  simp only [Map.is_free, Bool.and_eq_true, Option.isNone_iff_eq_none] at h
  exact h.2

/-- A successful `Map.random_pos(free=True)` returns a free position. -/
theorem random_pos_free {m : Map} {rng : Rng} {p : Pos}
    (h : m.random_pos true rng = .ok p) : m.is_free p = true := by
  simp only [Map.random_pos] at h
  rcases hfind : ((List.range 5).map rng.randPos).find?
      (fun q => !true || m.is_free q) with _ | q
  · rw [hfind] at h
    rcases hnear : m.nearby_tiles (rng.randPos 4) true true rng.shuffle with _ | ⟨t, rest⟩
    · rw [hnear] at h; cases h
    · have hmemt : t ∈ m.nearby_tiles (rng.randPos 4) true true rng.shuffle := by
        rw [hnear]; exact List.mem_cons_self t rest
      have hfree := is_free_of_mem_nearby hmemt
      rw [hnear] at h
      cases h
      exact hfree
  · rw [hfind] at h
    cases h
    have := List.find?_some hfind
    simpa using this

/-- Characterization of a successful actor placement: the actor was not on
the map, the final position is not occupied, and the result applies exactly
the three index writes at that position. -/
theorem place_ok_act {m : Map} {a : ActorT} {posOpt : Option Pos} {fb : Bool}
    {rng : Rng} {m' : Map} {p : Pos}
    (h : m.place (.act a) posOpt fb rng = .ok (m', p)) :
    m.a_to_pos a = none ∧ m.pos_to_a p = none ∧ m' = placeActUpd m a p := by
  unfold Map.place at h
  by_cases hmem : m.mem (.act a)
  · rw [if_pos hmem] at h; cases h
  · rw [if_neg hmem] at h
    have hanone : m.a_to_pos a = none := by
      simp only [Map.mem, Bool.not_eq_true] at hmem
      exact Option.not_isSome_iff_eq_none.mp (by simp [hmem])
    refine ⟨hanone, ?_⟩
    rcases posOpt with _ | pos
    · rcases hrand : m.random_pos true rng with e | rp
      · rw [hrand] at h; cases h
      · have hfree := random_pos_free hrand
        have hnone := pos_to_a_eq_none_of_free hfree
        rw [hrand] at h
        simp only [hnone, Option.isSome_none, Bool.false_eq_true, if_false] at h
        cases h
        exact ⟨hnone, rfl⟩
    · simp only at h
      by_cases hocc : (m.pos_to_a pos).isSome
      · rw [if_pos hocc] at h
        by_cases hfb : fb
        · rw [if_pos hfb] at h
          rcases hnear : m.nearby_tiles pos true true rng.shuffle with _ | ⟨t, rest⟩
          · rw [hnear] at h; cases h
          · have hmemt : t ∈ m.nearby_tiles pos true true rng.shuffle := by
              rw [hnear]; exact List.mem_cons_self t rest
            have hfree := is_free_of_mem_nearby hmemt
            rw [hnear] at h
            cases h
            exact ⟨pos_to_a_eq_none_of_free hfree, rfl⟩
        · rw [if_neg hfb] at h; cases h
      · rw [if_neg hocc] at h
        cases h
        exact ⟨Option.not_isSome_iff_eq_none.mp hocc, rfl⟩

/-- Characterization of a successful item placement. -/
theorem place_ok_itm {m : Map} {i : ItemT} {posOpt : Option Pos} {fb : Bool}
    {rng : Rng} {m' : Map} {p : Pos}
    (h : m.place (.itm i) posOpt fb rng = .ok (m', p)) :
    m.i_to_pos i = none ∧ m' = placeItmUpd m i p := by
  unfold Map.place at h
  by_cases hmem : m.mem (.itm i)
  · rw [if_pos hmem] at h; cases h
  · rw [if_neg hmem] at h
    have hinone : m.i_to_pos i = none := by
      simp only [Map.mem, Bool.not_eq_true] at hmem
      exact Option.not_isSome_iff_eq_none.mp (by simp [hmem])
    refine ⟨hinone, ?_⟩
    rcases posOpt with _ | pos
    · rcases hrand : m.random_pos true rng with e | rp
      · rw [hrand] at h; cases h
      · rw [hrand] at h; cases h; rfl
    · simp only at h; cases h; rfl

/-- Characterization of a successful mood placement. -/
theorem place_ok_mood {m : Map} {md : MoodT} {posOpt : Option Pos} {fb : Bool}
    {rng : Rng} {m' : Map} {p : Pos}
    (h : m.place (.mood md) posOpt fb rng = .ok (m', p)) :
    m' = placeMoodUpd m md p := by
  unfold Map.place at h
  by_cases hmem : m.mem (.mood md)
  · rw [if_pos hmem] at h; cases h
  · rw [if_neg hmem] at h
    rcases posOpt with _ | pos
    · rcases hrand : m.random_pos true rng with e | rp
      · rw [hrand] at h; cases h
      · rw [hrand] at h; cases h; rfl
    · simp only at h; cases h; rfl

/-- Placing an actor at an unoccupied position preserves the invariant. -/
theorem inv_placeActUpd {m : Map} {a : ActorT} {p : Pos} (hInv : Inv m)
    (ha : m.a_to_pos a = none) (hp : m.pos_to_a p = none) :
    Inv (placeActUpd m a p) := by
  constructor
  · intro b q
    simp only [placeActUpd]
    by_cases hb : b = a
    · subst hb
      rw [if_pos rfl]
      by_cases hq : q = p
      · subst hq; rw [if_pos rfl]; simp
      · rw [if_neg hq]
        constructor
        · intro hc; injection hc with hc; exact absurd hc.symm hq
        · intro hc
          have := (hInv.actor_iff b q).mpr hc
          rw [ha] at this; cases this
    · rw [if_neg hb]
      by_cases hq : q = p
      · rw [if_pos hq]
        constructor
        · intro hc
          have := (hInv.actor_iff b q).mp hc
          rw [hq, hp] at this; cases this
        · intro hc; injection hc with hc; exact absurd hc.symm hb
      · rw [if_neg hq]
        exact hInv.actor_iff b q
  · intro i q; exact hInv.item_iff i q
  · intro q; exact hInv.stack_nodup q
  · intro b hb
    simp only [placeActUpd] at hb ⊢
    by_cases hba : b = a
    · subst hba; simp
    · rw [if_neg hba] at hb
      rw [if_neg (by simpa [actorId] using hba)]
      exact hInv.id_of_placed b hb
  · intro k b hk
    simp only [placeActUpd] at hk ⊢
    by_cases hka : k = actorId a
    · rw [if_pos hka] at hk
      cases hk
      exact ⟨hka, by simp⟩
    · rw [if_neg hka] at hk
      obtain ⟨hk1, hk2⟩ := hInv.placed_of_id k b hk
      have hba : b ≠ a := by
        intro hba; subst hba; exact hka hk1
      exact ⟨hk1, by rw [if_neg hba]; exact hk2⟩

/-- Placing a fresh item preserves the invariant. -/
theorem inv_placeItmUpd {m : Map} {i : ItemT} {p : Pos} (hInv : Inv m)
    (hi : m.i_to_pos i = none) : Inv (placeItmUpd m i p) := by
  have hnotmem : ∀ q, i ∉ m.pos_to_i q := by
    intro q hmem
    have := (hInv.item_iff i q).mpr hmem
    rw [hi] at this; cases this
  constructor
  · intro a q; exact hInv.actor_iff a q
  · intro j q
    simp only [placeItmUpd]
    by_cases hj : j = i
    · subst hj
      rw [if_pos rfl]
      by_cases hq : q = p
      · rw [if_pos hq, hq]
        simp
      · rw [if_neg hq]
        constructor
        · intro hc; injection hc with hc; exact absurd hc.symm hq
        · intro hc; exact absurd hc (hnotmem q)
    · rw [if_neg hj]
      by_cases hq : q = p
      · rw [if_pos hq, hq]
        rw [List.mem_append]
        simp only [List.mem_singleton]
        constructor
        · intro hc
          exact Or.inl ((hInv.item_iff j p).mp (hq ▸ hc))
        · intro hc
          rcases hc with hc | hc
          · exact hq ▸ (hInv.item_iff j p).mpr hc
          · exact absurd hc hj
      · rw [if_neg hq]
        exact hInv.item_iff j q
  · intro q
    simp only [placeItmUpd]
    by_cases hq : q = p
    · rw [if_pos hq]
      rw [List.nodup_append]
      refine ⟨hInv.stack_nodup q, List.nodup_singleton i, ?_⟩
      intro x hx hx2
      simp only [List.mem_singleton] at hx2
      subst hx2
      exact hnotmem q hx
    · rw [if_neg hq]; exact hInv.stack_nodup q
  · intro b hb; exact hInv.id_of_placed b hb
  · intro k b hk; exact hInv.placed_of_id k b hk

/-- Placing a mood preserves the invariant. -/
theorem inv_placeMoodUpd {m : Map} {md : MoodT} {p : Pos} (hInv : Inv m) :
    Inv (placeMoodUpd m md p) := by
  constructor
  · intro a q; exact hInv.actor_iff a q
  · intro i q; exact hInv.item_iff i q
  · intro q; exact hInv.stack_nodup q
  · intro b hb; exact hInv.id_of_placed b hb
  · intro k b hk; exact hInv.placed_of_id k b hk

/-- Removing a placed actor preserves the invariant. -/
theorem inv_removeActUpd {m : Map} {a : ActorT} {pos : Pos} (hInv : Inv m)
    (hpos : m.a_to_pos a = some pos) : Inv (removeActUpd m a pos) := by
  have hpa : m.pos_to_a pos = some a := (hInv.actor_iff a pos).mp hpos
  constructor
  · intro b q
    simp only [removeActUpd]
    by_cases hb : b = a
    · subst hb
      rw [if_pos rfl]
      by_cases hq : q = pos
      · rw [if_pos hq]; simp
      · rw [if_neg hq]
        constructor
        · intro hc; cases hc
        · intro hc
          have := (hInv.actor_iff b q).mpr hc
          rw [hpos] at this
          injection this with this
          exact absurd this.symm hq
    · rw [if_neg hb]
      by_cases hq : q = pos
      · rw [if_pos hq]
        constructor
        · intro hc
          have := (hInv.actor_iff b q).mp hc
          rw [hq, hpa] at this
          injection this with this
          exact absurd this.symm hb
        · intro hc; cases hc
      · rw [if_neg hq]
        exact hInv.actor_iff b q
  · intro i q; exact hInv.item_iff i q
  · intro q; exact hInv.stack_nodup q
  · intro b hb
    simp only [removeActUpd] at hb ⊢
    by_cases hba : b = a
    · subst hba; rw [if_pos rfl] at hb; cases hb
    · rw [if_neg hba] at hb
      rw [if_neg (by simpa [actorId] using hba)]
      exact hInv.id_of_placed b hb
  · intro k b hk
    simp only [removeActUpd] at hk ⊢
    by_cases hka : k = actorId a
    · rw [if_pos hka] at hk; cases hk
    · rw [if_neg hka] at hk
      obtain ⟨hk1, hk2⟩ := hInv.placed_of_id k b hk
      have hba : b ≠ a := by
        intro hba; subst hba; exact hka hk1
      exact ⟨hk1, by rw [if_neg hba]; exact hk2⟩

/-- Removing a placed item preserves the invariant. -/
theorem inv_removeItmUpd {m : Map} {i : ItemT} {pos : Pos} (hInv : Inv m)
    (hpos : m.i_to_pos i = some pos) : Inv (removeItmUpd m i pos) := by
  constructor
  · intro a q; exact hInv.actor_iff a q
  · intro j q
    simp only [removeItmUpd]
    by_cases hj : j = i
    · subst hj
      rw [if_pos rfl]
      by_cases hq : q = pos
      · rw [if_pos hq, hq]
        constructor
        · intro hc; cases hc
        · intro hc; exact absurd hc ((hInv.stack_nodup pos).not_mem_erase)
      · rw [if_neg hq]
        constructor
        · intro hc; cases hc
        · intro hc
          have := (hInv.item_iff j q).mpr hc
          rw [hpos] at this
          injection this with this
          exact absurd this.symm hq
    · rw [if_neg hj]
      by_cases hq : q = pos
      · rw [if_pos hq, hq]
        rw [List.mem_erase_of_ne hj]
        exact hInv.item_iff j pos
      · rw [if_neg hq]
        exact hInv.item_iff j q
  · intro q
    simp only [removeItmUpd]
    by_cases hq : q = pos
    · rw [if_pos hq]; exact (hInv.stack_nodup q).erase i
    · rw [if_neg hq]; exact hInv.stack_nodup q
  · intro b hb; exact hInv.id_of_placed b hb
  · intro k b hk; exact hInv.placed_of_id k b hk

/-- Moving a placed actor onto a position not occupied by a different actor
preserves the invariant. -/
theorem inv_moveActUpd {m : Map} {a : ActorT} {oldPos there : Pos} (hInv : Inv m)
    (hpos : m.a_to_pos a = some oldPos)
    (hfree : m.pos_to_a there = none ∨ m.pos_to_a there = some a) :
    Inv (moveActUpd m a oldPos there) := by
  have hpa : m.pos_to_a oldPos = some a := (hInv.actor_iff a oldPos).mp hpos
  constructor
  · intro b q
    simp only [moveActUpd]
    by_cases hb : b = a
    · rw [if_pos hb]
      by_cases hq : q = there
      · rw [if_pos hq, hq]
        constructor
        · intro _; rw [hb]
        · intro _; rfl
      · rw [if_neg hq]
        by_cases hq2 : q = oldPos
        · rw [if_pos hq2]
          constructor
          · intro hc; injection hc with hc; exact absurd hc.symm hq
          · intro hc; cases hc
        · rw [if_neg hq2]
          constructor
          · intro hc; injection hc with hc; exact absurd hc.symm hq
          · intro hc
            have := (hInv.actor_iff b q).mpr hc
            rw [hb, hpos] at this
            injection this with this
            exact absurd this.symm hq2
    · rw [if_neg hb]
      by_cases hq : q = there
      · rw [if_pos hq]
        constructor
        · intro hc
          have := (hInv.actor_iff b q).mp hc
          rw [hq] at this
          rcases hfree with hf | hf <;> rw [hf] at this
          · cases this
          · injection this with this
            exact absurd this.symm hb
        · intro hc; injection hc with hc; exact absurd hc.symm hb
      · rw [if_neg hq]
        by_cases hq2 : q = oldPos
        · rw [if_pos hq2]
          constructor
          · intro hc
            have := (hInv.actor_iff b q).mp hc
            rw [hq2, hpa] at this
            injection this with this
            exact absurd this.symm hb
          · intro hc; cases hc
        · rw [if_neg hq2]
          exact hInv.actor_iff b q
  · intro i q; exact hInv.item_iff i q
  · intro q; exact hInv.stack_nodup q
  · intro b hb
    simp only [moveActUpd] at hb ⊢
    by_cases hba : b = a
    · rw [hba]
      exact hInv.id_of_placed a (by rw [hpos]; rfl)
    · rw [if_neg hba] at hb
      exact hInv.id_of_placed b hb
  · intro k b hk
    simp only [moveActUpd] at hk ⊢
    obtain ⟨hk1, hk2⟩ := hInv.placed_of_id k b hk
    refine ⟨hk1, ?_⟩
    by_cases hba : b = a
    · rw [if_pos hba]; rfl
    · rw [if_neg hba]; exact hk2

/-- One mutating grid operation (the three mutation methods of `Map`). -/
inductive Op where
  | placeOp (t : Thing) (posOpt : Option Pos) (fallback : Bool) (rng : Rng)
  | removeOp (t : Thing)
  | moveOp (t : Thing) (there : Pos)

/-- Run one operation, keeping only the resulting map. -/
def applyOp (m : Map) (op : Op) : Except PyErr Map :=
  match op with
  | .placeOp t posOpt fb rng =>
    match m.place t posOpt fb rng with
    | .ok (m', _) => .ok m'
    | .error e => .error e
  | .removeOp t => m.remove t
  | .moveOp t there => m.move t there

/-- The guard of the amended claim: an actor move must target a position not
occupied by a different actor (the code itself never checks this). -/
def moveOk (m : Map) : Op → Prop
  | .moveOp (.act a) there => m.pos_to_a there = none ∨ m.pos_to_a there = some a
  | _ => True

/-- A sequence of successful operations, as the claim states it: each
operation merely has to succeed. -/
inductive RunAny : Map → List Op → Map → Prop where
  | nil (m : Map) : RunAny m [] m
  | cons {m m1 m2 : Map} {op : Op} {ops : List Op} :
      applyOp m op = .ok m1 → RunAny m1 ops m2 → RunAny m (op :: ops) m2

/-- A sequence of successful operations whose actor moves all target
positions free of other actors. -/
inductive RunOk : Map → List Op → Map → Prop where
  | nil (m : Map) : RunOk m [] m
  | cons {m m1 m2 : Map} {op : Op} {ops : List Op} :
      moveOk m op → applyOp m op = .ok m1 → RunOk m1 ops m2 → RunOk m (op :: ops) m2

/-- One guarded operation preserves the invariant. -/
theorem inv_applyOp {m m' : Map} {op : Op} (hInv : Inv m) (hmv : moveOk m op)
    (h : applyOp m op = .ok m') : Inv m' := by
  cases op with
  | placeOp t posOpt fb rng =>
    simp only [applyOp] at h
    rcases hp : m.place t posOpt fb rng with e | ⟨m2, p⟩
    · rw [hp] at h; cases h
    · rw [hp] at h
      cases h
      cases t with
      | act a =>
        obtain ⟨ha, hb, rfl⟩ := place_ok_act hp
        exact inv_placeActUpd hInv ha hb
      | itm i =>
        obtain ⟨hi, rfl⟩ := place_ok_itm hp
        exact inv_placeItmUpd hInv hi
      | mood md =>
        obtain rfl := place_ok_mood hp
        exact inv_placeMoodUpd hInv
  | removeOp t =>
    cases t with
    | act a =>
      simp only [applyOp, Map.remove] at h
      rcases hpos : m.a_to_pos a with _ | pos
      · rw [hpos] at h; cases h
      · rw [hpos] at h; cases h
        exact inv_removeActUpd hInv hpos
    | itm i =>
      simp only [applyOp, Map.remove] at h
      rcases hpos : m.i_to_pos i with _ | pos
      · rw [hpos] at h; cases h
      · rw [hpos] at h; cases h
        exact inv_removeItmUpd hInv hpos
    | mood md => simp only [applyOp, Map.remove] at h; cases h
  | moveOp t there =>
    cases t with
    | act a =>
      simp only [applyOp, Map.move] at h
      rcases hpos : m.a_to_pos a with _ | oldPos
      · rw [hpos] at h; cases h
      · rw [hpos] at h; cases h
        simp only [moveOk] at hmv
        exact inv_moveActUpd hInv hpos hmv
    | itm i =>
      simp only [applyOp, Map.move] at h
      rcases hpos : m.i_to_pos i with _ | pos
      · rw [hpos] at h; cases h
      · rw [hpos] at h; cases h
    | mood md => simp only [applyOp, Map.move] at h; cases h

/-- A 2×1 map, all floor, empty indices. -/
def mapC3 : Map :=
  { sampleMap1 with width := 2 }

/-- The empty indices of `mapC3` satisfy the invariant. -/
theorem invMapC3 : Inv mapC3 := by
  constructor
  · intro a p
    simp [mapC3, sampleMap1]
  · intro i p
    simp [mapC3, sampleMap1]
  · intro p
    simp [mapC3, sampleMap1]
  · intro a ha
    simp [mapC3, sampleMap1] at ha
  · intro k a hk
    simp [mapC3, sampleMap1] at hk

/-- The run of the counterexample: place two actors on a 2×1 map and move the
first onto the second's position (every operation succeeds). -/
def opsC3bad : List Op :=
  [.placeOp (.act 0) (some (0, 0)) false rng0,
   .placeOp (.act 1) (some (1, 0)) false rng0,
   .moveOp (.act 0) (1, 0)]

/-- Counterexample to C3 as stated: starting from a consistent map, a
sequence of three successful operations (two placements and one move onto an
occupied position) leaves the actor indices inconsistent — actor 1 is still
recorded at (1,0) in `_a_to_pos` while `_pos_to_a[(1,0)]` now holds actor 0,
an orphaned reference. -/
theorem move_breaks_actor_indices :
    Inv mapC3 ∧ ∃ mf, RunAny mapC3 opsC3bad mf ∧ ¬ Inv mf := by
  refine ⟨invMapC3, _, RunAny.cons rfl (RunAny.cons rfl (RunAny.cons rfl (RunAny.nil _))), ?_⟩
  intro hc
  have h1 := (hc.actor_iff 1 (1, 0)).mp rfl
  have h2 : (some 0 : Option ActorT) = some 1 := by
    rw [← h1]; rfl
  injection h2 with h2
  exact absurd h2 (by decide)

/-- C3 (amended): after every sequence of successful `place`, `remove` and
`move` operations in which each actor move targets a position not occupied by
a different actor, the actor↔position indices remain mutual inverses, the
item↔position indices remain consistent, and no index holds an orphaned
reference.  (Without the move guard the claim fails: `Map.move` silently
overwrites the occupant, see the counterexample.) -/
theorem Map.indices_consistent_of_run (m m' : Map) (ops : List Op)
    (h0 : Inv m) (hrun : RunOk m ops m') : Inv m' := by
  induction ops generalizing m with
  | nil => cases hrun; exact h0
  | cons op rest ih =>
    cases hrun with
    | cons hmv happ hrest => exact ih _ (inv_applyOp h0 hmv happ) hrest

/-- The run of the witness: place, a legal move, then remove. -/
def opsC3ok : List Op :=
  [.placeOp (.act 0) (some (0, 0)) false rng0,
   .moveOp (.act 0) (1, 0),
   .removeOp (.act 0)]

/-- Witness for C3 (amended) on a concrete guarded run. -/
theorem Map.indices_consistent_of_run_witness :
    ∃ mf, RunOk mapC3 opsC3ok mf ∧ Inv mf := by
  refine ⟨_, RunOk.cons trivial rfl (RunOk.cons (Or.inl rfl) rfl
    (RunOk.cons trivial rfl (RunOk.nil _))), ?_⟩
  exact Map.indices_consistent_of_run mapC3 _ opsC3ok invMapC3
    (RunOk.cons trivial rfl (RunOk.cons (Or.inl rfl) rfl
      (RunOk.cons trivial rfl (RunOk.nil _))))

/-! C9 — hero handling in serialization. -/

/-- C2/C9 helper: `Map.place` can never fail with the `RuntimeError` of the
"map is full" branch: `if tiles:` tests the generator object, which is always
truthy, so that branch is unreachable on every input. -/
theorem place_never_map_full (m : Map) (t : Thing) (posOpt : Option Pos)
    (fb : Bool) (rng : Rng) :
    m.place t posOpt fb rng ≠ .error .runtimeMapFull := by
  intro hc
  unfold Map.place at hc
  by_cases hmem : m.mem t
  · rw [if_pos hmem] at hc; cases hc
  · rw [if_neg hmem] at hc
    split at hc
    · -- the position computation raised `e`; only StopIteration is possible
      rename_i e heq
      injection hc with hc
      subst hc
      rcases posOpt with _ | p
      · simp only [Map.random_pos] at heq
        split at heq
        · cases heq
        · split at heq
          · cases heq
          · injection heq with heq; cases heq
      · cases heq
    · rename_i pos heq
      split at hc
      · -- actor branch
        split at hc
        · rename_i e heq2
          injection hc with hc
          subst hc
          split at heq2
          · split at heq2
            · split at heq2
              · cases heq2
              · injection heq2 with heq2; cases heq2
            · injection heq2 with heq2; cases heq2
          · cases heq2
        · cases hc
      · cases hc
      · cases hc

/-- A 1×1 floor map whose single tile is occupied by actor 0 — the entire
grid is occupied. -/
def mapFull : Map :=
  { sampleMap1 with
     a_to_pos := fun x => if x = 0 then some ((0 : Int), (0 : Int)) else none
     pos_to_a := fun q => if q = ((0 : Int), (0 : Int)) then some 0 else none
     id_to_a := fun k => if k = 0 then some 0 else none }

/-- C2, code bug: with `fallback=True` on a fully occupied grid, `Map.place`
raises `StopIteration` (from `next(iter(tiles))` on the exhausted nearby-tile
generator) instead of the documented MapFull `RuntimeError`: the source's own
`raise RuntimeError("The map appears to be full!")` branch is dead code
because `if tiles:` tests the generator object, which is always truthy.  The
conflict half of the claim does hold: with `fallback=False` the occupied
target raises the Conflict `ValueError`, and `place` never returns the
MapFull error on any input. -/
theorem place_fallback_full_raises_stop_iteration :
    (mapFull.width = 1 ∧ mapFull.height = 1 ∧
      mapFull.is_free (0, 0) = false ∧
      mapFull.place (.act 1) (some (0, 0)) true rng0 = .error .stopIteration ∧
      mapFull.place (.act 1) (some (0, 0)) false rng0 = .error .valueConflict) ∧
    ∀ (m : Map) (t : Thing) (posOpt : Option Pos) (fb : Bool) (rng : Rng),
      m.place t posOpt fb rng ≠ .error .runtimeMapFull := by
  exact ⟨⟨rfl, rfl, by decide, rfl, rfl⟩, place_never_map_full⟩

/-- C9: serializing a map with the hero placed at `p` strips the hero from
all three actor indices and records `p` separately; restoring without a
restored hero raises the fatal ordering `RuntimeError`; restoring with the
hero places it back at exactly `p` and preserves the occupancy invariant. -/
theorem Map.getstate_setstate_hero (m : Map) (h : ActorT) (p : Pos) (rng : Rng)
    (hInv : Inv m) (hpos : m.a_to_pos h = some p) :
    (m.getstate (some h)).base.a_to_pos h = none ∧
    (m.getstate (some h)).base.id_to_a (actorId h) = none ∧
    (∀ q, (m.getstate (some h)).base.pos_to_a q ≠ some h) ∧
    (m.getstate (some h)).heroPos = some p ∧
    Map.setstate none (m.getstate (some h)) rng = .error .runtimeHeroOrder ∧
    ∃ m', Map.setstate (some h) (m.getstate (some h)) rng = .ok m' ∧
      m'.a_to_pos h = some p ∧ m'.pos_to_a p = some h ∧ Inv m' := by
  have hg : m.getstate (some h) = ⟨removeActUpd m h p, some p⟩ := by
    simp only [Map.getstate, hpos]
  have hInv' : Inv (removeActUpd m h p) := inv_removeActUpd hInv hpos
  have ha' : (removeActUpd m h p).a_to_pos h = none := by
    simp [removeActUpd]
  have hp' : (removeActUpd m h p).pos_to_a p = none := by
    simp [removeActUpd]
  have hmem : (removeActUpd m h p).mem (.act h) = false := by
    simp [Map.mem, ha']
  have hplace : (removeActUpd m h p).place (.act h) (some p) false rng =
      .ok (placeActUpd (removeActUpd m h p) h p, p) := by
    unfold Map.place
    rw [if_neg (by simp [hmem])]
    simp only [hp', Option.isSome_none, Bool.false_eq_true, if_false]
  refine ⟨?_, ?_, ?_, ?_, ?_, ?_⟩
  · rw [hg]; exact ha'
  · rw [hg]; simp [removeActUpd]
  · rw [hg]
    intro q hq
    simp only [removeActUpd] at hq
    by_cases hqp : q = p
    · rw [if_pos hqp] at hq; cases hq
    · rw [if_neg hqp] at hq
      have := (hInv.actor_iff h q).mpr hq
      rw [hpos] at this
      injection this with this
      exact absurd this.symm hqp
  · rw [hg]
  · rw [hg]
    rfl
  · refine ⟨placeActUpd (removeActUpd m h p) h p, ?_, ?_, ?_, ?_⟩
    · rw [hg]
      unfold Map.setstate
      simp only [hplace]
    · simp [placeActUpd]
    · simp [placeActUpd]
    · exact inv_placeActUpd hInv' ha' hp'

/-- A 1×1 map with the hero (actor 0) placed at the origin. -/
def mapHero : Map := mapFull

/-- The indices of `mapHero` satisfy the invariant. -/
theorem invMapHero : Inv mapHero := by
  constructor
  · intro a p
    by_cases ha : a = 0
    · subst ha
      by_cases hp : p = ((0 : Int), (0 : Int))
      · subst hp; simp [mapHero, mapFull]
      · simp only [mapHero, mapFull, if_pos rfl, if_neg hp]
        constructor
        · intro hc; injection hc with hc; exact absurd hc.symm hp
        · intro hc; cases hc
    · by_cases hp : p = ((0 : Int), (0 : Int))
      · simp only [mapHero, mapFull, if_neg ha, if_pos hp]
        constructor
        · intro hc
          simp [sampleMap1] at hc
        · intro hc; injection hc with hc; exact absurd hc.symm ha
      · simp only [mapHero, mapFull, if_neg ha, if_neg hp]
        simp [sampleMap1]
  · intro i p
    simp [mapHero, mapFull, sampleMap1]
  · intro p
    simp [mapHero, mapFull, sampleMap1]
  · intro a ha
    by_cases h0 : a = 0
    · subst h0; simp [mapHero, mapFull, actorId]
    · simp only [mapHero, mapFull, if_neg h0] at ha
      simp [sampleMap1] at ha
  · intro k a hk
    by_cases h0 : k = 0
    · subst h0
      simp only [mapHero, mapFull, if_pos rfl] at hk
      injection hk with hk
      subst hk
      constructor
      · rfl
      · simp [mapHero, mapFull]
    · simp only [mapHero, mapFull, if_neg h0] at hk
      simp [sampleMap1] at hk

/-- Witness for C9 on a concrete map with the hero at the origin. -/
theorem Map.getstate_setstate_hero_witness :
    (mapHero.getstate (some 0)).base.a_to_pos 0 = none ∧
    (mapHero.getstate (some 0)).base.id_to_a (actorId 0) = none ∧
    (∀ q, (mapHero.getstate (some 0)).base.pos_to_a q ≠ some 0) ∧
    (mapHero.getstate (some 0)).heroPos = some (0, 0) ∧
    Map.setstate none (mapHero.getstate (some 0)) rng0 = .error .runtimeHeroOrder ∧
    ∃ m', Map.setstate (some 0) (mapHero.getstate (some 0)) rng0 = .ok m' ∧
      m'.a_to_pos 0 = some (0, 0) ∧ m'.pos_to_a (0, 0) = some 0 ∧ Inv m' :=
  Map.getstate_setstate_hero mapHero 0 (0, 0) rng0 invMapHero rfl

/-! C7 — the recursive backtracker maze filler. -/

/-- Modelled from the spec: `geom.is_in_rect(coord, rect)` — the coordinate
lies inside the axis-aligned rectangle given by its bottom-left and top-right
corners. -/
def is_in_rect (coord : Pos) (rect : Pos × Pos) : Bool :=
  decide (rect.1.1 ≤ coord.1 ∧ coord.1 ≤ rect.2.1 ∧
          rect.1.2 ≤ coord.2 ∧ coord.2 ≤ rect.2.2)

/-- Modelled from the spec: `geom.vect` addition, `offset + coord`. -/
def vadd (o c : Pos) : Pos := (c.1 + o.1, c.2 + o.2)

/-- Modelled from the spec: `geom.mid_point` of two cell coordinates two
steps apart (Python floor division). -/
def mid_point (a b : Pos) : Pos := ((a.1 + b.1).fdiv 2, (a.2 + b.2).fdiv 2)

/-- `RecursiveBacktracker.neighbor_offsets`. -/
def neighbor_offsets : List Pos := [(2, 0), (-2, 0), (0, 2), (0, -2)]

/-- `RecursiveBacktracker.neighbors(coord)`: the 2-step neighbors inside the
rectangle, in offset order. -/
def rbNeighbors (rect : Pos × Pos) (coord : Pos) : List Pos :=
  (neighbor_offsets.map fun o => vadd o coord).filter fun c => is_in_rect c rect

/-- The mutable state of a `RecursiveBacktracker` run: the map tiles and the
`visited` set, plus two ghost fields used only by the verification — `trace`
records the coordinates on which the recursive `fill` body ran (in call
order) and `ok` is cleared if the explicit fuel ever runs out (it never does
for the fuel used by `RecursiveBacktracker.fill`). -/
structure RBSt where
  tiles : Pos → Tile
  visited : Finset Pos
  trace : List Pos
  ctr : Nat
  ok : Bool

/-- The body of `RecursiveBacktracker.fill(coord)`: stamp the cell to floor,
add it to `visited`, shuffle the unvisited 2-step neighbors, then pop cells
from the end of the list (`next_options.pop()` — hence the `reverse`),
re-checking `visited` and recursing after stamping the connecting midpoint.
The recursion is bounded by explicit fuel. -/
def fillCell (rect : Pos × Pos) (shuffles : Nat → List Pos → List Pos) :
    Nat → RBSt → Pos → RBSt
  | 0, st, _ => { st with ok := false }
  | fuel + 1, st, coord =>
    let st1 : RBSt :=
      { st with
         tiles := fun q => if q = coord then Tile.floor else st.tiles q
         visited := insert coord st.visited
         trace := st.trace ++ [coord] }
    let options := shuffles st1.ctr
      ((rbNeighbors rect coord).filter fun c => decide (c ∉ st1.visited))
    let st2 : RBSt := { st1 with ctr := st1.ctr + 1 }
    options.reverse.foldl
      (fun s nxt =>
        if nxt ∈ s.visited then s
        else
          fillCell rect shuffles fuel
            { s with tiles := fun q => if q = mid_point coord nxt then Tile.floor
                                       else s.tiles q }
            nxt)
      st2

/-- Fuel sufficient for any run: one more than the number of integer points
of the rectangle (an upper bound on the number of cells). -/
def fillFuel (rect : Pos × Pos) : Nat :=
  (rect.2.1 + 1 - rect.1.1).toNat * (rect.2.2 + 1 - rect.1.2).toNat + 2

/-- `RecursiveBacktracker.fill()` with no argument: pick the random start
(supplied by the oracle as `start`), stamp it, mark it visited and recurse
from it. -/
def RecursiveBacktracker.fill (rect : Pos × Pos)
    (shuffles : Nat → List Pos → List Pos) (start : Pos) (st0 : RBSt) : RBSt :=
  let st1 : RBSt :=
    { st0 with
       tiles := fun q => if q = start then Tile.floor else st0.tiles q
       visited := insert start st0.visited }
  fillCell rect shuffles (fillFuel rect) st1 start

/-- The 2-step lattice of `base` inside the rectangle: the cells the filler
can ever reach from `base`. -/
def latticeCells (rect : Pos × Pos) (base : Pos) : Finset Pos :=
  ((Finset.Icc rect.1.1 rect.2.1) ×ˢ (Finset.Icc rect.1.2 rect.2.2)).filter
    fun p => (p.1 - base.1) % 2 = 0 ∧ (p.2 - base.2) % 2 = 0

/-- The fillable cells of the rectangle: the 2×2-aligned lattice anchored at
the bottom-left corner (the set whose size `MazeAlgo.nb_cells` computes). -/
def fillableCells (rect : Pos × Pos) : Finset Pos :=
  latticeCells rect rect.1

/-- An all-solid-rock initial state. -/
def rbInit : RBSt :=
  { tiles := fun _ => Tile.solidRock, visited := ∅, trace := [], ctr := 0,
    ok := true }

/-- The 3×3 rectangle of the counterexample. -/
def rectC7 : Pos × Pos := ((0, 0), (2, 2))

/-- Counterexample to C7 as stated: `RecursiveBacktracker.fill` starts at
`rng.pos_in_rect(self.rect)`, a position that need not be 2×2-aligned with
the rectangle.  Starting the 3×3 rectangle at (1,1) (a legal random draw,
with the identity shuffle) the run terminates after visiting only (1,1):
the fillable cell (0,0) is never visited and is left as untouched
SolidRock. -/
theorem fill_misaligned_start_leaves_cell :
    is_in_rect (1, 1) rectC7 = true ∧
    (0, 0) ∈ fillableCells rectC7 ∧
    (RecursiveBacktracker.fill rectC7 (fun _ l => l) (1, 1) rbInit).ok = true ∧
    (RecursiveBacktracker.fill rectC7 (fun _ l => l) (1, 1) rbInit).tiles (0, 0)
      = Tile.solidRock ∧
    (0, 0) ∉ (RecursiveBacktracker.fill rectC7 (fun _ l => l) (1, 1) rbInit).trace := by
  decide

/-- Unfolding membership in `rbNeighbors`: the neighbor is in the rectangle
and differs from the cell by exactly one ±2 offset. -/
theorem rbNeighbors_cases {rect : Pos × Pos} {c o : Pos}
    (h : o ∈ rbNeighbors rect c) :
    is_in_rect o rect = true ∧
    ((o.1 = c.1 + 2 ∧ o.2 = c.2) ∨ (o.1 = c.1 - 2 ∧ o.2 = c.2) ∨
     (o.1 = c.1 ∧ o.2 = c.2 + 2) ∨ (o.1 = c.1 ∧ o.2 = c.2 - 2)) := by
  simp only [rbNeighbors, List.mem_filter, List.mem_map, neighbor_offsets,
    List.mem_cons, List.not_mem_nil, or_false] at h
  obtain ⟨⟨off, hoff, rfl⟩, hpred⟩ := h
  refine ⟨hpred, ?_⟩
  rcases hoff with rfl | rfl | rfl | rfl <;> simp [vadd] <;> omega

/-- Conversely, a 2-step offset landing inside the rectangle is a neighbor. -/
theorem mem_rbNeighbors {rect : Pos × Pos} {c o : Pos}
    (hin : is_in_rect o rect = true)
    (hoff : (o.1 = c.1 + 2 ∧ o.2 = c.2) ∨ (o.1 = c.1 - 2 ∧ o.2 = c.2) ∨
      (o.1 = c.1 ∧ o.2 = c.2 + 2) ∨ (o.1 = c.1 ∧ o.2 = c.2 - 2)) :
    o ∈ rbNeighbors rect c := by
  simp only [rbNeighbors, List.mem_filter, List.mem_map, neighbor_offsets,
    List.mem_cons, List.not_mem_nil, or_false]
  obtain ⟨ox, oy⟩ := o
  obtain ⟨cx, cy⟩ := c
  simp only at hoff
  refine ⟨?_, hin⟩
  rcases hoff with ⟨h1, h2⟩ | ⟨h1, h2⟩ | ⟨h1, h2⟩ | ⟨h1, h2⟩
  · exact ⟨(2, 0), Or.inl rfl, by simp only [vadd, Prod.mk.injEq]; omega⟩
  · exact ⟨(-2, 0), Or.inr (Or.inl rfl), by simp only [vadd, Prod.mk.injEq]; omega⟩
  · exact ⟨(0, 2), Or.inr (Or.inr (Or.inl rfl)), by
      simp only [vadd, Prod.mk.injEq]; omega⟩
  · exact ⟨(0, -2), Or.inr (Or.inr (Or.inr rfl)), by
      simp only [vadd, Prod.mk.injEq]; omega⟩

/-- Membership in a lattice, unfolded. -/
theorem mem_latticeCells {rect : Pos × Pos} {base p : Pos} :
    p ∈ latticeCells rect base ↔
      (rect.1.1 ≤ p.1 ∧ p.1 ≤ rect.2.1 ∧ rect.1.2 ≤ p.2 ∧ p.2 ≤ rect.2.2) ∧
      (p.1 - base.1) % 2 = 0 ∧ (p.2 - base.2) % 2 = 0 := by
  simp only [latticeCells, Finset.mem_filter, Finset.mem_product, Finset.mem_Icc]
  tauto

/-- Lattices anchored at bases of equal parity coincide. -/
theorem latticeCells_congr {rect : Pos × Pos} {b1 b2 : Pos}
    (h1 : (b1.1 - b2.1) % 2 = 0) (h2 : (b1.2 - b2.2) % 2 = 0) :
    latticeCells rect b1 = latticeCells rect b2 := by
  ext p
  rw [mem_latticeCells, mem_latticeCells]
  constructor <;> intro ⟨ha, hb, hc⟩ <;> exact ⟨ha, by omega, by omega⟩

/-- A cell inside the rectangle belongs to its own lattice. -/
theorem mem_lattice_self {rect : Pos × Pos} {c : Pos}
    (h : is_in_rect c rect = true) : c ∈ latticeCells rect c := by
  simp only [is_in_rect, decide_eq_true_eq] at h
  rw [mem_latticeCells]
  omega

/-- Neighbors stay in the cell's lattice. -/
theorem mem_lattice_of_nbr {rect : Pos × Pos} {c o : Pos}
    (h : o ∈ rbNeighbors rect c) : o ∈ latticeCells rect c := by
  obtain ⟨hin, hcase⟩ := rbNeighbors_cases h
  simp only [is_in_rect, decide_eq_true_eq] at hin
  rw [mem_latticeCells]
  rcases hcase with ⟨ha, hb⟩ | ⟨ha, hb⟩ | ⟨ha, hb⟩ | ⟨ha, hb⟩ <;> omega

/-- A neighbor's lattice is the cell's lattice. -/
theorem lattice_congr_of_nbr {rect : Pos × Pos} {c o : Pos}
    (h : o ∈ rbNeighbors rect c) :
    latticeCells rect o = latticeCells rect c := by
  obtain ⟨-, hcase⟩ := rbNeighbors_cases h
  rcases hcase with ⟨ha, hb⟩ | ⟨ha, hb⟩ | ⟨ha, hb⟩ | ⟨ha, hb⟩ <;>
    exact latticeCells_congr (by omega) (by omega)

/-- The lattice is no bigger than the integer-point count of the rectangle. -/
theorem lattice_card_le (rect : Pos × Pos) (base : Pos) :
    (latticeCells rect base).card ≤
      (rect.2.1 + 1 - rect.1.1).toNat * (rect.2.2 + 1 - rect.1.2).toNat := by
  calc (latticeCells rect base).card
      ≤ ((Finset.Icc rect.1.1 rect.2.1) ×ˢ (Finset.Icc rect.1.2 rect.2.2)).card :=
        Finset.card_filter_le _ _
    _ = _ := by rw [Finset.card_product, Int.card_Icc, Int.card_Icc]

/-- Reachability through 2-step neighbor moves inside the rectangle. -/
inductive LatReach (rect : Pos × Pos) (start : Pos) : Pos → Prop where
  | refl : LatReach rect start start
  | step {p q : Pos} : LatReach rect start p → q ∈ rbNeighbors rect p →
      LatReach rect start q

/-- Every cell of the start's lattice is reachable from the start: the
lattice points of a box are connected under ±2 axis moves that stay in the
box. -/
theorem latReach_all {rect : Pos × Pos} {start : Pos}
    (hstart : is_in_rect start rect = true) :
    ∀ p ∈ latticeCells rect start, LatReach rect start p := by
  simp only [is_in_rect, decide_eq_true_eq] at hstart
  have key : ∀ n : Nat, ∀ p : Pos,
      (p.1 - start.1).natAbs + (p.2 - start.2).natAbs = n →
      p ∈ latticeCells rect start → LatReach rect start p := by
    intro n
    induction n using Nat.strong_induction_on with
    | _ n ihn =>
      intro p hn hp
      rw [mem_latticeCells] at hp
      obtain ⟨px, py⟩ := p
      obtain ⟨⟨hx1, hx2, hy1, hy2⟩, hpar1, hpar2⟩ := hp
      simp only at hn hpar1 hpar2 hx1 hx2 hy1 hy2
      by_cases hpx : px = start.1
      · by_cases hpy : py = start.2
        · have : ((px, py) : Pos) = start := by
            obtain ⟨sx, sy⟩ := start
            simp only at hpx hpy
            simp [hpx, hpy]
          rw [this]
          exact LatReach.refl
        · rcases Int.lt_or_lt_of_ne hpy with hlt | hlt
          · -- py < start.2 : step down from (px, py + 2)
            have hq : ((px, py + 2) : Pos) ∈ latticeCells rect start := by
              rw [mem_latticeCells]
              constructor
              · constructor
                · exact hx1
                · refine ⟨hx2, by omega, by omega⟩
              · constructor <;> simp <;> omega
            have hreach := ihn (((px, py + 2).1 - start.1).natAbs +
                ((px, py + 2).2 - start.2).natAbs) (by simp <;> omega)
              ((px, py + 2) : Pos) rfl hq
            refine LatReach.step hreach (mem_rbNeighbors ?_ ?_)
            · simp only [is_in_rect, decide_eq_true_eq]
              refine ⟨hx1, hx2, hy1, hy2⟩
            · simp <;> omega
          · -- start.2 < py : step up from (px, py - 2)
            have hq : ((px, py - 2) : Pos) ∈ latticeCells rect start := by
              rw [mem_latticeCells]
              constructor
              · refine ⟨hx1, hx2, by omega, by omega⟩
              · constructor <;> simp <;> omega
            have hreach := ihn (((px, py - 2).1 - start.1).natAbs +
                ((px, py - 2).2 - start.2).natAbs) (by simp <;> omega)
              ((px, py - 2) : Pos) rfl hq
            refine LatReach.step hreach (mem_rbNeighbors ?_ ?_)
            · simp only [is_in_rect, decide_eq_true_eq]
              refine ⟨hx1, hx2, hy1, hy2⟩
            · simp <;> omega
      · rcases Int.lt_or_lt_of_ne hpx with hlt | hlt
        · -- px < start.1 : step left from (px + 2, py)
          have hq : ((px + 2, py) : Pos) ∈ latticeCells rect start := by
            rw [mem_latticeCells]
            constructor
            · refine ⟨by omega, by omega, hy1, hy2⟩
            · constructor <;> simp <;> omega
          have hreach := ihn (((px + 2, py).1 - start.1).natAbs +
              ((px + 2, py).2 - start.2).natAbs) (by simp <;> omega)
            ((px + 2, py) : Pos) rfl hq
          refine LatReach.step hreach (mem_rbNeighbors ?_ ?_)
          · simp only [is_in_rect, decide_eq_true_eq]
            refine ⟨hx1, hx2, hy1, hy2⟩
          · simp <;> omega
        · -- start.1 < px : step right from (px - 2, py)
          have hq : ((px - 2, py) : Pos) ∈ latticeCells rect start := by
            rw [mem_latticeCells]
            constructor
            · refine ⟨by omega, by omega, hy1, hy2⟩
            · constructor <;> simp <;> omega
          have hreach := ihn (((px - 2, py).1 - start.1).natAbs +
              ((px - 2, py).2 - start.2).natAbs) (by simp <;> omega)
            ((px - 2, py) : Pos) rfl hq
          refine LatReach.step hreach (mem_rbNeighbors ?_ ?_)
          · simp only [is_in_rect, decide_eq_true_eq]
            refine ⟨hx1, hx2, hy1, hy2⟩
          · simp <;> omega
  intro p hp
  exact key _ p rfl hp

/-- Invariant relating an intermediate state `s` of a `fill(coord)` call to
the state `st` at the call's entry: `coord` and everything from `st` stay
visited, only lattice cells get added, fuel never ran out, only floors get
written, the ghost trace grew by `coord` plus fresh cells and mirrors the
visited set, and every newly finished cell other than `coord` has all its
neighbors visited. -/
structure FoldInv (rect : Pos × Pos) (L : Finset Pos) (st s : RBSt)
    (coord : Pos) : Prop where
  ins : insert coord st.visited ⊆ s.visited
  bound : s.visited ⊆ st.visited ∪ L
  ok_eq : s.ok = st.ok
  tiles_mono : ∀ p, s.tiles p = st.tiles p ∨ s.tiles p = Tile.floor
  tiles_floor : ∀ p ∈ s.visited, s.tiles p = Tile.floor
  trace_spec : ∃ Δ, s.trace = st.trace ++ (coord :: Δ) ∧ (coord :: Δ).Nodup ∧
      (∀ x ∈ Δ, x ∉ st.visited) ∧
      (∀ x, x ∈ s.visited ↔ x ∈ st.visited ∨ x ∈ coord :: Δ)
  closure : ∀ p ∈ s.visited, p ∉ st.visited → p ≠ coord →
      ∀ q ∈ rbNeighbors rect p, q ∈ s.visited

/-- Postcondition of a completed `fill(coord)` call: the invariant above,
plus the fact that every 2-step neighbor of `coord` ended up visited. -/
def FillPost (rect : Pos × Pos) (L : Finset Pos) (st res : RBSt)
    (coord : Pos) : Prop :=
  FoldInv rect L st res coord ∧ ∀ q ∈ rbNeighbors rect coord, q ∈ res.visited

/-- Behaviour of the option-processing loop of `fill(coord)`: starting from
any state satisfying the invariant, folding over any list of neighbors of
`coord` preserves the invariant, only grows the visited set and leaves every
listed option visited. -/
theorem fillFold_spec (rect : Pos × Pos) (shuffles : Nat → List Pos → List Pos)
    (fuel : Nat) (coord : Pos) (st : RBSt)
    (hfuel : (latticeCells rect coord \ insert coord st.visited).card ≤ fuel)
    (IH : ∀ (s' : RBSt) (c : Pos), is_in_rect c rect = true →
        (latticeCells rect c \ insert c s'.visited).card + 1 ≤ fuel →
        (∀ p ∈ s'.visited, s'.tiles p = Tile.floor) →
        FillPost rect (latticeCells rect c) s'
          (fillCell rect shuffles fuel s' c) c) :
    ∀ (opts : List Pos) (s : RBSt),
      (∀ o ∈ opts, o ∈ rbNeighbors rect coord) →
      FoldInv rect (latticeCells rect coord) st s coord →
      FoldInv rect (latticeCells rect coord) st
        (opts.foldl (fun s nxt => if nxt ∈ s.visited then s else
            fillCell rect shuffles fuel
              { s with tiles := fun q => if q = mid_point coord nxt then Tile.floor
                                         else s.tiles q } nxt) s) coord ∧
      s.visited ⊆ (opts.foldl (fun s nxt => if nxt ∈ s.visited then s else
            fillCell rect shuffles fuel
              { s with tiles := fun q => if q = mid_point coord nxt then Tile.floor
                                         else s.tiles q } nxt) s).visited ∧
      ∀ o ∈ opts, o ∈ (opts.foldl (fun s nxt => if nxt ∈ s.visited then s else
            fillCell rect shuffles fuel
              { s with tiles := fun q => if q = mid_point coord nxt then Tile.floor
                                         else s.tiles q } nxt) s).visited := by
  intro opts
  induction opts with
  | nil =>
    intro s _ hs
    exact ⟨hs, Finset.Subset.refl _, by simp⟩
  | cons o rest iho =>
    intro s hmem hs
    simp only [List.foldl_cons]
    by_cases ho : o ∈ s.visited
    · rw [if_pos ho]
      obtain ⟨hres, hmono, hrest⟩ :=
        iho s (fun x hx => hmem x (List.mem_cons_of_mem _ hx)) hs
      refine ⟨hres, hmono, ?_⟩
      intro x hx
      rcases List.mem_cons.mp hx with rfl | hx
      · exact hmono ho
      · exact hrest x hx
    · rw [if_neg ho]
      have hoN : o ∈ rbNeighbors rect coord := hmem o (List.mem_cons_self _ _)
      have hinO : is_in_rect o rect = true := (rbNeighbors_cases hoN).1
      have hLo : latticeCells rect o = latticeCells rect coord :=
        lattice_congr_of_nbr hoN
      have honst : o ∉ insert coord st.visited := fun hx => ho (hs.ins hx)
      have hoL : o ∈ latticeCells rect coord := mem_lattice_of_nbr hoN
      set sMid : RBSt :=
        { s with tiles := fun q => if q = mid_point coord o then Tile.floor
                                   else s.tiles q } with hsMid
      have hsubset : latticeCells rect coord \ insert o sMid.visited ⊆
          latticeCells rect coord \ insert coord st.visited := by
        intro x hx
        simp only [Finset.mem_sdiff, Finset.mem_insert] at hx ⊢
        obtain ⟨hxL, hxn⟩ := hx
        refine ⟨hxL, fun hc => hxn ?_⟩
        rcases hc with rfl | hc
        · exact Or.inr (hs.ins (Finset.mem_insert_self _ _))
        · exact Or.inr (hs.ins (Finset.mem_insert_of_mem hc))
      have hlt : (latticeCells rect coord \ insert o sMid.visited).card <
          (latticeCells rect coord \ insert coord st.visited).card := by
        refine Finset.card_lt_card
          ((Finset.ssubset_iff_of_subset hsubset).mpr ⟨o, ?_, ?_⟩)
        · simp only [Finset.mem_sdiff]
          exact ⟨hoL, honst⟩
        · simp [Finset.mem_sdiff]
      have hfuelO : (latticeCells rect o \ insert o sMid.visited).card + 1 ≤ fuel := by
        rw [hLo]
        omega
      have hflO : ∀ p ∈ sMid.visited, sMid.tiles p = Tile.floor := by
        intro p hp
        show (if p = mid_point coord o then Tile.floor else s.tiles p) = Tile.floor
        by_cases hpm : p = mid_point coord o
        · rw [if_pos hpm]
        · rw [if_neg hpm]
          exact hs.tiles_floor p hp
      obtain ⟨hpost, hnbrsO⟩ := IH sMid o hinO hfuelO hflO
      rw [hLo] at hpost
      set r' := fillCell rect shuffles fuel sMid o with hr'
      have hsMidVis : sMid.visited = s.visited := rfl
      have hs_sub_r' : s.visited ⊆ r'.visited := by
        intro x hx
        exact hpost.ins (Finset.mem_insert_of_mem hx)
      have hstv_sub_s : st.visited ⊆ s.visited := fun x hx =>
        hs.ins (Finset.mem_insert_of_mem hx)
      have hcoord_s : coord ∈ s.visited := hs.ins (Finset.mem_insert_self _ _)
      have hInv' : FoldInv rect (latticeCells rect coord) st r' coord := by
        obtain ⟨Δs, hts, hnds, hΔst, hiffs⟩ := hs.trace_spec
        obtain ⟨Δ2, ht2, hnd2, hΔ2m, hiff2⟩ := hpost.trace_spec
        have hΔ2notS : ∀ x ∈ Δ2, x ∉ s.visited := fun x hx => hΔ2m x hx
        have hΔsS : ∀ x ∈ Δs, x ∈ s.visited := fun x hx =>
          (hiffs x).mpr (Or.inr (List.mem_cons_of_mem _ hx))
        constructor
        · exact fun x hx => hs_sub_r' (hs.ins hx)
        · intro x hx
          rcases Finset.mem_union.mp (hpost.bound hx) with hx2 | hx2
          · exact hs.bound hx2
          · exact Finset.mem_union_right _ hx2
        · rw [hpost.ok_eq]
          exact hs.ok_eq
        · intro p
          rcases hpost.tiles_mono p with hp | hp
          · rw [hp]
            show (if p = mid_point coord o then Tile.floor else s.tiles p) =
                st.tiles p ∨
              (if p = mid_point coord o then Tile.floor else s.tiles p) =
                Tile.floor
            by_cases hpm : p = mid_point coord o
            · rw [if_pos hpm]
              exact Or.inr rfl
            · rw [if_neg hpm]
              exact hs.tiles_mono p
          · exact Or.inr hp
        · exact hpost.tiles_floor
        · refine ⟨Δs ++ o :: Δ2, ?_, ?_, ?_, ?_⟩
          · rw [ht2]
            show s.trace ++ (o :: Δ2) = _
            rw [hts]
            simp [List.append_assoc]
          · rw [List.nodup_cons]
            constructor
            · intro hc
              rcases List.mem_append.mp hc with hc | hc
              · exact (List.nodup_cons.mp hnds).1 hc
              · rcases List.mem_cons.mp hc with rfl | hc
                · exact ho hcoord_s
                · exact hΔ2notS coord hc hcoord_s
            · rw [List.nodup_append]
              refine ⟨(List.nodup_cons.mp hnds).2, hnd2, ?_⟩
              intro x hx hc
              have hxs : x ∈ s.visited := hΔsS x hx
              rcases List.mem_cons.mp hc with rfl | hc
              · exact ho hxs
              · exact hΔ2notS x hc hxs
          · intro x hx
            rcases List.mem_append.mp hx with hx | hx
            · exact hΔst x hx
            · rcases List.mem_cons.mp hx with rfl | hx
              · exact fun hc => ho (hstv_sub_s hc)
              · exact fun hc => hΔ2notS x hx (hstv_sub_s hc)
          · intro x
            rw [hiff2 x, hsMidVis, hiffs x]
            simp only [List.mem_cons, List.mem_append]
            tauto
        · intro p hp hp1 hp2 q hq
          by_cases hps : p ∈ s.visited
          · exact hs_sub_r' (hs.closure p hps hp1 hp2 q hq)
          · have hpo : p ∈ (o :: Δ2) := by
              rcases (hiff2 p).mp hp with hc | hc
              · exact absurd hc hps
              · exact hc
            rcases List.mem_cons.mp hpo with rfl | hpΔ
            · exact hnbrsO q hq
            · refine hpost.closure p hp (hΔ2notS p hpΔ) ?_ q hq
              intro hc
              subst hc
              exact (List.nodup_cons.mp hnd2).1 hpΔ
      obtain ⟨hfin, hmono2, hrest⟩ :=
        iho r' (fun x hx => hmem x (List.mem_cons_of_mem _ hx)) hInv'
      refine ⟨hfin, ?_, ?_⟩
      · exact fun x hx => hmono2 (hs_sub_r' hx)
      · intro x hx
        rcases List.mem_cons.mp hx with rfl | hx
        · exact hmono2 (hpost.ins (Finset.mem_insert_self _ _))
        · exact hrest x hx

/-- The state right after the entry of `fill(coord)` stamped the cell: tile
set to floor, cell marked visited, trace extended, shuffle counter bumped. -/
def rbStep (s : RBSt) (c : Pos) : RBSt :=
  { s with tiles := fun q => if q = c then Tile.floor else s.tiles q,
           visited := insert c s.visited,
           trace := s.trace ++ [c],
           ctr := s.ctr + 1 }

/-- Stamping the entry cell establishes the fold invariant. -/
theorem foldInv_rbStep {rect : Pos × Pos} {s : RBSt} {c : Pos}
    (hin : is_in_rect c rect = true)
    (hfl : ∀ p ∈ s.visited, s.tiles p = Tile.floor) :
    FoldInv rect (latticeCells rect c) s (rbStep s c) c := by
  constructor
  · intro x hx
    exact hx
  · intro x hx
    have hx' : x ∈ insert c s.visited := hx
    rcases Finset.mem_insert.mp hx' with rfl | hx2
    · exact Finset.mem_union_right _ (mem_lattice_self hin)
    · exact Finset.mem_union_left _ hx2
  · rfl
  · intro p
    show (if p = c then Tile.floor else s.tiles p) = s.tiles p ∨
      (if p = c then Tile.floor else s.tiles p) = Tile.floor
    by_cases hpc : p = c
    · rw [if_pos hpc]
      exact Or.inr rfl
    · rw [if_neg hpc]
      exact Or.inl rfl
  · intro p hp
    have hp' : p ∈ insert c s.visited := hp
    show (if p = c then Tile.floor else s.tiles p) = Tile.floor
    by_cases hpc : p = c
    · rw [if_pos hpc]
    · rw [if_neg hpc]
      rcases Finset.mem_insert.mp hp' with rfl | hx2
      · exact absurd rfl hpc
      · exact hfl p hx2
  · refine ⟨[], rfl, by simp, by simp, ?_⟩
    intro x
    show x ∈ insert c s.visited ↔ _
    simp only [Finset.mem_insert, List.mem_cons, List.not_mem_nil, or_false]
    tauto
  · intro p hp hp1 hp2
    have hp' : p ∈ insert c s.visited := hp
    rcases Finset.mem_insert.mp hp' with rfl | hx2
    · exact absurd rfl hp2
    · exact absurd hx2 hp1

/-- A `fill(coord)` call with enough fuel (one more than the number of
not-yet-visited lattice cells) terminates without tripping the fuel guard
and leaves every 2-step neighbor of `coord` visited, with the invariant. -/
theorem fillCell_spec (rect : Pos × Pos) (shuffles : Nat → List Pos → List Pos)
    (hshuf : ∀ (n : Nat) (l : List Pos) (x : Pos), x ∈ shuffles n l ↔ x ∈ l) :
    ∀ (fuel : Nat) (s : RBSt) (c : Pos), is_in_rect c rect = true →
      (latticeCells rect c \ insert c s.visited).card + 1 ≤ fuel →
      (∀ p ∈ s.visited, s.tiles p = Tile.floor) →
      FillPost rect (latticeCells rect c) s (fillCell rect shuffles fuel s c) c := by
  intro fuel
  induction fuel with
  | zero =>
    intro s c _ hf _
    exact absurd hf (by omega)
  | succ fuel ih =>
    intro s c hin hf hfl
    set opts : List Pos :=
      (shuffles s.ctr ((rbNeighbors rect c).filter
          fun x => decide (x ∉ insert c s.visited))).reverse with hopts
    have hunfold : fillCell rect shuffles (fuel + 1) s c =
        opts.foldl
          (fun t nxt => if nxt ∈ t.visited then t else
            fillCell rect shuffles fuel
              { t with tiles := fun q => if q = mid_point c nxt then Tile.floor
                                         else t.tiles q } nxt)
          (rbStep s c) := rfl
    have hmemopts : ∀ o ∈ opts, o ∈ rbNeighbors rect c := by
      intro o hoo
      rw [hopts] at hoo
      have h1 := List.mem_reverse.mp hoo
      have h2 := (hshuf _ _ o).mp h1
      exact (List.mem_filter.mp h2).1
    obtain ⟨hres, hmono, hopts_vis⟩ :=
      fillFold_spec rect shuffles fuel c s (by omega) ih opts (rbStep s c)
        hmemopts (foldInv_rbStep hin hfl)
    rw [hunfold]
    refine ⟨hres, ?_⟩
    intro q hq
    by_cases hqv : q ∈ insert c s.visited
    · exact hmono hqv
    · have hq' : q ∈ (rbNeighbors rect c).filter
          fun x => decide (x ∉ insert c s.visited) :=
        List.mem_filter.mpr ⟨hq, decide_eq_true hqv⟩
      refine hopts_vis q ?_
      rw [hopts]
      exact List.mem_reverse.mpr ((hshuf _ _ q).mpr hq')


/-- C7 (amended): when the starting cell is 2×2-aligned with the rectangle's
bottom-left corner, `RecursiveBacktracker.fill` — run from an all-rock map
with any membership-preserving shuffle oracle — terminates without exhausting
its fuel, runs its body exactly once per fillable cell (the trace has no
duplicates and covers exactly the aligned lattice), and carves every
fillable cell of the rectangle to floor. -/
theorem RecursiveBacktracker.fill_aligned_spec (rect : Pos × Pos)
    (shuffles : Nat → List Pos → List Pos)
    (hshuf : ∀ (n : Nat) (l : List Pos) (x : Pos), x ∈ shuffles n l ↔ x ∈ l)
    (start : Pos) (hin : is_in_rect start rect = true)
    (hx : (start.1 - rect.1.1) % 2 = 0) (hy : (start.2 - rect.1.2) % 2 = 0) :
    (RecursiveBacktracker.fill rect shuffles start rbInit).ok = true ∧
    (RecursiveBacktracker.fill rect shuffles start rbInit).trace.Nodup ∧
    (∀ c, c ∈ (RecursiveBacktracker.fill rect shuffles start rbInit).trace ↔
       c ∈ fillableCells rect) ∧
    ∀ c ∈ fillableCells rect,
      (RecursiveBacktracker.fill rect shuffles start rbInit).tiles c
        = Tile.floor := by
  have hst1 : RecursiveBacktracker.fill rect shuffles start rbInit =
      fillCell rect shuffles (fillFuel rect)
        { rbInit with
           tiles := fun q => if q = start then Tile.floor else rbInit.tiles q
           visited := insert start rbInit.visited } start := rfl
  set st1 : RBSt :=
    { rbInit with
       tiles := fun q => if q = start then Tile.floor else rbInit.tiles q
       visited := insert start rbInit.visited } with hst1def
  have hfuel : (latticeCells rect start \ insert start st1.visited).card + 1 ≤
      fillFuel rect := by
    have h1 : (latticeCells rect start \ insert start st1.visited).card ≤
        (latticeCells rect start).card :=
      Finset.card_le_card (Finset.sdiff_subset)
    have h2 := lattice_card_le rect start
    show _ + 1 ≤ (rect.2.1 + 1 - rect.1.1).toNat * (rect.2.2 + 1 - rect.1.2).toNat + 2
    omega
  have hfl : ∀ p ∈ st1.visited, st1.tiles p = Tile.floor := by
    intro p hp
    have hp' : p ∈ insert start (∅ : Finset Pos) := hp
    rcases Finset.mem_insert.mp hp' with rfl | hx2
    · show (if p = p then Tile.floor else rbInit.tiles p) = Tile.floor
      rw [if_pos rfl]
    · exact absurd hx2 (Finset.not_mem_empty p)
  obtain ⟨hinv, hnbrs⟩ :=
    fillCell_spec rect shuffles hshuf (fillFuel rect) st1 start hin hfuel hfl
  rw [hst1]
  set res := fillCell rect shuffles (fillFuel rect) st1 start with hres
  have hst1vis : st1.visited = insert start (∅ : Finset Pos) := rfl
  have hreach : ∀ p, LatReach rect start p → p ∈ res.visited := by
    intro p hp
    induction hp with
    | refl => exact hinv.ins (Finset.mem_insert_self _ _)
    | step hre hnb ihp =>
      rename_i a b
      by_cases hastart : a = start
      · subst hastart
        exact hnbrs b hnb
      · have ha1 : a ∉ st1.visited := by
          rw [hst1vis]
          intro hc
          rcases Finset.mem_insert.mp hc with rfl | hc2
          · exact hastart rfl
          · exact Finset.not_mem_empty a hc2
        exact hinv.closure a ihp ha1 hastart b hnb
  have hvis_lat : ∀ p, p ∈ res.visited ↔ p ∈ latticeCells rect start := by
    intro p
    constructor
    · intro hp
      rcases Finset.mem_union.mp (hinv.bound hp) with hp2 | hp2
      · rw [hst1vis] at hp2
        rcases Finset.mem_insert.mp hp2 with rfl | hc2
        · exact mem_lattice_self hin
        · exact absurd hc2 (Finset.not_mem_empty p)
      · exact hp2
    · intro hp
      exact hreach p (latReach_all hin p hp)
  have hfill_lat : fillableCells rect = latticeCells rect start := by
    simp only [fillableCells]
    exact latticeCells_congr (by omega) (by omega)
  obtain ⟨Δ, htr, hnd, hΔst, hiff⟩ := hinv.trace_spec
  have htr' : res.trace = start :: Δ := htr
  refine ⟨?_, ?_, ?_, ?_⟩
  · rw [hinv.ok_eq]
    rfl
  · rw [htr']
    exact hnd
  · intro c
    rw [htr', hfill_lat, ← hvis_lat c, hiff c, hst1vis]
    simp only [Finset.mem_insert, Finset.not_mem_empty, or_false,
      List.mem_cons]
    tauto
  · intro c hc
    rw [hfill_lat] at hc
    exact hinv.tiles_floor c ((hvis_lat c).mpr hc)

/-- Witness for C7 on the 3×3 rectangle with the identity shuffle and the
aligned start (0,0): the hypotheses hold and the filler carves the whole
lattice. -/
theorem RecursiveBacktracker.fill_aligned_spec_witness :
    (is_in_rect (0, 0) (((0, 0) : Pos), ((2, 2) : Pos)) = true ∧
     ((0 : Int) - 0) % 2 = 0) ∧
    ((RecursiveBacktracker.fill (((0, 0) : Pos), ((2, 2) : Pos))
        (fun _ l => l) (0, 0) rbInit).ok = true ∧
     (RecursiveBacktracker.fill (((0, 0) : Pos), ((2, 2) : Pos))
        (fun _ l => l) (0, 0) rbInit).trace.Nodup ∧
     (∀ c, c ∈ (RecursiveBacktracker.fill (((0, 0) : Pos), ((2, 2) : Pos))
        (fun _ l => l) (0, 0) rbInit).trace ↔
        c ∈ fillableCells (((0, 0) : Pos), ((2, 2) : Pos))) ∧
     ∀ c ∈ fillableCells (((0, 0) : Pos), ((2, 2) : Pos)),
       (RecursiveBacktracker.fill (((0, 0) : Pos), ((2, 2) : Pos))
          (fun _ l => l) (0, 0) rbInit).tiles c = Tile.floor) :=
  ⟨⟨by decide, by decide⟩,
   RecursiveBacktracker.fill_aligned_spec (((0, 0) : Pos), ((2, 2) : Pos))
     (fun _ l => l) (fun _ _ _ => Iff.rfl) (0, 0) (by decide) (by decide)
     (by decide)⟩


/-! C1 / C8 — `Map.path` (A*) and `Map.dist_metrics` (Dijkstra). -/

/-- The total order `heapq` uses on the pushed `(score, (x, y))` tuples:
compare the integer keys first, then the positions lexicographically. -/
def entryLe (a b : Nat × Pos) : Bool :=
  decide (a.1 < b.1) ||
    (decide (a.1 = b.1) &&
      (decide (a.2.1 < b.2.1) ||
        (decide (a.2.1 = b.2.1) && decide (a.2.2 ≤ b.2.2))))

/-- `Queue.push` (`heapq.heappush`): the heap is modelled as a list kept
sorted by `entryLe`, so that the head is always the element `heappop`
returns. -/
def qpush : List (Nat × Pos) → (Nat × Pos) → List (Nat × Pos)
  | [], e => [e]
  | x :: xs, e => if entryLe e x then e :: x :: xs else x :: qpush xs e

/-- `Map.is_in_map` as a finite set: all grid positions. -/
def inMapCells (m : Map) : Finset Pos :=
  (Finset.Icc (0 : Int) ((m.width : Int) - 1)) ×ˢ
    (Finset.Icc (0 : Int) ((m.height : Int) - 1))

/-- The guard of the A* relaxation: `not self.is_free(pos) and pos != goal`
skips `pos`, so a position takes part exactly when it is free or the goal. -/
def allowedA (m : Map) (goal : Pos) (p : Pos) : Bool :=
  m.is_free p || decide (p = goal)

/-- Walks of the search graph: steps between Chebyshev-adjacent in-map
positions whose target satisfies `allowed` (the origin `start` itself is not
checked, as in the code). `Walk m allowed start p n` means a walk of `n`
steps from `start` to `p`. -/
inductive Walk (m : Map) (allowed : Pos → Bool) (start : Pos) : Pos → Nat → Prop where
  | nil : Walk m allowed start start 0
  | cons {u v : Pos} {n : Nat} : Walk m allowed start u n → distance u v = 1 →
      m.is_in_map v = true → allowed v = true → Walk m allowed start v (n + 1)

/-- The mutable state of `Map.path`'s A* loop.  `closed` is a ghost field
used only by the verification: it records the positions whose expansion ran
(the code keeps no closed set and relies on `open_set` for lazy deletion). -/
structure ASt where
  came_from : Pos → Option Pos
  open_q : List (Nat × Pos)
  open_set : Finset Pos
  g_scores : Pos → Option Nat
  f_scores : Pos → Option Nat
  closed : Finset Pos

/-- The two `open_q.pop()` lines of `Map.path`: pop until the element is in
`open_set`, raising `IndexError` (from `heappop` on an empty heap) if the
queue runs dry. -/
def popOpen (os : Finset Pos) : List (Nat × Pos) →
    Except PyErr ((Nat × Pos) × List (Nat × Pos))
  | [] => .error .indexError
  | e :: rest => if e.2 ∈ os then .ok (e, rest) else popOpen os rest

/-- `Map._rebuild_path(start, stop, seen_map)`: follow `seen_map` links from
`stop` back to `start`, then reverse.  A missing link raises `KeyError`; the
explicit fuel (a model artifact, `none` when exhausted) bounds the Python
`while`, which would not terminate on a cyclic `seen_map`. -/
def rebuildGo (start : Pos) (came_from : Pos → Option Pos) :
    Nat → Pos → List Pos → Option (Except PyErr (List Pos))
  | 0, _, _ => none
  | fuel + 1, current, acc =>
    if current = start then some (.ok acc.reverse)
    else
      match came_from current with
      | none => some (.error .keyError)
      | some prev => rebuildGo start came_from fuel prev (acc ++ [prev])

/-- One iteration of the `for pos in self.adjacents(current)` loop of
`Map.path`: skip positions that are neither free nor the goal, compute the
tentative `g_score` (raising `KeyError` if `current` has no score), and on
strict improvement record the back link and scores, push `(f, pos)` and add
`pos` to `open_set`. -/
def astarRelax (m : Map) (goal current : Pos) (s : ASt) (pos : Pos) :
    Except PyErr ASt :=
  if allowedA m goal pos = false then .ok s
  else
    match s.g_scores current with
    | none => .error .keyError
    | some gc =>
      let g := gc + distance current pos
      let improve : Bool := match s.g_scores pos with
        | none => true
        | some gp => decide (g < gp)
      if improve then
        .ok { s with
          came_from := fun q => if q = pos then some current else s.came_from q,
          g_scores := fun q => if q = pos then some g else s.g_scores q,
          f_scores := fun q => if q = pos then some (g + distance pos goal)
                               else s.f_scores q,
          open_q := qpush s.open_q (g + distance pos goal, pos),
          open_set := insert pos s.open_set }
      else .ok s

/-- The neighbor loop of `Map.path`, folded over the adjacency list. -/
def astarFold (m : Map) (goal current : Pos) : ASt → List Pos →
    Except PyErr ASt
  | s, [] => .ok s
  | s, pos :: rest =>
    match astarRelax m goal current s pos with
    | .error e => .error e
    | .ok s' => astarFold m goal current s' rest

/-- The `while open_set:` loop of `Map.path`, with explicit fuel (a model
artifact: `none` marks exhaustion and is proved unreachable for the fuel
`Map.path` supplies).  `some (.error e)` is a raised Python exception,
`some (.ok r)` a normal return. -/
def astarLoop (m : Map) (start goal : Pos) :
    Nat → ASt → Option (Except PyErr (Option (List Pos)))
  | 0, _ => none
  | fuel + 1, s =>
    if s.open_set = ∅ then some (.ok none)
    else
      match popOpen s.open_set s.open_q with
      | .error e => some (.error e)
      | .ok (e, rest) =>
        let s1 : ASt := { s with open_q := rest,
                                 open_set := s.open_set.erase e.2,
                                 closed := insert e.2 s.closed }
        if e.2 = goal then
          match rebuildGo start s1.came_from (m.width * m.height + 2) goal
              [goal] with
          | none => none
          | some (.error er) => some (.error er)
          | some (.ok pathL) => some (.ok (some pathL))
        else
          match astarFold m goal e.2 s1 (m.adjacents e.2 false none none true) with
          | .error er => some (.error er)
          | .ok s2 => astarLoop m start goal fuel s2

/-- `Map.path(start, goal)`: A* from the initial state.  The fuel is large
enough for any run (proved below via a potential argument). -/
def Map.path (m : Map) (start goal : Pos) :
    Option (Except PyErr (Option (List Pos))) :=
  astarLoop m start goal (9 * (m.width * m.height + 1) + 3)
    { came_from := fun _ => none,
      open_q := [(distance start goal, start)],
      open_set := {start},
      g_scores := fun p => if p = start then some 0 else none,
      f_scores := fun p => if p = start then some (distance start goal) else none,
      closed := ∅ }

/-- The state of `Map.dist_metrics`'s Dijkstra loop: the `MapMetrics` fields
that the algorithm reads and writes (`dists` and `prevs`; the derived
`furthest_pos`/`furthest_dist` bookkeeping is not read by any verified
claim), the priority queue and the `done` set.  `prevs` maps a position to
`none` when absent from the dict and to `some l` when present with value
`l` (`start` is present with value `None`). -/
structure DijkSt where
  dists : Pos → Option Nat
  prevs : Pos → Option (Option Pos)
  q : List (Nat × Pos)
  done : Finset Pos

/-- The body of the `for pos in self.adjacents(...)` loop of
`Map.dist_metrics`: improve `metrics[pos]` (and record the edge) when absent
or larger than `dist+1`, then always push `(dist+1, pos)`. -/
def dijkRelax (dist : Nat) (current : Pos) (s : DijkSt) (pos : Pos) : DijkSt :=
  let improve : Bool := match s.dists pos with
    | none => true
    | some d => decide (dist + 1 < d)
  { s with
    dists := if improve then fun q => if q = pos then some (dist + 1) else s.dists q
             else s.dists,
    prevs := if improve then fun q => if q = pos then some (some current) else s.prevs q
             else s.prevs,
    q := qpush s.q (dist + 1, pos) }

/-- The `while open_q:` loop of `Map.dist_metrics` with `dest=None` and
`max_dist=None` (both comparisons against `None` are always false), with
explicit fuel (`none` marks exhaustion, proved unreachable for the fuel
`Map.dist_metrics` supplies). -/
def dijkLoop (m : Map) : Nat → DijkSt → Option DijkSt
  | 0, _ => none
  | fuel + 1, s =>
    match s.q with
    | [] => some s
    | (dist, current) :: rest =>
      if current ∈ s.done then dijkLoop m fuel { s with q := rest }
      else
        let adj := m.adjacents current true none
          (some fun p => decide (p ∉ s.done)) true
        let s' := adj.foldl (fun t pos => dijkRelax dist current t pos)
          { s with q := rest }
        dijkLoop m fuel { s' with done := insert current s'.done }

/-- `Map.dist_metrics(start)` (no `dest`, no `max_dist`): Dijkstra from the
initial `MapMetrics(self, start)` state. -/
def Map.dist_metrics (m : Map) (start : Pos) : Option DijkSt :=
  dijkLoop m (9 * (m.width * m.height + 1) + 3)
    { dists := fun p => if p = start then some 0 else none,
      prevs := fun p => if p = start then some none else none,
      q := [(0, start)],
      done := ∅ }


/-- `entryLe` is total. -/
theorem entryLe_total (a b : Nat × Pos) :
    entryLe a b = true ∨ entryLe b a = true := by
  simp only [entryLe, Bool.or_eq_true, Bool.and_eq_true, decide_eq_true_eq]
  omega

/-- `entryLe` is transitive. -/
theorem entryLe_trans {a b c : Nat × Pos} (h1 : entryLe a b = true)
    (h2 : entryLe b c = true) : entryLe a c = true := by
  simp only [entryLe, Bool.or_eq_true, Bool.and_eq_true, decide_eq_true_eq] at *
  omega

/-- `entryLe` compares the keys. -/
theorem entryLe_key {a b : Nat × Pos} (h : entryLe a b = true) : a.1 ≤ b.1 := by
  simp only [entryLe, Bool.or_eq_true, Bool.and_eq_true, decide_eq_true_eq] at h
  omega

/-- Membership after a push. -/
theorem mem_qpush {l : List (Nat × Pos)} {e e' : Nat × Pos} :
    e' ∈ qpush l e ↔ e' ∈ l ∨ e' = e := by
  induction l with
  | nil => simp [qpush]
  | cons x xs ih =>
    simp only [qpush]
    by_cases hle : entryLe e x
    · rw [if_pos hle]
      simp only [List.mem_cons]
      tauto
    · rw [if_neg hle]
      simp only [List.mem_cons, ih]
      tauto

/-- A push adds one element. -/
theorem length_qpush (l : List (Nat × Pos)) (e : Nat × Pos) :
    (qpush l e).length = l.length + 1 := by
  induction l with
  | nil => rfl
  | cons x xs ih =>
    simp only [qpush]
    by_cases hle : entryLe e x
    · rw [if_pos hle]
      rfl
    · rw [if_neg hle]
      simp [ih]

/-- A push keeps the queue sorted. -/
theorem pairwise_qpush {l : List (Nat × Pos)} {e : Nat × Pos}
    (h : l.Pairwise fun a b => entryLe a b = true) :
    (qpush l e).Pairwise fun a b => entryLe a b = true := by
  induction l with
  | nil => simp [qpush]
  | cons x xs ih =>
    rw [List.pairwise_cons] at h
    obtain ⟨hx, hxs⟩ := h
    simp only [qpush]
    by_cases hle : entryLe e x
    · rw [if_pos hle]
      rw [List.pairwise_cons]
      refine ⟨?_, List.pairwise_cons.mpr ⟨hx, hxs⟩⟩
      intro y hy
      rcases List.mem_cons.mp hy with rfl | hy
      · exact hle
      · exact entryLe_trans hle (hx y hy)
    · rw [if_neg hle]
      rw [List.pairwise_cons]
      refine ⟨?_, ih hxs⟩
      intro y hy
      rcases mem_qpush.mp hy with hy | rfl
      · exact hx y hy
      · rcases entryLe_total y x with h | h
        · exact absurd h hle
        · exact h

/-- Success and anatomy of `popOpen`: the result is the first queue entry in
`open_set`; everything skipped before it is outside `open_set`. -/
theorem popOpen_spec {os : Finset Pos} {l : List (Nat × Pos)}
    {e : Nat × Pos} {rest : List (Nat × Pos)}
    (h : popOpen os l = .ok (e, rest)) :
    e.2 ∈ os ∧ ∃ pre, l = pre ++ e :: rest ∧ ∀ e' ∈ pre, e'.2 ∉ os := by
  induction l generalizing e rest with
  | nil => exact absurd h (by simp [popOpen])
  | cons x xs ih =>
    simp only [popOpen] at h
    by_cases hx : x.2 ∈ os
    · rw [if_pos hx] at h
      injection h with h
      injection h with h1 h2
      subst h1
      subst h2
      exact ⟨hx, [], rfl, by simp⟩
    · rw [if_neg hx] at h
      obtain ⟨he, pre, hpre, hnot⟩ := ih h
      refine ⟨he, x :: pre, by simp [hpre], ?_⟩
      intro e' he'
      rcases List.mem_cons.mp he' with rfl | he'
      · exact hx
      · exact hnot e' he'

/-- `popOpen` succeeds when some queue entry is in `open_set`. -/
theorem popOpen_ok {os : Finset Pos} {l : List (Nat × Pos)}
    (h : ∃ e ∈ l, e.2 ∈ os) :
    ∃ e rest, popOpen os l = .ok (e, rest) := by
  induction l with
  | nil => simp at h
  | cons x xs ih =>
    simp only [popOpen]
    by_cases hx : x.2 ∈ os
    · rw [if_pos hx]
      exact ⟨x, xs, rfl⟩
    · rw [if_neg hx]
      obtain ⟨e, he, heos⟩ := h
      rcases List.mem_cons.mp he with rfl | he
      · exact absurd heos hx
      · exact ih ⟨e, he, heos⟩

/-- On a sorted queue, the popped entry's key is minimal among entries whose
position is in `open_set`. -/
theorem popOpen_min {os : Finset Pos} {l : List (Nat × Pos)}
    {e : Nat × Pos} {rest : List (Nat × Pos)}
    (hs : l.Pairwise fun a b => entryLe a b = true)
    (h : popOpen os l = .ok (e, rest)) :
    ∀ e' ∈ l, e'.2 ∈ os → e.1 ≤ e'.1 := by
  obtain ⟨heos, pre, hpre, hnot⟩ := popOpen_spec h
  subst hpre
  intro e' he' he'os
  rcases List.mem_append.mp he' with he' | he'
  · exact absurd he'os (hnot e' he')
  · rcases List.mem_cons.mp he' with rfl | he'
    · exact le_refl _
    · rw [List.pairwise_append] at hs
      exact entryLe_key ((List.pairwise_cons.mp hs.2.1).1 e' he')

/-- The tail returned by `popOpen` is still sorted, and its entries all come
from the original queue. -/
theorem popOpen_rest {os : Finset Pos} {l : List (Nat × Pos)}
    {e : Nat × Pos} {rest : List (Nat × Pos)}
    (hs : l.Pairwise fun a b => entryLe a b = true)
    (h : popOpen os l = .ok (e, rest)) :
    (rest.Pairwise fun a b => entryLe a b = true) ∧
    (∀ e' ∈ rest, e' ∈ l) ∧ e ∈ l ∧
    rest.length + 1 ≤ l.length := by
  obtain ⟨heos, pre, hpre, hnot⟩ := popOpen_spec h
  subst hpre
  rw [List.pairwise_append] at hs
  refine ⟨(List.pairwise_cons.mp hs.2.1).2, ?_, ?_, ?_⟩
  · intro e' he'
    exact List.mem_append.mpr (Or.inr (List.mem_cons_of_mem _ he'))
  · exact List.mem_append.mpr (Or.inr (List.mem_cons_self _ _))
  · simp only [List.length_append, List.length_cons]
    omega

/-- Entries surviving a pop: any entry of the original queue whose position
is in `open_set` and which is not the popped entry itself is in the tail. -/
theorem popOpen_keep {os : Finset Pos} {l : List (Nat × Pos)}
    {e : Nat × Pos} {rest : List (Nat × Pos)}
    (h : popOpen os l = .ok (e, rest)) :
    ∀ e' ∈ l, e'.2 ∈ os → e'.2 ≠ e.2 → e' ∈ rest := by
  obtain ⟨heos, pre, hpre, hnot⟩ := popOpen_spec h
  subst hpre
  intro e' he' he'os hne
  rcases List.mem_append.mp he' with he' | he'
  · exact absurd he'os (hnot e' he')
  · rcases List.mem_cons.mp he' with rfl | he'
    · exact absurd rfl hne
    · exact he'


/-- Membership in the raw radius-1 ring is exactly Chebyshev distance 1. -/
theorem mem_ringRaw1 {u v : Pos} : v ∈ ringRaw u 1 ↔ distance u v = 1 := by
  obtain ⟨ux, uy⟩ := u
  obtain ⟨vx, vy⟩ := v
  simp only [ringRaw, distance, List.mem_append, List.mem_map, List.mem_range,
    Prod.mk.injEq]
  constructor
  · rintro (((⟨k, hk, h1, h2⟩ | ⟨k, hk, h1, h2⟩) | ⟨k, hk, h1, h2⟩) | ⟨k, hk, h1, h2⟩) <;>
      omega
  · intro h
    by_cases hvy : vy = uy - 1
    · refine Or.inl (Or.inl (Or.inl ⟨(vx - ux + 1).toNat, by omega, by omega, by omega⟩))
    · by_cases hvx : vx = ux + 1
      · refine Or.inl (Or.inl (Or.inr ⟨(vy - uy).toNat, by omega, by omega, by omega⟩))
      · by_cases hvy' : vy = uy + 1
        · refine Or.inl (Or.inr ⟨(ux - vx).toNat, by omega, by omega, by omega⟩)
        · refine Or.inr ⟨(uy - vy).toNat, by omega, by omega, by omega⟩

/-- The raw radius-1 ring has 8 coordinates. -/
theorem length_ringRaw1 (u : Pos) : (ringRaw u 1).length = 8 := by
  simp [ringRaw]

/-- Membership in `Map.adjacents(pos)` with no options: Chebyshev distance 1
and inside the map. -/
theorem mem_adjacents_plain {m : Map} {u v : Pos} :
    v ∈ m.adjacents u false none none true ↔
      distance u v = 1 ∧ m.is_in_map v = true := by
  simp [Map.adjacents, Map.ring, sift, List.mem_filter, mem_ringRaw1]

/-- Membership in `Map.adjacents(pos, free=True, filter_pred=pred)`. -/
theorem mem_adjacents_free {m : Map} {u v : Pos} {pred : Pos → Bool} :
    v ∈ m.adjacents u true none (some pred) true ↔
      distance u v = 1 ∧ m.is_in_map v = true ∧ pred v = true ∧
        m.is_free v = true := by
  simp [Map.adjacents, Map.ring, sift, List.mem_filter, mem_ringRaw1]
  intro _
  tauto

/-- Adjacency lists built from the radius-1 ring have at most 8 entries. -/
theorem length_adjacents_le (m : Map) (u : Pos) (free : Bool)
    (filterPred : Option (Pos → Bool)) :
    (m.adjacents u free none filterPred true).length ≤ 8 := by
  simp only [Map.adjacents, Map.ring, sift]
  have h1 := List.length_filter_le m.is_in_map (ringRaw u 1)
  rw [length_ringRaw1] at h1
  cases filterPred with
  | none =>
    cases free with
    | false => exact h1
    | true => exact le_trans (List.length_filter_le _ _) h1
  | some pred =>
    cases free with
    | false => exact le_trans (List.length_filter_le _ _) h1
    | true =>
      exact le_trans (List.length_filter_le _ _)
        (le_trans (List.length_filter_le _ _) h1)

/-- `inMapCells` matches `Map.is_in_map`. -/
theorem mem_inMapCells {m : Map} {p : Pos} :
    p ∈ inMapCells m ↔ m.is_in_map p = true := by
  simp only [inMapCells, Finset.mem_product, Finset.mem_Icc, Map.is_in_map,
    decide_eq_true_eq]
  omega

/-- The grid has `width * height` cells. -/
theorem inMapCells_card (m : Map) :
    (inMapCells m).card = m.width * m.height := by
  simp only [inMapCells, Finset.card_product, Int.card_Icc]
  have h1 : ((m.width : Int) - 1 + 1 - 0).toNat = m.width := by omega
  have h2 : ((m.height : Int) - 1 + 1 - 0).toNat = m.height := by omega
  rw [h1, h2]

/-- Chebyshev distance satisfies the triangle inequality. -/
theorem distance_triangle (a b c : Pos) :
    distance a c ≤ distance a b + distance b c := by
  simp only [distance]
  omega

/-- Chebyshev distance is symmetric. -/
theorem distance_comm (a b : Pos) : distance a b = distance b a := by
  simp only [distance]
  omega

/-- Zero distance only to itself. -/
theorem distance_eq_zero {a b : Pos} (h : distance a b = 1) : a ≠ b := by
  intro hc
  subst hc
  simp only [distance] at h
  omega

/-- A walk ends at its start or inside the map. -/
theorem walk_endpoint {m : Map} {allowed : Pos → Bool} {start p : Pos} {n : Nat}
    (h : Walk m allowed start p n) : p = start ∨ m.is_in_map p = true := by
  cases h with
  | nil => exact Or.inl rfl
  | cons hw hd hin hal => exact Or.inr hin

/-- When the goal is free, walks through free-or-goal positions are exactly
walks through free positions. -/
theorem walk_allowedA_iff_free {m : Map} {start goal p : Pos} {n : Nat}
    (hfree : m.is_free goal = true) :
    Walk m (allowedA m goal) start p n ↔ Walk m m.is_free start p n := by
  constructor
  · intro h
    induction h with
    | nil => exact Walk.nil
    | cons hw hd hin hal ih =>
      refine Walk.cons ih hd hin ?_
      simp only [allowedA, Bool.or_eq_true, decide_eq_true_eq] at hal
      rcases hal with hal | rfl
      · exact hal
      · exact hfree
  · intro h
    induction h with
    | nil => exact Walk.nil
    | cons hw hd hin hal ih =>
      refine Walk.cons ih hd hin ?_
      simp only [allowedA, Bool.or_eq_true]
      exact Or.inl hal


/-- Invariant of the Dijkstra loop of `Map.dist_metrics`.  `exc` is `none`
between iterations; during an iteration that processes `current` it is
`some current`, licensing `done`-neighborhood witnesses that point at the
entry just popped. -/
structure DInv (m : Map) (start : Pos) (exc : Option Pos) (s : DijkSt) : Prop where
  sorted : s.q.Pairwise fun a b => entryLe a b = true
  entry_sound : ∀ e ∈ s.q, Walk m m.is_free start e.2 e.1
  entry_pos : ∀ e ∈ s.q, e.2 = start ∨ m.is_in_map e.2 = true
  dists_walk : ∀ p k, s.dists p = some k → Walk m m.is_free start p k
  dists_le_entry : ∀ e ∈ s.q, ∃ k, s.dists e.2 = some k ∧ k ≤ e.1
  done_settled : ∀ p ∈ s.done, ∃ k, s.dists p = some k ∧
      ∀ n, Walk m m.is_free start p n → k ≤ n
  done_expanded : ∀ p ∈ s.done, ∀ k, s.dists p = some k →
      ∀ v, distance p v = 1 → m.is_in_map v = true → m.is_free v = true →
      v ∈ s.done ∨ some v = exc ∨ ∃ kv, (kv, v) ∈ s.q ∧ kv ≤ k + 1
  start_state : start ∈ s.done ∨ (0, start) ∈ s.q ∨ exc = some start
  done_pos : ∀ p ∈ s.done, p = start ∨ m.is_in_map p = true

/-- The strong invariant weakens to any exception position. -/
theorem dinv_weaken {m : Map} {start : Pos} {s : DijkSt} (exc : Option Pos)
    (h : DInv m start none s) : DInv m start exc s := by
  refine ⟨h.sorted, h.entry_sound, h.entry_pos, h.dists_walk, h.dists_le_entry,
    h.done_settled, ?_, ?_, h.done_pos⟩
  · intro p hp k hk v hd hin hfr
    rcases h.done_expanded p hp k hk v hd hin hfr with hc | hc | hc
    · exact Or.inl hc
    · exact absurd hc (by simp)
    · exact Or.inr (Or.inr hc)
  · rcases h.start_state with hc | hc | hc
    · exact Or.inl hc
    · exact Or.inr (Or.inl hc)
    · exact absurd hc (by simp)

/-- Invariant preservation when `dijkRelax` writes an improved distance. -/
theorem dinv_relax_improved {m : Map} {start : Pos} {exc : Option Pos}
    {s : DijkSt} {dist : Nat} {current pos : Pos}
    (hInv : DInv m start exc s)
    (hwpos : Walk m m.is_free start pos (dist + 1))
    (hin : m.is_in_map pos = true)
    (hnd : pos ∉ s.done)
    (himp : ∀ e ∈ s.q, e.2 = pos → dist + 1 ≤ e.1) :
    DInv m start exc
      { dists := fun q => if q = pos then some (dist + 1) else s.dists q,
        prevs := fun q => if q = pos then some (some current) else s.prevs q,
        q := qpush s.q (dist + 1, pos),
        done := s.done } := by
  refine ⟨pairwise_qpush hInv.sorted, ?_, ?_, ?_, ?_, ?_, ?_, ?_, hInv.done_pos⟩
  · intro e he
    rcases mem_qpush.mp he with he | rfl
    · exact hInv.entry_sound e he
    · exact hwpos
  · intro e he
    rcases mem_qpush.mp he with he | rfl
    · exact hInv.entry_pos e he
    · exact Or.inr hin
  · intro p k hk
    have hk2 : (if p = pos then some (dist + 1) else s.dists p) = some k := hk
    by_cases hp : p = pos
    · subst hp
      rw [if_pos rfl] at hk2
      injection hk2 with hk2
      subst hk2
      exact hwpos
    · rw [if_neg hp] at hk2
      exact hInv.dists_walk p k hk2
  · intro e he
    rcases mem_qpush.mp he with he | rfl
    · obtain ⟨k, hk, hkle⟩ := hInv.dists_le_entry e he
      by_cases hp : e.2 = pos
      · refine ⟨dist + 1, ?_, ?_⟩
        · show (if e.2 = pos then some (dist + 1) else s.dists e.2) = some (dist + 1)
          rw [if_pos hp]
        · exact himp e he hp
      · refine ⟨k, ?_, hkle⟩
        show (if e.2 = pos then some (dist + 1) else s.dists e.2) = some k
        rw [if_neg hp]
        exact hk
    · refine ⟨dist + 1, ?_, le_refl _⟩
      show (if pos = pos then some (dist + 1) else s.dists pos) = some (dist + 1)
      rw [if_pos rfl]
  · intro p hp
    obtain ⟨k, hk, hopt⟩ := hInv.done_settled p hp
    have hppos : p ≠ pos := fun hc => hnd (hc ▸ hp)
    refine ⟨k, ?_, hopt⟩
    show (if p = pos then some (dist + 1) else s.dists p) = some k
    rw [if_neg hppos]
    exact hk
  · intro p hp k hk v hdv hinv2 hfrv
    have hppos : p ≠ pos := fun hc => hnd (hc ▸ hp)
    have hk2 : (if p = pos then some (dist + 1) else s.dists p) = some k := hk
    rw [if_neg hppos] at hk2
    rcases hInv.done_expanded p hp k hk2 v hdv hinv2 hfrv with hc | hc | ⟨kv, hkv, hkvle⟩
    · exact Or.inl hc
    · exact Or.inr (Or.inl hc)
    · exact Or.inr (Or.inr ⟨kv, mem_qpush.mpr (Or.inl hkv), hkvle⟩)
  · rcases hInv.start_state with hc | hc | hc
    · exact Or.inl hc
    · exact Or.inr (Or.inl (mem_qpush.mpr (Or.inl hc)))
    · exact Or.inr (Or.inr hc)

/-- One relaxation step of `Map.dist_metrics` preserves the invariant, keeps
`done`, keeps all queue entries, pushes `(dist+1, pos)` and leaves every
other position's distance alone. -/
theorem dijkRelax_spec {m : Map} {start : Pos} {exc : Option Pos} {s : DijkSt}
    {dist : Nat} {current pos : Pos}
    (hInv : DInv m start exc s)
    (hwcur : Walk m m.is_free start current dist)
    (hd : distance current pos = 1) (hin : m.is_in_map pos = true)
    (hfree : m.is_free pos = true) (hnd : pos ∉ s.done) :
    DInv m start exc (dijkRelax dist current s pos) ∧
    (dijkRelax dist current s pos).done = s.done ∧
    (∀ e ∈ s.q, e ∈ (dijkRelax dist current s pos).q) ∧
    (dist + 1, pos) ∈ (dijkRelax dist current s pos).q ∧
    (dijkRelax dist current s pos).q.length = s.q.length + 1 ∧
    (∀ p, p ≠ pos → (dijkRelax dist current s pos).dists p = s.dists p) := by
  have hwpos : Walk m m.is_free start pos (dist + 1) :=
    Walk.cons hwcur hd hin hfree
  rcases hD : s.dists pos with _ | d
  · have hstep : dijkRelax dist current s pos =
        { dists := fun q => if q = pos then some (dist + 1) else s.dists q,
          prevs := fun q => if q = pos then some (some current) else s.prevs q,
          q := qpush s.q (dist + 1, pos),
          done := s.done } := by
      simp [dijkRelax, hD]
    rw [hstep]
    refine ⟨?_, rfl, ?_, ?_, ?_, ?_⟩
    · refine dinv_relax_improved hInv hwpos hin hnd ?_
      intro e he hp
      obtain ⟨k, hk, hkle⟩ := hInv.dists_le_entry e he
      rw [hp, hD] at hk
      exact absurd hk (by simp)
    · intro e he
      exact mem_qpush.mpr (Or.inl he)
    · exact mem_qpush.mpr (Or.inr rfl)
    · exact length_qpush _ _
    · intro p hp
      show (if p = pos then some (dist + 1) else s.dists p) = s.dists p
      rw [if_neg hp]
  · by_cases hlt : dist + 1 < d
    · have hstep : dijkRelax dist current s pos =
          { dists := fun q => if q = pos then some (dist + 1) else s.dists q,
            prevs := fun q => if q = pos then some (some current) else s.prevs q,
            q := qpush s.q (dist + 1, pos),
            done := s.done } := by
        simp [dijkRelax, hD, hlt]
      rw [hstep]
      refine ⟨?_, rfl, ?_, ?_, ?_, ?_⟩
      · refine dinv_relax_improved hInv hwpos hin hnd ?_
        intro e he hp
        obtain ⟨k, hk, hkle⟩ := hInv.dists_le_entry e he
        rw [hp, hD] at hk
        injection hk with hk
        omega
      · intro e he
        exact mem_qpush.mpr (Or.inl he)
      · exact mem_qpush.mpr (Or.inr rfl)
      · exact length_qpush _ _
      · intro p hp
        show (if p = pos then some (dist + 1) else s.dists p) = s.dists p
        rw [if_neg hp]
    · have hstep : dijkRelax dist current s pos =
          { dists := s.dists, prevs := s.prevs,
            q := qpush s.q (dist + 1, pos), done := s.done } := by
        simp [dijkRelax, hD, hlt]
      rw [hstep]
      refine ⟨⟨pairwise_qpush hInv.sorted, ?_, ?_, hInv.dists_walk, ?_,
        hInv.done_settled, ?_, ?_, hInv.done_pos⟩, rfl, ?_, ?_, ?_, ?_⟩
      · intro e he
        rcases mem_qpush.mp he with he | rfl
        · exact hInv.entry_sound e he
        · exact hwpos
      · intro e he
        rcases mem_qpush.mp he with he | rfl
        · exact hInv.entry_pos e he
        · exact Or.inr hin
      · intro e he
        rcases mem_qpush.mp he with he | rfl
        · exact hInv.dists_le_entry e he
        · exact ⟨d, hD, by omega⟩
      · intro p hp k hk v hdv hinv2 hfrv
        rcases hInv.done_expanded p hp k hk v hdv hinv2 hfrv with hc | hc | ⟨kv, hkv, hkvle⟩
        · exact Or.inl hc
        · exact Or.inr (Or.inl hc)
        · exact Or.inr (Or.inr ⟨kv, mem_qpush.mpr (Or.inl hkv), hkvle⟩)
      · rcases hInv.start_state with hc | hc | hc
        · exact Or.inl hc
        · exact Or.inr (Or.inl (mem_qpush.mpr (Or.inl hc)))
        · exact Or.inr (Or.inr hc)
      · intro e he
        exact mem_qpush.mpr (Or.inl he)
      · exact mem_qpush.mpr (Or.inr rfl)
      · exact length_qpush _ _
      · intro p _
        rfl


/-- The whole relaxation loop of one Dijkstra iteration: fold
`dijkRelax` over the adjacency list. -/
theorem dijkFold_spec {m : Map} {start current : Pos} {dist : Nat}
    {exc : Option Pos}
    (hwcur : Walk m m.is_free start current dist) :
    ∀ (l : List Pos) (s : DijkSt),
      (∀ v ∈ l, distance current v = 1 ∧ m.is_in_map v = true ∧
        m.is_free v = true ∧ v ∉ s.done) →
      DInv m start exc s →
      DInv m start exc (l.foldl (fun t pos => dijkRelax dist current t pos) s) ∧
      (l.foldl (fun t pos => dijkRelax dist current t pos) s).done = s.done ∧
      (∀ e ∈ s.q, e ∈ (l.foldl (fun t pos => dijkRelax dist current t pos) s).q) ∧
      (∀ v ∈ l, (dist + 1, v) ∈
        (l.foldl (fun t pos => dijkRelax dist current t pos) s).q) ∧
      (l.foldl (fun t pos => dijkRelax dist current t pos) s).q.length =
        s.q.length + l.length ∧
      (∀ p, p ∉ l →
        (l.foldl (fun t pos => dijkRelax dist current t pos) s).dists p =
          s.dists p) := by
  intro l
  induction l with
  | nil =>
    intro s _ hInv
    exact ⟨hInv, rfl, fun e he => he, by simp, by simp, fun p _ => rfl⟩
  | cons v rest ih =>
    intro s hl hInv
    obtain ⟨hd, hin, hfr, hnd⟩ := hl v (List.mem_cons_self _ _)
    obtain ⟨hInv1, hdone1, hkeep1, hpush1, hlen1, hsame1⟩ :=
      dijkRelax_spec hInv hwcur hd hin hfr hnd
    simp only [List.foldl_cons]
    obtain ⟨hInv2, hdone2, hkeep2, hpush2, hlen2, hsame2⟩ :=
      ih (dijkRelax dist current s v) (by
        intro w hw
        obtain ⟨h1, h2, h3, h4⟩ := hl w (List.mem_cons_of_mem _ hw)
        rw [hdone1]
        exact ⟨h1, h2, h3, h4⟩) hInv1
    refine ⟨hInv2, by rw [hdone2, hdone1], ?_, ?_, ?_, ?_⟩
    · intro e he
      exact hkeep2 e (hkeep1 e he)
    · intro w hw
      rcases List.mem_cons.mp hw with rfl | hw
      · exact hkeep2 _ hpush1
      · exact hpush2 w hw
    · rw [hlen2, hlen1]
      simp only [List.length_cons]
      omega
    · intro p hp
      have hp1 : p ≠ v := fun hc => hp (hc ▸ List.mem_cons_self _ _)
      have hp2 : p ∉ rest := fun hc => hp (List.mem_cons_of_mem _ hc)
      rw [hsame2 p hp2, hsame1 p hp1]

/-- The frontier lemma for Dijkstra: any free walk ends in `done` or passes
a queue entry whose key bounds its length. -/
theorem dijk_key {m : Map} {start : Pos} {exc : Option Pos} {s : DijkSt}
    (hInv : DInv m start exc s) (hexc : exc = none) :
    ∀ {n : Nat} {p : Pos}, Walk m m.is_free start p n →
      p ∈ s.done ∨ ∃ e ∈ s.q, e.1 ≤ n := by
  intro n p hw
  induction hw with
  | nil =>
    rcases hInv.start_state with h | h | h
    · exact Or.inl h
    · exact Or.inr ⟨(0, start), h, le_refl 0⟩
    · rw [hexc] at h
      exact absurd h (by simp)
  | cons hw hd hin hfr ih =>
    rename_i u v n'
    rcases ih with hu | ⟨e, he, hle⟩
    · obtain ⟨ku, hku, hopt⟩ := hInv.done_settled u hu
      have hkun : ku ≤ n' := hopt n' hw
      rcases hInv.done_expanded u hu ku hku v hd hin hfr with hv | hv | ⟨kv, hkv, hkvle⟩
      · exact Or.inl hv
      · rw [hexc] at hv
        exact absurd hv (by simp)
      · exact Or.inr ⟨(kv, v), hkv, by omega⟩
    · exact Or.inr ⟨e, he, by omega⟩

/-- With an empty queue, every free-reachable position is settled in `done`
with its exact distance. -/
theorem dijk_final {m : Map} {start : Pos} {s : DijkSt}
    (hInv : DInv m start none s) (hq : s.q = []) :
    ∀ {n : Nat} {p : Pos}, Walk m m.is_free start p n →
      ∃ k, s.dists p = some k ∧ k ≤ n ∧ Walk m m.is_free start p k := by
  have hdone : ∀ {n : Nat} {p : Pos}, Walk m m.is_free start p n → p ∈ s.done := by
    intro n p hw
    rcases dijk_key hInv rfl hw with h | ⟨e, he, _⟩
    · exact h
    · rw [hq] at he
      exact absurd he (by simp)
  intro n p hw
  obtain ⟨k, hk, hopt⟩ := hInv.done_settled p (hdone hw)
  exact ⟨k, hk, hopt n hw, hInv.dists_walk p k hk⟩


/-- Positions a search can touch: the start plus the grid. -/
theorem mem_searchSpace {m : Map} {start p : Pos}
    (h : p = start ∨ m.is_in_map p = true) :
    p ∈ insert start (inMapCells m) := by
  rcases h with rfl | h
  · exact Finset.mem_insert_self _ _
  · exact Finset.mem_insert_of_mem (mem_inMapCells.mpr h)

/-- Termination potential of the Dijkstra loop. -/
def phiD (m : Map) (start : Pos) (s : DijkSt) : Nat :=
  s.q.length + 9 * ((insert start (inMapCells m)).card - s.done.card)

/-- The Dijkstra loop terminates within its fuel, preserving the invariant
and draining the queue. -/
theorem dijkLoop_spec (m : Map) (start : Pos) :
    ∀ (fuel : Nat) (s : DijkSt), DInv m start none s →
      phiD m start s < fuel →
      ∃ st, dijkLoop m fuel s = some st ∧ DInv m start none st ∧ st.q = [] := by
  intro fuel
  induction fuel with
  | zero =>
    intro s _ h
    exact absurd h (by omega)
  | succ fuel ih =>
    intro s hInv hphi
    rcases hq : s.q with _ | ⟨⟨dist, current⟩, rest⟩
    · refine ⟨s, ?_, hInv, hq⟩
      simp only [dijkLoop, hq]
    · have hheadq : (dist, current) ∈ s.q := by
        rw [hq]
        exact List.mem_cons_self _ _
      have hsorted := hInv.sorted
      rw [hq] at hsorted
      obtain ⟨hhead, htail⟩ := List.pairwise_cons.mp hsorted
      have hslen : s.q.length = rest.length + 1 := by
        rw [hq]
        simp
      by_cases hdone : current ∈ s.done
      · have hInvMid : DInv m start none { s with q := rest } := by
          refine ⟨htail, ?_, ?_, hInv.dists_walk, ?_, hInv.done_settled, ?_, ?_,
            hInv.done_pos⟩
          · intro e he
            exact hInv.entry_sound e (by rw [hq]; exact List.mem_cons_of_mem _ he)
          · intro e he
            exact hInv.entry_pos e (by rw [hq]; exact List.mem_cons_of_mem _ he)
          · intro e he
            exact hInv.dists_le_entry e (by rw [hq]; exact List.mem_cons_of_mem _ he)
          · intro p hp k hk v hdv hinv2 hfrv
            rcases hInv.done_expanded p hp k hk v hdv hinv2 hfrv with hc | hc | ⟨kv, hkv, hkvle⟩
            · exact Or.inl hc
            · exact absurd hc (by simp)
            · rw [hq] at hkv
              rcases List.mem_cons.mp hkv with hkv | hkv
              · injection hkv with h1 h2
                subst h2
                exact Or.inl hdone
              · exact Or.inr (Or.inr ⟨kv, hkv, hkvle⟩)
          · rcases hInv.start_state with hc | hc | hc
            · exact Or.inl hc
            · rw [hq] at hc
              rcases List.mem_cons.mp hc with hc | hc
              · injection hc with h1 h2
                subst h2
                exact Or.inl hdone
              · exact Or.inr (Or.inl hc)
            · exact absurd hc (by simp)
        have hphi' : phiD m start { s with q := rest } < fuel := by
          simp only [phiD] at hphi ⊢
          omega
        obtain ⟨st, hrun, hInv', hq'⟩ := ih { s with q := rest } hInvMid hphi'
        refine ⟨st, ?_, hInv', hq'⟩
        have heq : dijkLoop m (fuel + 1) s = dijkLoop m fuel { s with q := rest } := by
          simp only [dijkLoop, hq]
          rw [if_pos hdone]
        rw [heq]
        exact hrun
      · have hwc : Walk m m.is_free start current dist :=
          hInv.entry_sound (dist, current) hheadq
        have hptmin : ∀ e ∈ s.q, dist ≤ e.1 := by
          intro e he
          rw [hq] at he
          rcases List.mem_cons.mp he with rfl | he
          · exact le_refl _
          · exact entryLe_key (hhead e he)
        have hopt : ∀ n, Walk m m.is_free start current n → dist ≤ n := by
          intro n hw
          rcases dijk_key hInv rfl hw with h | ⟨e, he, hle⟩
          · exact absurd h hdone
          · exact le_trans (hptmin e he) hle
        have hdc : s.dists current = some dist := by
          obtain ⟨k, hk, hkle⟩ := hInv.dists_le_entry _ hheadq
          have hwk := hInv.dists_walk current k hk
          have hge := hopt k hwk
          have hkd : k = dist := by omega
          rw [hkd] at hk
          exact hk
        set adj := m.adjacents current true none
          (some fun p => decide (p ∉ s.done)) true with hadj
        have hadjmem : ∀ v ∈ adj, distance current v = 1 ∧ m.is_in_map v = true ∧
            m.is_free v = true ∧ v ∉ s.done := by
          intro v hv
          rw [hadj] at hv
          obtain ⟨h1, h2, hp, h4⟩ := mem_adjacents_free.mp hv
          exact ⟨h1, h2, h4, of_decide_eq_true hp⟩
        have hInvMid : DInv m start (some current) { s with q := rest } := by
          refine ⟨htail, ?_, ?_, hInv.dists_walk, ?_, hInv.done_settled, ?_, ?_,
            hInv.done_pos⟩
          · intro e he
            exact hInv.entry_sound e (by rw [hq]; exact List.mem_cons_of_mem _ he)
          · intro e he
            exact hInv.entry_pos e (by rw [hq]; exact List.mem_cons_of_mem _ he)
          · intro e he
            exact hInv.dists_le_entry e (by rw [hq]; exact List.mem_cons_of_mem _ he)
          · intro p hp k hk v hdv hinv2 hfrv
            rcases hInv.done_expanded p hp k hk v hdv hinv2 hfrv with hc | hc | ⟨kv, hkv, hkvle⟩
            · exact Or.inl hc
            · exact absurd hc (by simp)
            · rw [hq] at hkv
              rcases List.mem_cons.mp hkv with hkv | hkv
              · injection hkv with h1 h2
                subst h2
                exact Or.inr (Or.inl rfl)
              · exact Or.inr (Or.inr ⟨kv, hkv, hkvle⟩)
          · rcases hInv.start_state with hc | hc | hc
            · exact Or.inl hc
            · rw [hq] at hc
              rcases List.mem_cons.mp hc with hc | hc
              · injection hc with h1 h2
                subst h2
                exact Or.inr (Or.inr rfl)
              · exact Or.inr (Or.inl hc)
            · exact absurd hc (by simp)
        obtain ⟨hInvF, hdoneF, hkeepF, hpushF, hlenF, hsameF⟩ :=
          dijkFold_spec hwc adj { s with q := rest } hadjmem hInvMid
        set s' := adj.foldl (fun t pos => dijkRelax dist current t pos)
          { s with q := rest } with hs'
        have hcadj : current ∉ adj := by
          intro hc
          exact (distance_eq_zero (hadjmem current hc).1) rfl
        have hdc' : s'.dists current = some dist := by
          rw [hsameF current hcadj]
          exact hdc
        have hfinal : DInv m start none { s' with done := insert current s'.done } := by
          refine ⟨hInvF.sorted, hInvF.entry_sound, hInvF.entry_pos,
            hInvF.dists_walk, hInvF.dists_le_entry, ?_, ?_, ?_, ?_⟩
          · intro p hp
            rcases Finset.mem_insert.mp hp with rfl | hp
            · exact ⟨dist, hdc', hopt⟩
            · exact hInvF.done_settled p hp
          · intro p hp k hk v hdv hinv2 hfrv
            rcases Finset.mem_insert.mp hp with rfl | hp
            · have hkd : k = dist := by
                rw [hdc'] at hk
                injection hk with hk2
                exact hk2.symm
              subst hkd
              by_cases hvdone : v ∈ s.done
              · refine Or.inl (Finset.mem_insert_of_mem ?_)
                rw [hdoneF]
                exact hvdone
              · have hvadj : v ∈ adj := by
                  rw [hadj]
                  exact mem_adjacents_free.mpr
                    ⟨hdv, hinv2, decide_eq_true hvdone, hfrv⟩
                exact Or.inr (Or.inr ⟨k + 1, hpushF v hvadj, le_refl _⟩)
            · rcases hInvF.done_expanded p hp k hk v hdv hinv2 hfrv with hc | hc | ⟨kv, hkv, hkvle⟩
              · exact Or.inl (Finset.mem_insert_of_mem hc)
              · injection hc with hc
                subst hc
                exact Or.inl (Finset.mem_insert_self _ _)
              · exact Or.inr (Or.inr ⟨kv, hkv, hkvle⟩)
          · rcases hInvF.start_state with hc | hc | hc
            · exact Or.inl (Finset.mem_insert_of_mem hc)
            · exact Or.inr (Or.inl hc)
            · injection hc with hc
              subst hc
              exact Or.inl (Finset.mem_insert_self _ _)
          · intro p hp
            rcases Finset.mem_insert.mp hp with rfl | hp
            · have := hInv.entry_pos (dist, p) hheadq
              exact this
            · exact hInvF.done_pos p hp
        have hphi' : phiD m start { s' with done := insert current s'.done } < fuel := by
          have hsub : { s' with done := insert current s'.done }.done ⊆
              insert start (inMapCells m) := by
            intro p hp
            exact mem_searchSpace (hfinal.done_pos p hp)
          have hcardS := Finset.card_le_card hsub
          have hcardInc : (insert current s'.done).card = s.done.card + 1 := by
            rw [hdoneF]
            exact Finset.card_insert_of_not_mem hdone
          have hqlen : s'.q.length = rest.length + adj.length := hlenF
          have hadj8 : adj.length ≤ 8 := by
            rw [hadj]
            exact length_adjacents_le m current true _
          have hcardS' : (insert current s'.done).card ≤
              (insert start (inMapCells m)).card := hcardS
          simp only [phiD] at hphi ⊢
          show s'.q.length +
              9 * ((insert start (inMapCells m)).card - (insert current s'.done).card) <
            fuel
          omega
        obtain ⟨st, hrun, hInv', hq'⟩ :=
          ih { s' with done := insert current s'.done } hfinal hphi'
        refine ⟨st, ?_, hInv', hq'⟩
        have heq : dijkLoop m (fuel + 1) s =
            dijkLoop m fuel { s' with done := insert current s'.done } := by
          rw [hs', hadj]
          simp only [dijkLoop, hq]
          rw [if_neg hdone]
        rw [heq]
        exact hrun

/-- `Map.dist_metrics(start)` terminates with the invariant and an empty
queue. -/
theorem dist_metrics_spec (m : Map) (start : Pos) :
    ∃ st, m.dist_metrics start = some st ∧ DInv m start none st ∧ st.q = [] := by
  have hInv0 : DInv m start none
      { dists := fun p => if p = start then some 0 else none,
        prevs := fun p => if p = start then some none else none,
        q := [(0, start)], done := ∅ } := by
    refine ⟨by simp, ?_, ?_, ?_, ?_, by simp, by simp, ?_, by simp⟩
    · intro e he
      rcases List.mem_cons.mp he with rfl | he
      · exact Walk.nil
      · exact absurd he (by simp)
    · intro e he
      rcases List.mem_cons.mp he with rfl | he
      · exact Or.inl rfl
      · exact absurd he (by simp)
    · intro p k hk
      have hk2 : (if p = start then (some 0 : Option Nat) else none) = some k := hk
      by_cases hp : p = start
      · subst hp
        rw [if_pos rfl] at hk2
        injection hk2 with hk2
        subst hk2
        exact Walk.nil
      · rw [if_neg hp] at hk2
        exact absurd hk2 (by simp)
    · intro e he
      rcases List.mem_cons.mp he with rfl | he
      · refine ⟨0, ?_, le_refl _⟩
        show (if start = start then (some 0 : Option Nat) else none) = some 0
        rw [if_pos rfl]
      · exact absurd he (by simp)
    · exact Or.inr (Or.inl (List.mem_cons_self _ _))
  have hphi0 : phiD m start
      { dists := fun p => if p = start then some 0 else none,
        prevs := fun p => if p = start then some none else none,
        q := [(0, start)], done := ∅ } < 9 * (m.width * m.height + 1) + 3 := by
    have hcard : (insert start (inMapCells m)).card ≤ m.width * m.height + 1 := by
      have h1 := Finset.card_insert_le start (inMapCells m)
      rw [inMapCells_card] at h1
      exact h1
    simp only [phiD]
    simp only [List.length_cons, List.length_nil, Finset.card_empty]
    omega
  exact dijkLoop_spec m start _ _ hInv0 hphi0


/-- Invariant of the A* loop of `Map.path`.  `exc` is `none` between
iterations; while the expansion of `current` is in progress it is
`some current`, exempting that one closed node from the expansion
obligation. -/
structure AInv (m : Map) (start goal : Pos) (exc : Option Pos) (s : ASt) : Prop where
  sorted : s.open_q.Pairwise fun a b => entryLe a b = true
  open_has : ∀ p ∈ s.open_set, ∃ gp, s.g_scores p = some gp ∧
      ∃ k, (k, p) ∈ s.open_q ∧ k ≤ gp + distance p goal
  entry_sound : ∀ e ∈ s.open_q, ∃ g', Walk m (allowedA m goal) start e.2 g' ∧
      e.1 = g' + distance e.2 goal ∧
      ∃ gp, s.g_scores e.2 = some gp ∧ gp ≤ g'
  entry_pos : ∀ e ∈ s.open_q, e.2 = start ∨ m.is_in_map e.2 = true
  gwalk : ∀ p gp, s.g_scores p = some gp → Walk m (allowedA m goal) start p gp
  gdom : ∀ p gp, s.g_scores p = some gp → p ∈ s.open_set ∨ p ∈ s.closed
  gbound : ∀ p gp, s.g_scores p = some gp → gp ≤ s.closed.card
  closed_settled : ∀ p ∈ s.closed, ∃ gp, s.g_scores p = some gp ∧
      ∀ n, Walk m (allowedA m goal) start p n → gp ≤ n
  closed_not_open : ∀ p ∈ s.closed, p ∉ s.open_set
  closed_expanded : ∀ p ∈ s.closed, some p ≠ exc → ∀ gp, s.g_scores p = some gp →
      ∀ v, distance p v = 1 → m.is_in_map v = true → allowedA m goal v = true →
      v ∈ s.closed ∨ (v ∈ s.open_set ∧ ∃ gv, s.g_scores v = some gv ∧ gv ≤ gp + 1)
  start_state : start ∈ s.closed ∨ (start ∈ s.open_set ∧ s.g_scores start = some 0)
  goal_not_closed : goal ∉ s.closed
  closed_pos : ∀ p ∈ s.closed, p = start ∨ m.is_in_map p = true
  came_chain : ∀ p gp, s.g_scores p = some gp →
      (p = start ∧ gp = 0) ∨
      ∃ u gu, s.came_from p = some u ∧ s.g_scores u = some gu ∧ gu + 1 ≤ gp ∧
        distance u p = 1 ∧ m.is_in_map p = true ∧ allowedA m goal p = true

/-- What the expansion of a node with settled score `gstar` guarantees for
one neighbor. -/
def ExpandedFor (m : Map) (goal : Pos) (gstar : Nat) (s : ASt) (v : Pos) : Prop :=
  allowedA m goal v = true →
    v ∈ s.closed ∨ (v ∈ s.open_set ∧ ∃ gv, s.g_scores v = some gv ∧ gv ≤ gstar + 1)

/-- `ExpandedFor` survives later relaxations: the closed set is unchanged,
`open_set` only grows and scores only improve. -/
theorem expandedFor_mono {m : Map} {goal : Pos} {gstar : Nat} {s s' : ASt} {v : Pos}
    (h : ExpandedFor m goal gstar s v)
    (hc : s'.closed = s.closed)
    (ho : ∀ p ∈ s.open_set, p ∈ s'.open_set)
    (hg : ∀ p gp, s.g_scores p = some gp →
      ∃ gp', s'.g_scores p = some gp' ∧ gp' ≤ gp) :
    ExpandedFor m goal gstar s' v := by
  intro hal
  rcases h hal with hcl | ⟨hop, gv, hgv, hle⟩
  · rw [hc]
    exact Or.inl hcl
  · obtain ⟨gv', hgv', hle'⟩ := hg v gv hgv
    exact Or.inr ⟨ho v hop, gv', hgv', by omega⟩

/-- The frontier lemma for A*: any walk ends in a closed node or passes an
open node whose queue key is bounded through the consistent heuristic. -/
theorem astar_key {m : Map} {start goal : Pos} {s : ASt}
    (hInv : AInv m start goal none s) :
    ∀ {n : Nat} {p : Pos}, Walk m (allowedA m goal) start p n →
      p ∈ s.closed ∨
      ∃ v gv k, v ∈ s.open_set ∧ s.g_scores v = some gv ∧ (k, v) ∈ s.open_q ∧
        k ≤ gv + distance v goal ∧
        gv + distance v goal ≤ n + distance p goal := by
  intro n p hw
  induction hw with
  | nil =>
    rcases hInv.start_state with h | ⟨hop, hg⟩
    · exact Or.inl h
    · obtain ⟨gp, hgp, k, hk, hkle⟩ := hInv.open_has start hop
      have hgp0 : gp = 0 := by
        rw [hg] at hgp
        injection hgp with h
        exact h.symm
      subst hgp0
      exact Or.inr ⟨start, 0, k, hop, hgp, hk, hkle, by omega⟩
  | cons hw hd hin hal ih =>
    rename_i u v n'
    rcases ih with hu | ⟨w, gw, k, hwo, hgw, hk, hkle, hbound⟩
    · obtain ⟨gu, hgu, hopt⟩ := hInv.closed_settled u hu
      have hgun : gu ≤ n' := hopt n' hw
      rcases hInv.closed_expanded u hu (by simp) gu hgu v hd hin hal with
        hv | ⟨hvo, gv, hgv, hgvle⟩
      · exact Or.inl hv
      · obtain ⟨gp, hgp, k', hk', hk'le⟩ := hInv.open_has v hvo
        have hgpv : gp = gv := by
          rw [hgv] at hgp
          injection hgp with h
          exact h.symm
        subst hgpv
        exact Or.inr ⟨v, gp, k', hvo, hgp, hk', hk'le, by omega⟩
    · have htri : distance u goal ≤ 1 + distance v goal := by
        have h1 := distance_triangle u v goal
        rw [hd] at h1
        exact h1
      exact Or.inr ⟨w, gw, k, hwo, hgw, hk, hkle, by omega⟩

/-- When the open set has drained, every reachable position is closed. -/
theorem astar_all_closed {m : Map} {start goal : Pos} {s : ASt}
    (hInv : AInv m start goal none s) (hempty : s.open_set = ∅) :
    ∀ {n : Nat} {p : Pos}, Walk m (allowedA m goal) start p n → p ∈ s.closed := by
  intro n p hw
  induction hw with
  | nil =>
    rcases hInv.start_state with h | ⟨hop, _⟩
    · exact h
    · rw [hempty] at hop
      exact absurd hop (Finset.not_mem_empty _)
  | cons hw hd hin hal ih =>
    rename_i u v n'
    obtain ⟨gu, hgu, _⟩ := hInv.closed_settled u ih
    rcases hInv.closed_expanded u ih (by simp) gu hgu v hd hin hal with
      hv | ⟨hvo, _⟩
    · exact hv
    · rw [hempty] at hvo
      exact absurd hvo (Finset.not_mem_empty _)

/-- Popping from the open set yields a node whose recorded score is its
exact distance. -/
theorem astar_pop_exact {m : Map} {start goal : Pos} {s : ASt}
    {e : Nat × Pos} {rest : List (Nat × Pos)}
    (hInv : AInv m start goal none s)
    (hpop : popOpen s.open_set s.open_q = .ok (e, rest)) :
    e.2 ∈ s.open_set ∧ ∃ gstar, s.g_scores e.2 = some gstar ∧
      ∀ n, Walk m (allowedA m goal) start e.2 n → gstar ≤ n := by
  obtain ⟨heos, -⟩ := popOpen_spec hpop
  obtain ⟨gp, hgp, k0, hk0, hk0le⟩ := hInv.open_has e.2 heos
  refine ⟨heos, gp, hgp, ?_⟩
  intro n hw
  rcases astar_key hInv hw with hcl | ⟨v, gv, k, hvo, hgv, hk, hkle, hbound⟩
  · exact absurd heos (hInv.closed_not_open e.2 hcl)
  · have hmin : e.1 ≤ k := popOpen_min hInv.sorted hpop (k, v) hk hvo
    obtain ⟨g', hwg', he1, gp2, hgp2, hgple⟩ :=
      hInv.entry_sound e (popOpen_rest hInv.sorted hpop).2.2.1
    have hgpeq : gp2 = gp := by
      rw [hgp] at hgp2
      injection hgp2 with h
      exact h.symm
    subst hgpeq
    omega

/-- Termination potential of the A* loop. -/
def phiA (m : Map) (start : Pos) (s : ASt) : Nat :=
  s.open_q.length + 9 * ((insert start (inMapCells m)).card - s.closed.card)


/-- One neighbor step of the A* relaxation loop: never raises (given the
popped node's score), preserves the invariant, keeps `closed` and the
popped node's score, only grows the open structures, improves scores and
establishes the expansion obligation for the processed neighbor. -/
theorem astarRelax_spec {m : Map} {start goal current pos : Pos} {gstar : Nat}
    {s : ASt}
    (hInv : AInv m start goal (some current) s)
    (hgc : s.g_scores current = some gstar)
    (hgb : gstar + 1 ≤ s.closed.card)
    (hd : distance current pos = 1) (hin : m.is_in_map pos = true) :
    ∃ s', astarRelax m goal current s pos = .ok s' ∧
      AInv m start goal (some current) s' ∧
      s'.closed = s.closed ∧
      s'.g_scores current = some gstar ∧
      (∀ e ∈ s.open_q, e ∈ s'.open_q) ∧
      (∀ p ∈ s.open_set, p ∈ s'.open_set) ∧
      s'.open_q.length ≤ s.open_q.length + 1 ∧
      (∀ p gp, s.g_scores p = some gp → ∃ gp', s'.g_scores p = some gp' ∧ gp' ≤ gp) ∧
      ExpandedFor m goal gstar s' pos := by
  have hcp : current ≠ pos := distance_eq_zero hd
  by_cases hal : allowedA m goal pos = false
  · refine ⟨s, ?_, hInv, rfl, hgc, fun e he => he, fun p hp => hp, by omega,
      fun p gp hgp => ⟨gp, hgp, le_refl _⟩, ?_⟩
    · simp only [astarRelax]
      rw [if_pos hal]
    · intro h
      rw [hal] at h
      exact absurd h (by simp)
  · have hal' : allowedA m goal pos = true := by
      cases hA : allowedA m goal pos with
      | false => exact absurd hA hal
      | true => rfl
    have hwpos : Walk m (allowedA m goal) start pos (gstar + 1) :=
      Walk.cons (hInv.gwalk current gstar hgc) hd hin hal'
    rcases hgpos : s.g_scores pos with _ | gp0
    · -- no previous score: improvement
      have hposnc : pos ∉ s.closed := by
        intro hc
        obtain ⟨gp', hgp', _⟩ := hInv.closed_settled pos hc
        rw [hgpos] at hgp'
        exact absurd hgp' (by simp)
      have hstep : astarRelax m goal current s pos = .ok
          { came_from := fun q => if q = pos then some current else s.came_from q,
            g_scores := fun q => if q = pos then some (gstar + 1) else s.g_scores q,
            f_scores := fun q => if q = pos then some (gstar + 1 + distance pos goal)
                                 else s.f_scores q,
            open_q := qpush s.open_q (gstar + 1 + distance pos goal, pos),
            open_set := insert pos s.open_set,
            closed := s.closed } := by
        simp [astarRelax, hal', hgc, hgpos, hd]
      refine ⟨_, hstep, ?_, rfl, ?_, ?_, ?_, ?_, ?_, ?_⟩
      · refine ⟨pairwise_qpush hInv.sorted, ?_, ?_, ?_, ?_, ?_, ?_, ?_, ?_, ?_, ?_,
          hInv.goal_not_closed, hInv.closed_pos, ?_⟩
        · intro p hp
          by_cases hppos : p = pos
          · subst hppos
            refine ⟨gstar + 1, by dsimp only; rw [if_pos rfl], gstar + 1 + distance p goal,
              mem_qpush.mpr (Or.inr rfl), le_refl _⟩
          · obtain ⟨gp, hgp, k, hk, hkle⟩ :=
              hInv.open_has p (by
                rcases Finset.mem_insert.mp hp with rfl | hp2
                · exact absurd rfl hppos
                · exact hp2)
            exact ⟨gp, by dsimp only; rw [if_neg hppos]; exact hgp, k,
              mem_qpush.mpr (Or.inl hk), hkle⟩
        · intro e he
          rcases mem_qpush.mp he with he | rfl
          · obtain ⟨g', hwg', he1, gp2, hgp2, hgple⟩ := hInv.entry_sound e he
            have heppos : e.2 ≠ pos := by
              intro hc
              rw [hc, hgpos] at hgp2
              exact absurd hgp2 (by simp)
            exact ⟨g', hwg', he1, gp2, by dsimp only; rw [if_neg heppos]; exact hgp2, hgple⟩
          · exact ⟨gstar + 1, hwpos, rfl, gstar + 1, by dsimp only; rw [if_pos rfl], le_refl _⟩
        · intro e he
          rcases mem_qpush.mp he with he | rfl
          · exact hInv.entry_pos e he
          · exact Or.inr hin
        · intro p gp hgp
          have hgp2 : (if p = pos then some (gstar + 1) else s.g_scores p) = some gp := hgp
          by_cases hppos : p = pos
          · subst hppos
            rw [if_pos rfl] at hgp2
            injection hgp2 with h
            rw [← h]
            exact hwpos
          · rw [if_neg hppos] at hgp2
            exact hInv.gwalk p gp hgp2
        · intro p gp hgp
          have hgp2 : (if p = pos then some (gstar + 1) else s.g_scores p) = some gp := hgp
          by_cases hppos : p = pos
          · subst hppos
            exact Or.inl (Finset.mem_insert_self _ _)
          · rw [if_neg hppos] at hgp2
            rcases hInv.gdom p gp hgp2 with h | h
            · exact Or.inl (Finset.mem_insert_of_mem h)
            · exact Or.inr h
        · intro p gp hgp
          have hgp2 : (if p = pos then some (gstar + 1) else s.g_scores p) = some gp := hgp
          by_cases hppos : p = pos
          · subst hppos
            rw [if_pos rfl] at hgp2
            injection hgp2 with h
            dsimp only
            omega
          · rw [if_neg hppos] at hgp2
            exact hInv.gbound p gp hgp2
        · intro p hp
          obtain ⟨gp, hgp, hopt⟩ := hInv.closed_settled p hp
          have hppos : p ≠ pos := fun hc => hposnc (hc ▸ hp)
          exact ⟨gp, by
            show (if p = pos then some (gstar + 1) else s.g_scores p) = some gp
            rw [if_neg hppos]
            exact hgp, hopt⟩
        · intro p hp
          have hppos : p ≠ pos := fun hc => hposnc (hc ▸ hp)
          intro hc
          rcases Finset.mem_insert.mp hc with hc2 | hc2
          · exact hppos hc2
          · exact hInv.closed_not_open p hp hc2
        · intro p hp hpexc gp hgp v hdv hinv2 halv
          have hppos : p ≠ pos := fun hc => hposnc (hc ▸ hp)
          have hgp2 : (if p = pos then some (gstar + 1) else s.g_scores p) = some gp := hgp
          rw [if_neg hppos] at hgp2
          rcases hInv.closed_expanded p hp hpexc gp hgp2 v hdv hinv2 halv with
            hv | ⟨hvo, gv, hgv, hgvle⟩
          · exact Or.inl hv
          · have hvpos : v ≠ pos := by
              intro hc
              rw [hc, hgpos] at hgv
              exact absurd hgv (by simp)
            exact Or.inr ⟨Finset.mem_insert_of_mem hvo, gv,
              by dsimp only; rw [if_neg hvpos]; exact hgv, hgvle⟩
        · rcases hInv.start_state with h | ⟨hop, hg0⟩
          · exact Or.inl h
          · have hspos : start ≠ pos := by
              intro hc
              rw [hc, hgpos] at hg0
              exact absurd hg0 (by simp)
            exact Or.inr ⟨Finset.mem_insert_of_mem hop,
              by dsimp only; rw [if_neg hspos]; exact hg0⟩
        · intro p gp hgp
          have hgp2 : (if p = pos then some (gstar + 1) else s.g_scores p) = some gp := hgp
          by_cases hppos : p = pos
          · subst hppos
            rw [if_pos rfl] at hgp2
            injection hgp2 with h
            refine Or.inr ⟨current, gstar, by dsimp only; rw [if_pos rfl], ?_, by omega, hd, hin, hal'⟩
            show (if current = p then some (gstar + 1) else s.g_scores current) = some gstar
            rw [if_neg hcp]
            exact hgc
          · rw [if_neg hppos] at hgp2
            rcases hInv.came_chain p gp hgp2 with h | ⟨u, gu, hcf, hgu, hle, hdu, hinp, halp⟩
            · exact Or.inl h
            · have hupos : u ≠ pos := by
                intro hc
                rw [hc, hgpos] at hgu
                exact absurd hgu (by simp)
              exact Or.inr ⟨u, gu, by dsimp only; rw [if_neg hppos]; exact hcf,
                by dsimp only; rw [if_neg hupos]; exact hgu, hle, hdu, hinp, halp⟩
      · show (if current = pos then some (gstar + 1) else s.g_scores current) = some gstar
        rw [if_neg hcp]
        exact hgc
      · intro e he
        exact mem_qpush.mpr (Or.inl he)
      · intro p hp
        exact Finset.mem_insert_of_mem hp
      · dsimp only
        rw [length_qpush]
      · intro p gp hgp
        have hppos : p ≠ pos := by
          intro hc
          rw [hc, hgpos] at hgp
          exact absurd hgp (by simp)
        refine ⟨gp, ?_, le_refl _⟩
        show (if p = pos then some (gstar + 1) else s.g_scores p) = some gp
        rw [if_neg hppos]
        exact hgp
      · intro _
        exact Or.inr ⟨Finset.mem_insert_self _ _,
          gstar + 1, by dsimp only; rw [if_pos rfl], le_refl _⟩
    · by_cases hlt : gstar + 1 < gp0
      · -- strict improvement over a previous score
        have hposnc : pos ∉ s.closed := by
          intro hc
          obtain ⟨gp', hgp', hopt⟩ := hInv.closed_settled pos hc
          rw [hgpos] at hgp'
          injection hgp' with h
          subst h
          have := hopt (gstar + 1) hwpos
          omega
        have hstep : astarRelax m goal current s pos = .ok
            { came_from := fun q => if q = pos then some current else s.came_from q,
              g_scores := fun q => if q = pos then some (gstar + 1) else s.g_scores q,
              f_scores := fun q => if q = pos then some (gstar + 1 + distance pos goal)
                                   else s.f_scores q,
              open_q := qpush s.open_q (gstar + 1 + distance pos goal, pos),
              open_set := insert pos s.open_set,
              closed := s.closed } := by
          simp [astarRelax, hal', hgc, hgpos, hd, hlt]
        refine ⟨_, hstep, ?_, rfl, ?_, ?_, ?_, ?_, ?_, ?_⟩
        · refine ⟨pairwise_qpush hInv.sorted, ?_, ?_, ?_, ?_, ?_, ?_, ?_, ?_, ?_, ?_,
            hInv.goal_not_closed, hInv.closed_pos, ?_⟩
          · intro p hp
            by_cases hppos : p = pos
            · subst hppos
              refine ⟨gstar + 1, by dsimp only; rw [if_pos rfl], gstar + 1 + distance p goal,
                mem_qpush.mpr (Or.inr rfl), le_refl _⟩
            · obtain ⟨gp, hgp, k, hk, hkle⟩ :=
                hInv.open_has p (by
                  rcases Finset.mem_insert.mp hp with rfl | hp2
                  · exact absurd rfl hppos
                  · exact hp2)
              exact ⟨gp, by dsimp only; rw [if_neg hppos]; exact hgp, k,
                mem_qpush.mpr (Or.inl hk), hkle⟩
          · intro e he
            rcases mem_qpush.mp he with he | rfl
            · obtain ⟨g', hwg', he1, gp2, hgp2, hgple⟩ := hInv.entry_sound e he
              by_cases heppos : e.2 = pos
              · have hgp2' : gp2 = gp0 := by
                  rw [heppos, hgpos] at hgp2
                  injection hgp2 with h
                  exact h.symm
                refine ⟨g', hwg', he1, gstar + 1, ?_, by omega⟩
                dsimp only
                rw [if_pos heppos]
              · exact ⟨g', hwg', he1, gp2, by dsimp only; rw [if_neg heppos]; exact hgp2, hgple⟩
            · exact ⟨gstar + 1, hwpos, rfl, gstar + 1, by dsimp only; rw [if_pos rfl], le_refl _⟩
          · intro e he
            rcases mem_qpush.mp he with he | rfl
            · exact hInv.entry_pos e he
            · exact Or.inr hin
          · intro p gp hgp
            have hgp2 : (if p = pos then some (gstar + 1) else s.g_scores p) = some gp := hgp
            by_cases hppos : p = pos
            · subst hppos
              rw [if_pos rfl] at hgp2
              injection hgp2 with h
              rw [← h]
              exact hwpos
            · rw [if_neg hppos] at hgp2
              exact hInv.gwalk p gp hgp2
          · intro p gp hgp
            have hgp2 : (if p = pos then some (gstar + 1) else s.g_scores p) = some gp := hgp
            by_cases hppos : p = pos
            · subst hppos
              exact Or.inl (Finset.mem_insert_self _ _)
            · rw [if_neg hppos] at hgp2
              rcases hInv.gdom p gp hgp2 with h | h
              · exact Or.inl (Finset.mem_insert_of_mem h)
              · exact Or.inr h
          · intro p gp hgp
            have hgp2 : (if p = pos then some (gstar + 1) else s.g_scores p) = some gp := hgp
            by_cases hppos : p = pos
            · subst hppos
              rw [if_pos rfl] at hgp2
              injection hgp2 with h
              dsimp only
              omega
            · rw [if_neg hppos] at hgp2
              exact hInv.gbound p gp hgp2
          · intro p hp
            obtain ⟨gp, hgp, hopt⟩ := hInv.closed_settled p hp
            have hppos : p ≠ pos := fun hc => hposnc (hc ▸ hp)
            exact ⟨gp, by
              show (if p = pos then some (gstar + 1) else s.g_scores p) = some gp
              rw [if_neg hppos]
              exact hgp, hopt⟩
          · intro p hp
            have hppos : p ≠ pos := fun hc => hposnc (hc ▸ hp)
            intro hc
            rcases Finset.mem_insert.mp hc with hc2 | hc2
            · exact hppos hc2
            · exact hInv.closed_not_open p hp hc2
          · intro p hp hpexc gp hgp v hdv hinv2 halv
            have hppos : p ≠ pos := fun hc => hposnc (hc ▸ hp)
            have hgp2 : (if p = pos then some (gstar + 1) else s.g_scores p) = some gp := hgp
            rw [if_neg hppos] at hgp2
            rcases hInv.closed_expanded p hp hpexc gp hgp2 v hdv hinv2 halv with
              hv | ⟨hvo, gv, hgv, hgvle⟩
            · exact Or.inl hv
            · by_cases hvpos : v = pos
              · have hgv' : gv = gp0 := by
                  rw [hvpos, hgpos] at hgv
                  injection hgv with h
                  exact h.symm
                refine Or.inr ⟨Finset.mem_insert_of_mem hvo, gstar + 1, ?_, by omega⟩
                dsimp only
                rw [if_pos hvpos]
              · exact Or.inr ⟨Finset.mem_insert_of_mem hvo, gv,
                  by dsimp only; rw [if_neg hvpos]; exact hgv, hgvle⟩
          · rcases hInv.start_state with h | ⟨hop, hg0⟩
            · exact Or.inl h
            · have hspos : start ≠ pos := by
                intro hc
                rw [hc, hgpos] at hg0
                injection hg0 with h
                omega
              exact Or.inr ⟨Finset.mem_insert_of_mem hop,
                by dsimp only; rw [if_neg hspos]; exact hg0⟩
          · intro p gp hgp
            have hgp2 : (if p = pos then some (gstar + 1) else s.g_scores p) = some gp := hgp
            by_cases hppos : p = pos
            · subst hppos
              rw [if_pos rfl] at hgp2
              injection hgp2 with h
              refine Or.inr ⟨current, gstar, by dsimp only; rw [if_pos rfl], ?_, by omega, hd, hin, hal'⟩
              show (if current = p then some (gstar + 1) else s.g_scores current) = some gstar
              rw [if_neg hcp]
              exact hgc
            · rw [if_neg hppos] at hgp2
              rcases hInv.came_chain p gp hgp2 with h | ⟨u, gu, hcf, hgu, hle, hdu, hinp, halp⟩
              · exact Or.inl h
              · by_cases hupos : u = pos
                · have hgu' : gu = gp0 := by
                    rw [hupos, hgpos] at hgu
                    injection hgu with h
                    exact h.symm
                  refine Or.inr ⟨u, gstar + 1, by dsimp only; rw [if_neg hppos]; exact hcf, ?_,
                    by omega, hdu, hinp, halp⟩
                  dsimp only
                  rw [if_pos hupos]
                · exact Or.inr ⟨u, gu, by dsimp only; rw [if_neg hppos]; exact hcf,
                    by dsimp only; rw [if_neg hupos]; exact hgu, hle, hdu, hinp, halp⟩
        · show (if current = pos then some (gstar + 1) else s.g_scores current) = some gstar
          rw [if_neg hcp]
          exact hgc
        · intro e he
          exact mem_qpush.mpr (Or.inl he)
        · intro p hp
          exact Finset.mem_insert_of_mem hp
        · dsimp only
          rw [length_qpush]
        · intro p gp hgp
          by_cases hppos : p = pos
          · subst hppos
            have hgp' : gp = gp0 := by
              rw [hgpos] at hgp
              injection hgp with h
              exact h.symm
            refine ⟨gstar + 1, ?_, by omega⟩
            show (if p = p then some (gstar + 1) else s.g_scores p) = some (gstar + 1)
            rw [if_pos rfl]
          · refine ⟨gp, ?_, le_refl _⟩
            show (if p = pos then some (gstar + 1) else s.g_scores p) = some gp
            rw [if_neg hppos]
            exact hgp
        · intro _
          exact Or.inr ⟨Finset.mem_insert_self _ _,
            gstar + 1, by dsimp only; rw [if_pos rfl], le_refl _⟩
      · -- no improvement: the state is unchanged
        have hstep : astarRelax m goal current s pos = .ok s := by
          simp [astarRelax, hal', hgc, hgpos, hd, hlt]
        refine ⟨s, hstep, hInv, rfl, hgc, fun e he => he, fun p hp => hp, by omega,
          fun p gp hgp => ⟨gp, hgp, le_refl _⟩, ?_⟩
        intro _
        rcases hInv.gdom pos gp0 hgpos with h | h
        · exact Or.inr ⟨h, gp0, hgpos, by omega⟩
        · exact Or.inl h


/-- The whole neighbor loop of one A* iteration. -/
theorem astarFold_spec {m : Map} {start goal current : Pos} {gstar : Nat} :
    ∀ (l : List Pos) (s : ASt),
      (∀ v ∈ l, distance current v = 1 ∧ m.is_in_map v = true) →
      AInv m start goal (some current) s →
      s.g_scores current = some gstar →
      gstar + 1 ≤ s.closed.card →
      ∃ s', astarFold m goal current s l = .ok s' ∧
        AInv m start goal (some current) s' ∧
        s'.closed = s.closed ∧
        s'.g_scores current = some gstar ∧
        (∀ e ∈ s.open_q, e ∈ s'.open_q) ∧
        (∀ p ∈ s.open_set, p ∈ s'.open_set) ∧
        s'.open_q.length ≤ s.open_q.length + l.length ∧
        (∀ p gp, s.g_scores p = some gp →
          ∃ gp', s'.g_scores p = some gp' ∧ gp' ≤ gp) ∧
        (∀ v ∈ l, ExpandedFor m goal gstar s' v) := by
  intro l
  induction l with
  | nil =>
    intro s _ hInv hgc _
    exact ⟨s, rfl, hInv, rfl, hgc, fun e he => he, fun p hp => hp, by simp,
      fun p gp hgp => ⟨gp, hgp, le_refl _⟩, by simp⟩
  | cons v rest ih =>
    intro s hl hInv hgc hgb
    obtain ⟨hd, hin⟩ := hl v (List.mem_cons_self _ _)
    obtain ⟨s1, hstep, hInv1, hc1, hg1, hkeep1, hopen1, hlen1, hmono1, hexp1⟩ :=
      astarRelax_spec hInv hgc hgb hd hin
    obtain ⟨s', hrun, hInv', hc', hg', hkeep', hopen', hlen', hmono', hexp'⟩ :=
      ih s1 (fun w hw => hl w (List.mem_cons_of_mem _ hw)) hInv1 hg1
        (by rw [hc1]; exact hgb)
    refine ⟨s', ?_, hInv', by rw [hc', hc1], hg', ?_, ?_, ?_, ?_, ?_⟩
    · simp only [astarFold, hstep]
      exact hrun
    · intro e he
      exact hkeep' e (hkeep1 e he)
    · intro p hp
      exact hopen' p (hopen1 p hp)
    · simp only [List.length_cons]
      omega
    · intro p gp hgp
      obtain ⟨gp1, hgp1, hle1⟩ := hmono1 p gp hgp
      obtain ⟨gp', hgp', hle'⟩ := hmono' p gp1 hgp1
      exact ⟨gp', hgp', by omega⟩
    · intro w hw
      rcases List.mem_cons.mp hw with rfl | hw
      · exact expandedFor_mono hexp1 hc' hopen' hmono'
      · exact hexp' w hw


/-- `_rebuild_path` walks the back-link chain: it terminates at `start`
within the fuel, and the returned list is longer than the accumulator by the
number of hops, which is a walk bounded by the node's score. -/
theorem rebuild_spec {m : Map} {start goal : Pos} {cf : Pos → Option Pos}
    {g_scores : Pos → Option Nat}
    (hchain : ∀ p gp, g_scores p = some gp →
      (p = start ∧ gp = 0) ∨
      ∃ u gu, cf p = some u ∧ g_scores u = some gu ∧ gu + 1 ≤ gp ∧
        distance u p = 1 ∧ m.is_in_map p = true ∧ allowedA m goal p = true) :
    ∀ (fuel : Nat) (p : Pos) (gp : Nat) (acc : List Pos),
      g_scores p = some gp → gp < fuel →
      ∃ hops res, rebuildGo start cf fuel p acc = some (.ok res) ∧
        res.length = acc.length + hops ∧ hops ≤ gp ∧
        Walk m (allowedA m goal) start p hops := by
  intro fuel
  induction fuel with
  | zero =>
    intro p gp acc _ h
    exact absurd h (by omega)
  | succ fuel ih =>
    intro p gp acc hgp hlt
    by_cases hp : p = start
    · subst hp
      refine ⟨0, acc.reverse, ?_, by simp, by omega, Walk.nil⟩
      simp [rebuildGo]
    · rcases hchain p gp hgp with ⟨hps, _⟩ | ⟨u, gu, hcf, hgu, hle, hdu, hinp, halp⟩
      · exact absurd hps hp
      · obtain ⟨hops, res, hrun, hlen, hople, hwalk⟩ :=
          ih u gu (acc ++ [u]) hgu (by omega)
        refine ⟨hops + 1, res, ?_, ?_, by omega, Walk.cons hwalk hdu hinp halp⟩
        · simp only [rebuildGo, hcf]
          rw [if_neg hp]
          exact hrun
        · rw [hlen]
          simp only [List.length_append, List.length_cons, List.length_nil]
          omega

/-- The A* loop of `Map.path` terminates within its fuel: if the goal is
reachable in the free-or-goal graph it returns a rebuilt path of optimal
length; otherwise it returns `None` — in neither case does it raise. -/
theorem astarLoop_spec (m : Map) (start goal : Pos) :
    ∀ (fuel : Nat) (s : ASt), AInv m start goal none s →
      phiA m start s < fuel →
      ((∃ n, Walk m (allowedA m goal) start goal n) →
        ∃ pathL D, astarLoop m start goal fuel s = some (.ok (some pathL)) ∧
          pathL.length = D + 1 ∧ Walk m (allowedA m goal) start goal D ∧
          ∀ n, Walk m (allowedA m goal) start goal n → D ≤ n) ∧
      ((¬ ∃ n, Walk m (allowedA m goal) start goal n) →
        astarLoop m start goal fuel s = some (.ok none)) := by
  intro fuel
  induction fuel with
  | zero =>
    intro s _ h
    exact absurd h (by omega)
  | succ fuel ih =>
    intro s hInv hphi
    by_cases hempty : s.open_set = ∅
    · have heq : astarLoop m start goal (fuel + 1) s = some (.ok none) := by
        simp only [astarLoop]
        rw [if_pos hempty]
      refine ⟨?_, fun _ => heq⟩
      intro ⟨n, hw⟩
      exact absurd (astar_all_closed hInv hempty hw) hInv.goal_not_closed
    · obtain ⟨p0, hp0⟩ := Finset.nonempty_iff_ne_empty.mpr hempty
      obtain ⟨gp0, hgp0, k0, hk0, hk0le⟩ := hInv.open_has p0 hp0
      obtain ⟨e, rest, hpop⟩ := popOpen_ok ⟨(k0, p0), hk0, hp0⟩
      obtain ⟨hrsorted, hrsub, hein, hrlen⟩ := popOpen_rest hInv.sorted hpop
      obtain ⟨hcuros, gstar, hgstar, hopt⟩ := astar_pop_exact hInv hpop
      have hclosedsub : s.closed ⊆ insert start (inMapCells m) := by
        intro p hp
        exact mem_searchSpace (hInv.closed_pos p hp)
      have hcardS : s.closed.card ≤ (insert start (inMapCells m)).card :=
        Finset.card_le_card hclosedsub
      have hScard : (insert start (inMapCells m)).card ≤ m.width * m.height + 1 := by
        have h1 := Finset.card_insert_le start (inMapCells m)
        rw [inMapCells_card] at h1
        exact h1
      have hgb0 : gstar ≤ s.closed.card := hInv.gbound e.2 gstar hgstar
      by_cases hegoal : e.2 = goal
      · -- the goal is popped: rebuild the path
        have hggoal : s.g_scores goal = some gstar := by
          rw [← hegoal]
          exact hgstar
        obtain ⟨hops, res, hrun, hlen, hople, hwalk⟩ :=
          rebuild_spec hInv.came_chain (m.width * m.height + 2) goal gstar [goal]
            hggoal (by omega)
        have hoptg : ∀ n, Walk m (allowedA m goal) start goal n → gstar ≤ n := by
          rw [hegoal] at hopt
          exact hopt
        have hopseq : hops = gstar := by
          have := hoptg hops hwalk
          omega
        have heq : astarLoop m start goal (fuel + 1) s =
            some (.ok (some res)) := by
          simp only [astarLoop]
          rw [if_neg hempty]
          simp only [hpop]
          rw [if_pos hegoal]
          simp only [hrun]
        refine ⟨?_, ?_⟩
        · intro _
          refine ⟨res, gstar, heq, ?_, ?_, hoptg⟩
          · rw [hlen]
            simp only [List.length_cons, List.length_nil]
            omega
          · rw [← hopseq]
            exact hwalk
        · intro hnw
          exact absurd ⟨gstar, hInv.gwalk goal gstar hggoal⟩ hnw
      · -- expand the popped node
        have hnotclosed : e.2 ∉ s.closed := by
          intro hc
          exact hInv.closed_not_open e.2 hc hcuros
        have hInv1 : AInv m start goal (some e.2)
            { s with open_q := rest, open_set := s.open_set.erase e.2,
                     closed := insert e.2 s.closed } := by
          refine ⟨hrsorted, ?_, ?_, ?_, hInv.gwalk, ?_, ?_, ?_, ?_, ?_, ?_, ?_, ?_,
            hInv.came_chain⟩
          · intro p hp
            obtain ⟨hpne, hpmem⟩ := Finset.mem_erase.mp hp
            obtain ⟨gp, hgp, k, hk, hkle⟩ := hInv.open_has p hpmem
            exact ⟨gp, hgp, k, popOpen_keep hpop (k, p) hk hpmem hpne, hkle⟩
          · intro e' he'
            exact hInv.entry_sound e' (hrsub e' he')
          · intro e' he'
            exact hInv.entry_pos e' (hrsub e' he')
          · intro p gp hgp
            rcases hInv.gdom p gp hgp with h | h
            · by_cases hpe : p = e.2
              · exact Or.inr (hpe ▸ Finset.mem_insert_self _ _)
              · exact Or.inl (Finset.mem_erase.mpr ⟨hpe, h⟩)
            · exact Or.inr (Finset.mem_insert_of_mem h)
          · intro p gp hgp
            exact le_trans (hInv.gbound p gp hgp)
              (Finset.card_le_card (Finset.subset_insert _ _))
          · intro p hp
            rcases Finset.mem_insert.mp hp with rfl | hp
            · exact ⟨gstar, hgstar, hopt⟩
            · exact hInv.closed_settled p hp
          · intro p hp
            rcases Finset.mem_insert.mp hp with rfl | hp
            · exact Finset.not_mem_erase _ _
            · intro hc
              exact hInv.closed_not_open p hp (Finset.mem_of_mem_erase hc)
          · intro p hp hpexc gp hgp v hdv hinv2 halv
            have hpe : p ≠ e.2 := fun hc => hpexc (congrArg some hc)
            have hp2 : p ∈ s.closed := by
              rcases Finset.mem_insert.mp hp with hc | hc
              · exact absurd hc hpe
              · exact hc
            rcases hInv.closed_expanded p hp2 (by simp) gp hgp v hdv hinv2 halv with
              hv | ⟨hvo, gv, hgv, hgvle⟩
            · exact Or.inl (Finset.mem_insert_of_mem hv)
            · by_cases hve : v = e.2
              · exact Or.inl (hve ▸ Finset.mem_insert_self _ _)
              · exact Or.inr ⟨Finset.mem_erase.mpr ⟨hve, hvo⟩, gv, hgv, hgvle⟩
          · by_cases hse : start = e.2
            · exact Or.inl (hse ▸ Finset.mem_insert_self _ _)
            · rcases hInv.start_state with h | ⟨hop, hg0⟩
              · exact Or.inl (Finset.mem_insert_of_mem h)
              · exact Or.inr ⟨Finset.mem_erase.mpr ⟨hse, hop⟩, hg0⟩
          · intro hc
            rcases Finset.mem_insert.mp hc with hc2 | hc2
            · exact hegoal hc2.symm
            · exact hInv.goal_not_closed hc2
          · intro p hp
            rcases Finset.mem_insert.mp hp with rfl | hp
            · exact hInv.entry_pos e hein
            · exact hInv.closed_pos p hp
        have hgb1 : gstar + 1 ≤ (insert e.2 s.closed).card := by
          rw [Finset.card_insert_of_not_mem hnotclosed]
          omega
        obtain ⟨s2, hfold, hInv2, hc2, hg2, hkeep2, hopen2, hlen2, hmono2, hexp2⟩ :=
          astarFold_spec (m.adjacents e.2 false none none true)
            { s with open_q := rest, open_set := s.open_set.erase e.2,
                     closed := insert e.2 s.closed }
            (fun v hv => ⟨(mem_adjacents_plain.mp hv).1, (mem_adjacents_plain.mp hv).2⟩)
            hInv1 hgstar hgb1
        have hInv2' : AInv m start goal none s2 := by
          refine ⟨hInv2.sorted, hInv2.open_has, hInv2.entry_sound, hInv2.entry_pos,
            hInv2.gwalk, hInv2.gdom, hInv2.gbound, hInv2.closed_settled,
            hInv2.closed_not_open, ?_, hInv2.start_state, hInv2.goal_not_closed,
            hInv2.closed_pos, hInv2.came_chain⟩
          intro p hp _ gp hgp v hdv hinv2 halv
          by_cases hpe : p = e.2
          · have hgpeq : gp = gstar := by
              rw [hpe, hg2] at hgp
              injection hgp with h
              exact h.symm
            subst hgpeq
            have hvl : v ∈ m.adjacents e.2 false none none true := by
              refine mem_adjacents_plain.mpr ⟨?_, hinv2⟩
              rw [← hpe]
              exact hdv
            exact hexp2 v hvl halv
          · exact hInv2.closed_expanded p hp
              (fun hc => hpe (Option.some.inj hc)) gp hgp v hdv hinv2 halv
        have hcard2 : s2.closed.card = s.closed.card + 1 := by
          rw [hc2]
          show (insert e.2 s.closed).card = s.closed.card + 1
          rw [Finset.card_insert_of_not_mem hnotclosed]
        have hcardS2 : s2.closed.card ≤ (insert start (inMapCells m)).card := by
          refine Finset.card_le_card ?_
          intro p hp
          exact mem_searchSpace (hInv2.closed_pos p hp)
        have hqlen2 : s2.open_q.length ≤ rest.length +
            (m.adjacents e.2 false none none true).length := hlen2
        have hl8 : (m.adjacents e.2 false none none true).length ≤ 8 :=
          length_adjacents_le m e.2 false none
        have hphi2 : phiA m start s2 < fuel := by
          simp only [phiA] at hphi ⊢
          omega
        have heq : astarLoop m start goal (fuel + 1) s =
            astarLoop m start goal fuel s2 := by
          simp only [astarLoop]
          rw [if_neg hempty]
          simp only [hpop]
          rw [if_neg hegoal]
          simp only [hfold]
        rw [heq]
        exact ih s2 hInv2' hphi2


/-- `Map.path` either returns an optimal path (goal reachable in the
free-or-goal graph) or `None` (unreachable); it never raises and never
exhausts its fuel. -/
theorem path_spec (m : Map) (start goal : Pos) :
    ((∃ n, Walk m (allowedA m goal) start goal n) →
      ∃ pathL D, m.path start goal = some (.ok (some pathL)) ∧
        pathL.length = D + 1 ∧ Walk m (allowedA m goal) start goal D ∧
        ∀ n, Walk m (allowedA m goal) start goal n → D ≤ n) ∧
    ((¬ ∃ n, Walk m (allowedA m goal) start goal n) →
      m.path start goal = some (.ok none)) := by
  have hInv0 : AInv m start goal none
      { came_from := fun _ => none,
        open_q := [(distance start goal, start)],
        open_set := {start},
        g_scores := fun p => if p = start then some 0 else none,
        f_scores := fun p => if p = start then some (distance start goal) else none,
        closed := ∅ } := by
    refine ⟨by simp, ?_, ?_, ?_, ?_, ?_, ?_, by simp, by simp, by simp, ?_,
      by simp, by simp, ?_⟩
    · intro p hp
      have hps : p = start := Finset.mem_singleton.mp hp
      subst hps
      refine ⟨0, ?_, distance p goal, List.mem_cons_self _ _, by omega⟩
      show (if p = p then (some 0 : Option Nat) else none) = some 0
      rw [if_pos rfl]
    · intro e he
      rcases List.mem_cons.mp he with rfl | he
      · refine ⟨0, Walk.nil, by dsimp only; omega, 0, ?_, le_refl _⟩
        show (if start = start then (some 0 : Option Nat) else none) = some 0
        rw [if_pos rfl]
      · exact absurd he (by simp)
    · intro e he
      rcases List.mem_cons.mp he with rfl | he
      · exact Or.inl rfl
      · exact absurd he (by simp)
    · intro p gp hgp
      have hgp2 : (if p = start then (some 0 : Option Nat) else none) = some gp := hgp
      by_cases hp : p = start
      · subst hp
        rw [if_pos rfl] at hgp2
        injection hgp2 with h
        rw [← h]
        exact Walk.nil
      · rw [if_neg hp] at hgp2
        exact absurd hgp2 (by simp)
    · intro p gp hgp
      have hgp2 : (if p = start then (some 0 : Option Nat) else none) = some gp := hgp
      by_cases hp : p = start
      · subst hp
        exact Or.inl (Finset.mem_singleton_self _)
      · rw [if_neg hp] at hgp2
        exact absurd hgp2 (by simp)
    · intro p gp hgp
      have hgp2 : (if p = start then (some 0 : Option Nat) else none) = some gp := hgp
      by_cases hp : p = start
      · subst hp
        rw [if_pos rfl] at hgp2
        injection hgp2 with h
        simp [← h]
      · rw [if_neg hp] at hgp2
        exact absurd hgp2 (by simp)
    · refine Or.inr ⟨Finset.mem_singleton_self _, ?_⟩
      show (if start = start then (some 0 : Option Nat) else none) = some 0
      rw [if_pos rfl]
    · intro p gp hgp
      have hgp2 : (if p = start then (some 0 : Option Nat) else none) = some gp := hgp
      by_cases hp : p = start
      · subst hp
        rw [if_pos rfl] at hgp2
        injection hgp2 with h
        exact Or.inl ⟨rfl, h.symm⟩
      · rw [if_neg hp] at hgp2
        exact absurd hgp2 (by simp)
  have hphi0 : phiA m start
      { came_from := fun _ => none,
        open_q := [(distance start goal, start)],
        open_set := {start},
        g_scores := fun p => if p = start then some 0 else none,
        f_scores := fun p => if p = start then some (distance start goal) else none,
        closed := ∅ } < 9 * (m.width * m.height + 1) + 3 := by
    have hcard : (insert start (inMapCells m)).card ≤ m.width * m.height + 1 := by
      have h1 := Finset.card_insert_le start (inMapCells m)
      rw [inMapCells_card] at h1
      exact h1
    simp only [phiA, List.length_cons, List.length_nil, Finset.card_empty]
    omega
  exact astarLoop_spec m start goal (9 * (m.width * m.height + 1) + 3) _ hInv0 hphi0

/-- C8: for every start and every goal with no walk to it through free tiles
(with the final hop allowed onto the goal itself), `Map.path(start, goal)`
returns `None` and raises no exception. -/
theorem Map.path_unreachable_none (m : Map) (start goal : Pos)
    (h : ∀ n, ¬ Walk m (allowedA m goal) start goal n) :
    m.path start goal = some (.ok none) :=
  (path_spec m start goal).2 (fun ⟨n, hw⟩ => h n hw)

/-- Witness for C8: on the 1×1 floor map, the out-of-map goal (5,5) is
unreachable and `path` returns `None` without raising. -/
theorem Map.path_unreachable_none_witness :
    sampleMap1.path (0, 0) (5, 5) = some (.ok none) :=
  Map.path_unreachable_none sampleMap1 (0, 0) (5, 5) (fun n hw => by
    rcases walk_endpoint hw with h | h
    · exact absurd h (by decide)
    · exact absurd h (by decide))

/-- C1: for every map and every start/goal pair with the goal free and
reachable from the start through free tiles, `Map.path(start, goal)` returns
a list whose length minus 1 is exactly the distance `Map.dist_metrics(start)`
records for the goal. -/
theorem Map.path_length_eq_dist_metrics (m : Map) (start goal : Pos)
    (hfree : m.is_free goal = true) (t : Nat)
    (hwalk : Walk m m.is_free start goal t) :
    ∃ pathL st D, m.path start goal = some (.ok (some pathL)) ∧
      m.dist_metrics start = some st ∧ st.dists goal = some D ∧
      pathL.length - 1 = D := by
  have hwA : Walk m (allowedA m goal) start goal t :=
    (walk_allowedA_iff_free hfree).mpr hwalk
  obtain ⟨pathL, D, hpath, hlen, hwD, hmin⟩ := (path_spec m start goal).1 ⟨t, hwA⟩
  obtain ⟨st, hdm, hDInv, hq⟩ := dist_metrics_spec m start
  obtain ⟨k, hk, hkle, hwk⟩ := dijk_final hDInv hq hwalk
  have hwDfree : Walk m m.is_free start goal D :=
    (walk_allowedA_iff_free hfree).mp hwD
  obtain ⟨k2, hk2, hk2le, -⟩ := dijk_final hDInv hq hwDfree
  have hkk2 : k2 = k := by
    rw [hk] at hk2
    injection hk2 with h
    exact h.symm
  have hDk : D ≤ k := hmin k ((walk_allowedA_iff_free hfree).mpr hwk)
  refine ⟨pathL, st, k, hpath, hdm, hk, ?_⟩
  omega

/-- Witness for C1: on the 1×1 floor map with start = goal = (0,0), `path`
returns a 1-element list and `dist_metrics` records distance 0. -/
theorem Map.path_length_eq_dist_metrics_witness :
    sampleMap1.is_free (0, 0) = true ∧
    ∃ pathL st D, sampleMap1.path (0, 0) (0, 0) = some (.ok (some pathL)) ∧
      sampleMap1.dist_metrics (0, 0) = some st ∧ st.dists (0, 0) = some D ∧
      pathL.length - 1 = D :=
  ⟨by decide,
   Map.path_length_eq_dist_metrics sampleMap1 (0, 0) (0, 0) (by decide) 0 Walk.nil⟩

end Revengate
